import Mathlib

/-!
Verification of the persistency library (persistent data structures over an
order-maintenance version service and a node-copying link fabric).

The development shallowly embeds the Rust sources:

* `PListM`   — the persistent doubly-linked list of `src/lib.rs`
  (`PersistenLinkedList`, versioned pointer slots, cascading fixups);
* `LinkM`    — the generic link fabric of `src/link.rs` together with the
  binary-tree tags of `src/binary_tree.rs`;
* `CellM`    — the persistent cell of `src/cell.rs` and the persistent
  vector of `src/vec.rs`, over the version-tree order abstraction;
* `VersionM` — the two-level order-maintenance structure of
  `src/version.rs` (super-node ring with labels, splitting, renumbering).

Pointers are embedded as indices into an explicit heap (a `List` of nodes);
machine integers are `Nat` with explicit `% 2^64` where the source relies on
wrapping; Rust panics, failed `assert!`s and out-of-fuel recursions are
`Option.none`.
-/

namespace PListM

/-- A versioned pointer slot, mirroring `PersistentLinkedListPointer` of
`src/lib.rs`: an original (version, pointer) plus at most one `new`
(version, pointer) overlay.  Pointers are heap indices; `Option.none` is the
null pointer. -/
structure Slot where
  origV : Nat
  orig : Option Nat
  newV : Option Nat
  newP : Option Nat
deriving Repr, DecidableEq

/-- A fresh slot for a node allocated at `version`
(`PersistentLinkedListPointer::new`). -/
def Slot.fresh (version : Nat) : Slot :=
  { origV := version, orig := none, newV := none, newP := none }

/-- `PersistentLinkedListPointer::get`: the overlay wins when its version is
at or below the requested one.  The outer `none` is the
`assert!(version >= self.original_version)` failure. -/
def Slot.get (s : Slot) (version : Nat) : Option (Option Nat) :=
  if version < s.origV then none
  else
    some (match s.newV with
      | some v => if v ≤ version then s.newP else s.orig
      | none => s.orig)

/-- `PersistentLinkedListPointer::update`; returns the updated slot and the
copy-required flag, `none` when one of the source asserts fires. -/
def Slot.update (s : Slot) (version : Nat) (ptr : Option Nat) :
    Option (Slot × Bool) :=
  match s.newV with
  | some v =>
    if v = version then some ({ s with newP := ptr }, false)
    else if v < version then some (s, true)
    else none
  | none =>
    if s.origV = version then some ({ s with orig := ptr }, false)
    else if s.origV < version ∧ 0 < version then
      some ({ s with newV := some version, newP := ptr }, false)
    else none

/-- A list node, mirroring `PersistentLinkedListInner`. -/
structure NodeL where
  value : Nat
  nxt : Slot
  prv : Slot
  copy : Option Nat
deriving Repr, DecidableEq

/-- The heap: node address = list index. -/
abbrev Heap := List NodeL

/-- Allocate a node (`PersistentLinkedListInner::alloc`). -/
def allocNode (h : Heap) (value version : Nat) : Heap × Nat :=
  (h ++ [{ value := value, nxt := Slot.fresh version, prv := Slot.fresh version,
           copy := none }], h.length)

/-- Replace the node stored at address `i`. -/
def setNode (h : Heap) (i : Nat) (n : NodeL) : Heap := h.set i n

/-- Select the next (`true`) or prev (`false`) slot of a node. -/
def whichGet (n : NodeL) (w : Bool) : Slot := if w then n.nxt else n.prv

/-- Store into the next (`true`) or prev (`false`) slot of a node. -/
def whichSet (n : NodeL) (w : Bool) (s : Slot) : NodeL :=
  if w then { n with nxt := s } else { n with prv := s }

/-- `PersistentLinkedListInner::copy`: allocate a duplicate whose slots are
initialised (at `version`) with the current `get` values, record the
forwarding pointer on the source node.  The asserts of the source
(`assert!(!ptr.next.update(..))`) cannot fire on a fresh slot and are kept as
checks. -/
def nodeCopy (h : Heap) (i version : Nat) : Option (Heap × Nat) :=
  match h[i]? with
  | none => none
  | some self =>
    match self.nxt.get version, self.prv.get version with
    | some nv, some pv =>
      let (h1, c) := allocNode h self.value version
      match (Slot.fresh version).update version nv,
            (Slot.fresh version).update version pv with
      | some (sn, false), some (sp, false) =>
        let h2 := setNode h1 c { value := self.value, nxt := sn, prv := sp,
                                 copy := none }
        some (setNode h2 i { self with copy := some c }, c)
      | _, _ => none
    | _, _ => none

/-- `get_new_version`: follow the copy pointer one step if present. -/
def getNewVersion (h : Heap) (i : Nat) : Option Nat :=
  match h[i]? with
  | none => none
  | some n => some (n.copy.getD i)

/-- `PersistentLinkedListInner::set_ptr`.  Result `none` in the inner
position means no cascading is required; `some j` asks the caller to cascade
from node `j` (the node itself or its fresh copy). -/
def setPtr (h : Heap) (i version : Nat) (ptr : Option Nat) (w : Bool) :
    Option (Heap × Option Nat) :=
  match h[i]? with
  | none => none
  | some self =>
    match (whichGet self w).get version with
    | none => none
    | some cur =>
      if cur = ptr then some (h, none)
      else
        match (whichGet self w).update version ptr with
        | none => none
        | some (s1, needCopy) =>
          if needCopy then
            match nodeCopy h i version with
            | none => none
            | some (h1, c) =>
              match h1[c]? with
              | none => none
              | some cn =>
                match (whichGet cn w).update version ptr with
                | some (s2, false) =>
                  some (setNode h1 c (whichSet cn w s2), some c)
                | _ => none
          else
            let h1 := setNode h i (whichSet self w s1)
            match s1.get version with
            | some chk => if chk = ptr then some (h1, some i) else none
            | none => none

/-- `PersistentLinkedListInner::cascade_ptrs`, with explicit recursion
fuel: `none` is a panic or fuel exhaustion. -/
def cascade : Nat → Heap → Nat → Nat → Option Heap
  | 0, _, _, _ => none
  | fuel + 1, h, i, version =>
    match h[i]? with
    | none => none
    | some self =>
      let afterNext : Option Heap :=
        match self.nxt.get version with
        | none => none
        | some (some nIdx) =>
          match getNewVersion h nIdx with
          | none => none
          | some nIdx2 =>
            match setPtr h nIdx2 version (some i) false with
            | none => none
            | some (h1, some c) => cascade fuel h1 c version
            | some (h1, none) => some h1
        | some none => some h
      match afterNext with
      | none => none
      | some h1 =>
        match h1[i]? with
        | none => none
        | some self1 =>
          match self1.prv.get version with
          | none => none
          | some (some pIdx) =>
            match getNewVersion h1 pIdx with
            | none => none
            | some pIdx2 =>
              match setPtr h1 pIdx2 version (some i) true with
              | none => none
              | some (h2, some c) => cascade fuel h2 c version
              | some (h2, none) => some h2
          | some none => some h1

/-- `insert_on_opt` of `src/lib.rs`.  The outer `Option` is panic or fuel
exhaustion, the inner one is the function's own `Option` result. -/
def insertOnOpt (fuel : Nat) (h : Heap) (opt : Option Nat)
    (index value version : Nat) : Option (Heap × Option Nat) :=
  match opt with
  | none => some (h, none)
  | some i =>
    match index with
    | 0 =>
      let (h1, nn) := allocNode h value version
      match setPtr h1 nn version opt true with
      | none => none
      | some (h2, _) =>
        match h2[i]? with
        | none => none
        | some self =>
          match self.prv.get version with
          | none => none
          | some pv =>
            match setPtr h2 nn version pv false with
            | none => none
            | some (h3, _) =>
              match cascade fuel h3 nn version with
              | none => none
              | some h4 => some (h4, some nn)
    | index + 1 =>
      match h[i]? with
      | none => none
      | some self =>
        match version with
        | 0 => none
        | vpred + 1 =>
          match self.nxt.get vpred with
          | none => none
          | some nxtp =>
            let step : Option (Heap × Bool) :=
              if nxtp = none ∧ index = 0 then
                let (h1, nn) := allocNode h value version
                match setPtr h1 nn version opt false with
                | none => none
                | some (h2, _) =>
                  match cascade fuel h2 nn version with
                  | none => none
                  | some h3 => some (h3, true)
              else
                match insertOnOpt fuel h nxtp index value version with
                | none => none
                | some (h1, none) => some (h1, false)
                | some (h1, some _) => some (h1, true)
            match step with
            | none => none
            | some (h1, false) => some (h1, none)
            | some (h1, true) =>
              match getNewVersion h1 i with
              | none => none
              | some r => some (h1, some r)

/-- `get_on_opt`: walk `index` next-hops at `version`. -/
def getOnOpt (h : Heap) : Option Nat → Nat → Nat → Option (Option Nat)
  | none, _, _ => some none
  | some i, index, version =>
    match h[i]? with
    | none => none
    | some n =>
      match index with
      | 0 => some (some n.value)
      | index + 1 =>
        match n.nxt.get version with
        | none => none
        | some nxtp => getOnOpt h nxtp index version

/-- A `PersistenLinkedList` handle: root pointer and version counter. -/
structure Handle where
  value : Option Nat
  version : Nat
deriving Repr, DecidableEq

/-- `PersistenLinkedList::new`. -/
def emptyList : Handle := { value := none, version := 0 }

/-- `PersistenLinkedList::get`. -/
def listGet (h : Heap) (l : Handle) (index : Nat) : Option (Option Nat) :=
  getOnOpt h l.value index l.version

/-- `PersistenLinkedList::insert`.  Outer `none`: panic / out of fuel;
inner `none`: the operation returned `None` (index out of bounds). -/
def listInsert (fuel : Nat) (h : Heap) (l : Handle) (index value : Nat) :
    Option (Heap × Option Handle) :=
  match l.value with
  | some _ =>
    match insertOnOpt fuel h l.value index value (l.version + 1) with
    | none => none
    | some (h1, none) => some (h1, none)
    | some (h1, some p) =>
      some (h1, some { value := some p, version := l.version + 1 })
  | none =>
    if index = 0 then
      let (h1, nn) := allocNode h value (l.version + 1)
      some (h1, some { value := some nn, version := l.version + 1 })
    else some (h, none)

/-- Run a sequence of `(index, value)` inserts, each applied to the handle
returned by the previous insert, starting from a given heap and handle. -/
def runInserts (fuel : Nat) : Heap → Handle → List (Nat × Nat) →
    Option (Heap × Handle)
  | h, l, [] => some (h, l)
  | h, l, (i, v) :: rest =>
    match listInsert fuel h l i v with
    | some (h1, some l1) => runInserts fuel h1 l1 rest
    | _ => none

/-- Read the first `n` elements through a handle. -/
def readSeq (h : Heap) (l : Handle) (n : Nat) : Option (List (Option Nat)) :=
  (List.range n).mapM (fun i => listGet h l i)

end PListM

namespace LinkM

/-- The binary-tree link tags of `src/binary_tree.rs`. -/
inductive BTag where
  | leftChild
  | rightChild
  | leftParent
  | rightParent
deriving Repr, DecidableEq

/-- The `LinkTag::reverse` involution of `src/binary_tree.rs`. -/
def BTag.reverse : BTag → BTag
  | .leftChild => .leftParent
  | .rightChild => .rightParent
  | .leftParent => .leftChild
  | .rightParent => .rightChild

/-- An occupied link slot (`Link` of `src/link.rs`): tag, version written,
target node pointer and twin pointer.  The twin pointer addresses a slot as
(node index, slot index); `none` is `NonNull::dangling()`. -/
structure LinkS where
  tag : BTag
  version : Nat
  nodePtr : Nat
  linkPtr : Option (Nat × Nat)
deriving Repr, DecidableEq

/-- A link-fabric node (`Node` of `src/binary_tree.rs`): fat slot array,
payload and copy forwarding pointer. -/
structure NodeK where
  slots : List (Option LinkS)
  value : Nat
  copy : Option Nat
deriving Repr, DecidableEq

/-- The link-fabric heap: node address = list index. -/
abbrev KHeap := List NodeK

/-- A node with `c` empty slots (`core::array::from_fn(|_| None)`). -/
def emptyNodeK (c value : Nat) : NodeK :=
  { slots := List.replicate c none, value := value, copy := none }

/-- Index of the first free slot (`iter_mut().find(|l| l.is_none())`). -/
def findFreeIdx (slots : List (Option LinkS)) : Option Nat :=
  slots.findIdx? Option.isNone

/-- Read the slot addressed by a twin pointer. -/
def slotAt (h : KHeap) (p : Nat × Nat) : Option (Option LinkS) :=
  match h[p.1]? with
  | none => none
  | some n => n.slots[p.2]?

/-- Write a whole slot of a node. -/
def setSlotK (h : KHeap) (i si : Nat) (s : Option LinkS) : Option KHeap :=
  match h[i]? with
  | none => none
  | some n =>
    if si < n.slots.length then
      some (h.set i { n with slots := n.slots.set si s })
    else none

/-- Rewrite an occupied slot of a node in place. -/
def updateSlotK (h : KHeap) (i si : Nat) (f : LinkS → LinkS) : Option KHeap :=
  match h[i]? with
  | none => none
  | some n =>
    match n.slots[si]? with
    | some (some l) => some (h.set i { n with slots := n.slots.set si (some (f l)) })
    | _ => none

/-- The slot that `Node::get` selects: matching tag, version at most the
requested one, maximal version (later slot wins ties, as `max_by_key`). -/
def bestSlot (slots : List (Option LinkS)) (tag : BTag) (version : Nat) :
    Option LinkS :=
  slots.foldl
    (fun acc o =>
      match o with
      | some l =>
        if l.tag = tag ∧ l.version ≤ version then
          match acc with
          | none => some l
          | some b => if b.version ≤ l.version then some l else some b
        else acc
      | none => acc)
    none

/-- `Node::get` of `src/link.rs`. -/
def linkGet (h : KHeap) (i : Nat) (tag : BTag) (version : Nat) :
    Option (Option Nat) :=
  match h[i]? with
  | none => none
  | some n => some ((bestSlot n.slots tag version).map (fun l => l.nodePtr))

/-- The indices that `copy_and_prepare` collects into `to_move`: slots whose
entry is the latest version for its tag, computed over the given container.
(The source computes this over the fresh copy's container.) -/
def movableIdx (container : List (Option LinkS)) : List Nat :=
  (List.range container.length).filter
    (fun i =>
      match container[i]? with
      | some (some current) =>
        container.all
          (fun o =>
            match o with
            | some l => decide (l.tag ≠ current.tag ∨ l.version ≤ current.version)
            | none => true)
      | _ => false)

/-- The migration loop of `copy_and_prepare` over the `to_move` indices,
operating on the slots of the copy `c` (as the source does), parametrised by
the `add` implementation used for the re-install path.  Equal-version
entries are moved to a free slot with the twin rewritten; older entries are
re-installed through `add`. -/
def moveLoopGen
    (addFn : KHeap → Nat → BTag → Nat → Nat → Bool → Option (KHeap × Nat × Nat × Nat))
    (c version : Nat) : KHeap → List Nat → Option KHeap
  | h, [] => some h
  | h, i :: rest =>
    match h[c]? with
    | none => none
    | some cn =>
      match cn.slots[i]? with
      | some (some link) =>
        if link.version = version then
          match findFreeIdx cn.slots with
          | none => none
          | some fi =>
            match setSlotK h c fi (some ⟨link.tag, version,
                link.nodePtr, link.linkPtr⟩) with
            | none => none
            | some h1 =>
              match link.linkPtr with
              | none => none
              | some tp =>
                match updateSlotK h1 tp.1 tp.2
                    (fun l => { l with nodePtr := c, linkPtr := some (c, fi) }) with
                | none => none
                | some h2 =>
                  match setSlotK h2 c i none with
                  | none => none
                  | some h3 => moveLoopGen addFn c version h3 rest
        else
          match addFn h c link.tag link.nodePtr version false with
          | none => none
          | some (h1, _, _, _) => moveLoopGen addFn c version h1 rest
      | _ => none

/-- `Node::copy_and_prepare` of `src/link.rs`, parametrised by the `add`
implementation: allocate the duplicate via `copy()` (empty slots, forwarding
pointer recorded on the source node), then walk the container obtained from
the fresh copy — which is all-empty, so in the source nothing is ever
migrated — and return the copy. -/
def copyPrepGen
    (addFn : KHeap → Nat → BTag → Nat → Nat → Bool → Option (KHeap × Nat × Nat × Nat))
    (h : KHeap) (i version : Nat) : Option (KHeap × Nat) :=
  match h[i]? with
  | none => none
  | some self =>
    let c := h.length
    let h1 := (h ++ [emptyNodeK self.slots.length self.value]).set i
      { self with copy := some c }
    match h1[c]? with
    | none => none
    | some cn =>
      match moveLoopGen addFn c version h1 (movableIdx cn.slots) with
      | none => none
      | some h2 => some (h2, c)

/-- `Node::add` of `src/link.rs`, with explicit fuel (`none` = the call did
not complete within `fuel` steps, or a source assert fired).  Returns the
final heap, the node the slot landed in (`self_non_null`) and the address of
the installed slot (`link_non_null`).  Note the recursive reverse-edge call
passes `reverse = false`, exactly as the source does. -/
def addF : Nat → KHeap → Nat → BTag → Nat → Nat → Bool →
    Option (KHeap × Nat × Nat × Nat)
  | 0, _, _, _, _, _, _ => none
  | fuel + 1, h, selfIdx, tag, ptr, version, reverse =>
    match h[selfIdx]? with
    | none => none
    | some self =>
      match findFreeIdx self.slots with
      | some si =>
        match setSlotK h selfIdx si (some ⟨tag, version, ptr, none⟩) with
        | none => none
        | some h1 =>
          if reverse then some (h1, selfIdx, selfIdx, si)
          else
            match addF fuel h1 ptr tag.reverse selfIdx version false with
            | none => none
            | some (h2, ptr2, tn, ts) =>
              match updateSlotK h2 selfIdx si
                  (fun l => { l with nodePtr := ptr2, linkPtr := some (tn, ts) }) with
              | none => none
              | some h3 =>
                match updateSlotK h3 tn ts
                    (fun l => { l with linkPtr := some (selfIdx, si) }) with
                | none => none
                | some h4 => some (h4, selfIdx, selfIdx, si)
      | none =>
        match copyPrepGen (addF fuel) h selfIdx version with
        | none => none
        | some (h1, c) => addF fuel h1 c tag ptr version reverse

/-- `Node::copy_and_prepare` at a given fuel. -/
def copyPrepF (fuel : Nat) (h : KHeap) (i version : Nat) :
    Option (KHeap × Nat) :=
  copyPrepGen (addF fuel) h i version

/-- `Node::current_version` of `src/link.rs`: follow the copy pointer
one step (`copy_pointer().map(..).unwrap_or(self)`). -/
def currentVersion (h : KHeap) (i : Nat) : Option Nat :=
  (h[i]?).map (fun n => n.copy.getD i)

/-- The copy pointer of the node at address `i`. -/
def copyPointer (h : KHeap) (i : Nat) : Option (Option Nat) :=
  (h[i]?).map (fun n => n.copy)

/-- Twin symmetry (spec P7) as a boolean check: every occupied slot has a
twin pointer naming an occupied slot whose own twin pointer points back. -/
def twinSymB (h : KHeap) : Bool :=
  (List.range h.length).all fun i =>
    match h[i]? with
    | none => true
    | some n =>
      (List.range n.slots.length).all fun si =>
        match n.slots[si]? with
        | some (some l) =>
          match l.linkPtr with
          | none => false
          | some tp =>
            match slotAt h tp with
            | some (some tl) => tl.linkPtr = some (i, si)
            | _ => false
        | _ => true

/-- `Node::insert` of `src/binary_tree.rs`, for a tree of `Nat` keys: BST
descent through `get`, installing an absent child with
`add(childTag, newNode, version, reverse = false)`. -/
def bstInsertF (fuel : Nat) (h : KHeap) (i value version : Nat) :
    Option KHeap :=
  match fuel with
  | 0 => none
  | fuel + 1 =>
    match h[i]? with
    | none => none
    | some self =>
      let tag : BTag := if value < self.value then .leftChild else .rightChild
      match linkGet h i tag version with
      | none => none
      | some (some child) => bstInsertF fuel h child value version
      | some none =>
        let (h1, nn) := (h ++ [emptyNodeK 4 value], h.length)
        match addF fuel h1 i tag nn version false with
        | none => none
        | some (h2, _, _, _) => some h2

end LinkM

namespace PListM

/-- The branching scenario of spec S4: build the two-element list `[1, 0]`
by two head inserts, keep the intermediate handle `a` (for `[0]`) and the
handle `b` (for `[1, 0]`), then branch by inserting `2` at the head of `a`.
Returns the heap before the branch, the heap after it, and the handle `b`. -/
def branchRun : Option (Heap × Heap × Handle) :=
  match runInserts 99 [] emptyList [(0, 0)] with
  | none => none
  | some (h1, a) =>
    match listInsert 99 h1 a 0 1 with
    | some (h2, some b) =>
      match listInsert 99 h2 a 0 2 with
      | some (h3, some _) => some (h2, h3, b)
      | _ => none
    | _ => none

end PListM

namespace LinkM

/-- A three-node heap whose copy pointers form the chain 0 → 1 → 2. -/
def chain3 : KHeap := [⟨[], 0, some 1⟩, ⟨[], 0, some 2⟩, ⟨[], 0, none⟩]

end LinkM

namespace CellM

/-!
The persistent cell (`src/cell.rs`) and persistent vector (`src/vec.rs`)
are clients of the order-maintenance service only through the total order
on `PartialVersion`.  They are embedded here over the canonical abstraction
of that service: the extant version nodes kept as a list in version order
(`order`), where `PartialVersion::insert_after` places a fresh node
immediately after its argument.  Node identifiers are minted from a
counter; `Version` is a (primary, secondary) pair of node identifiers as in
`src/version.rs`.
-/

/-- Position of a version node in the order list (its rank in the total
order); nodes not in the list get the length, as `List.indexOf` would. -/
def posOf : List Nat → Nat → Nat
  | [], _ => 0
  | x :: xs, a => if x = a then 0 else posOf xs a + 1

/-- Insert node `n` immediately after node `v`
(`PartialVersion::insert_after` at the order level). -/
def insAfter : List Nat → Nat → Nat → List Nat
  | [], _, _ => []
  | x :: xs, v, n => if x = v then x :: n :: xs else x :: insAfter xs v n

/-- Version-order comparison of two nodes, as a boolean. -/
def vleB (o : List Nat) (a b : Nat) : Bool := posOf o a ≤ posOf o b

/-- An entry of the cell map: `OwnedOrPointer` of `src/cell.rs`.  A forward
entry stores the key of the owned entry whose box it points at (boxes are
stable and never removed, so the key determines the pointer). -/
inductive Entry where
  | owned (x : Nat)
  | fwd (k : Option Nat)
deriving Repr, DecidableEq

/-- A persistent cell: the `BTreeMap<PartialVersion, OwnedOrPointer<T>>` as
an association list keyed by version nodes. -/
abbrev Cell := List (Nat × Entry)

/-- Combine the best entry so far with a later candidate, the later one
winning positional ties (as iterating a `BTreeMap` range does). -/
def better (o : List Nat) (ke : Nat × Entry) : Option (Nat × Entry) → Option (Nat × Entry)
  | none => some ke
  | some b => if vleB o ke.1 b.1 then some b else some ke

/-- The entry `self.tree.range(..=q).last()` selects: the entry whose key
has the greatest position at most the position of `q` (the later entry of a
positional tie wins, which cannot occur for distinct extant keys). -/
def glb (o : List Nat) : Cell → Nat → Option (Nat × Entry)
  | [], _ => none
  | ke :: rest, q =>
    if vleB o ke.1 q then better o ke (glb o rest q) else glb o rest q

/-- Dereference an owned box through its key. -/
def lookupOwned (c : Cell) (k : Nat) : Option Nat :=
  match c.find? (fun ke => ke.1 == k) with
  | some (_, .owned x) => some x
  | _ => none

/-- `PersistentCell::get`: greatest key at most `v.primary`; an owned entry
yields its value, a forward entry dereferences its stored pointer. -/
def cellGet (o : List Nat) (c : Cell) (v : Nat × Nat) : Option Nat :=
  match glb o c v.1 with
  | none => none
  | some (_, .owned x) => some x
  | some (_, .fwd none) => none
  | some (_, .fwd (some k)) => lookupOwned c k

/-- `PersistentCell::get_mut`: some value exactly when the greatest key at
most `v.primary` is an owned entry. -/
def cellGetMut (o : List Nat) (c : Cell) (v : Nat × Nat) : Option Nat :=
  match glb o c v.1 with
  | some (_, .owned x) => some x
  | _ => none

/-- `PersistentCell::get_pointer`: the owned entry the visible value lives
in (copying a forward entry's stored pointer). -/
def getPointer (o : List Nat) (c : Cell) (q : Nat) : Option Nat :=
  match glb o c q with
  | none => none
  | some (k, .owned _) => some k
  | some (_, .fwd p) => p

/-- `Version::insert_after` at the order level: mint `primary` directly
after `v.primary` and `secondary` directly after the new primary. -/
def mintAfter (o : List Nat) (fresh : Nat) (v : Nat × Nat) :
    List Nat × Nat × (Nat × Nat) :=
  let p := fresh
  let s := fresh + 1
  (insAfter (insAfter o v.1 p) p s, fresh + 2, (p, s))

/-- `PersistentCell::insert_after`: mint the new version, insert the owned
value at its primary, then the forward entry (with the pointer visible at
`v`, computed after the owned insert as in the source) at its secondary. -/
def cellInsertAfter (o : List Nat) (fresh : Nat) (c : Cell) (v : Nat × Nat)
    (x : Nat) : List Nat × Nat × Cell × (Nat × Nat) :=
  let r := mintAfter o fresh v
  let o2 := r.1
  let w := r.2.2
  let c1 := c ++ [(w.1, Entry.owned x)]
  let ptr := getPointer o2 c1 v.1
  (o2, r.2.1, c1 ++ [(w.2, Entry.fwd ptr)], w)

/-- State of a persistent vector sharing one version tree with its clients:
the order list and fresh counter of the tree, the versions handed out so
far (`minted`), the per-slot cells and the length cell of `src/vec.rs`. -/
structure VState where
  order : List Nat
  fresh : Nat
  minted : List (Nat × Nat)
  cells : List Cell
  lenCell : Cell
deriving Repr, DecidableEq

/-- The state after `Version::new()` and `Vec::new()`: one version
(0, 1) extant, no slots, empty length cell. -/
def initV : VState :=
  { order := [0, 1], fresh := 2, minted := [(0, 1)], cells := [], lenCell := [] }

/-- `Vec::len`: value of the length cell at `v`, zero when absent. -/
def lenAt (s : VState) (v : Nat × Nat) : Nat :=
  (cellGet s.order s.lenCell v).getD 0

/-- `Vec::push_after`: read the length, materialise the slot cell if the
vector has never been that long, insert the value into the slot cell after
`v`, then record the new length after the resulting version.  The returned
version is handed to the caller (recorded in `minted`). -/
def pushAfter (s : VState) (v : Nat × Nat) (x : Nat) : VState :=
  let len := lenAt s v
  let cells := if len = s.cells.length then s.cells ++ [[]] else s.cells
  let r := cellInsertAfter s.order s.fresh (cells.getD len []) v x
  let r2 := cellInsertAfter r.1 r.2.1 s.lenCell r.2.2.2 (len + 1)
  { order := r2.1, fresh := r2.2.1, minted := s.minted ++ [r2.2.2.2],
    cells := cells.set len r.2.2.1, lenCell := r2.2.2.1 }

/-- `Vec::pop_after`: record length minus one in the length cell after `v`.
The subtraction `len - 1` underflows `usize` when the length is zero (a
panic in debug builds), embedded as `none`; nothing is recorded in that
case. -/
def popAfter (s : VState) (v : Nat × Nat) : Option (VState × (Nat × Nat)) :=
  match lenAt s v with
  | 0 => none
  | len + 1 =>
    let r := cellInsertAfter s.order s.fresh s.lenCell v len
    let s1 : VState := { s with
      order := r.1, fresh := r.2.1,
      minted := s.minted ++ [r.2.2.2], lenCell := r.2.2.1 }
    some (s1, r.2.2.2)

/-- `VecView::index`: bounds check against `len(v)`, then `vec[index]` and
the cell lookup with its `expect`; every panic is `none`.  The function is
read-only: it never modifies the vector. -/
def viewIndex (s : VState) (v : Nat × Nat) (i : Nat) : Option Nat :=
  let len := lenAt s v
  if len ≤ i then none
  else
    match s.cells[i]? with
    | none => none
    | some c => cellGet s.order c v

/-- The value the claim attributes to `view(v).index(i)`: the value of the
owned entry whose key has the greatest position at most `v.primary` (the
value placed at the slot at the greatest version at most `v`).  This
definition follows the claim's words, for comparison against `viewIndex`. -/
def ownedVisible (o : List Nat) (c : Cell) (q : Nat) : Option Nat :=
  match glb o (c.filter fun ke => match ke.2 with
    | Entry.owned _ => true
    | Entry.fwd _ => false) q with
  | some (_, Entry.owned x) => some x
  | _ => none

/-- Operations a client can drive a vector-and-version-tree state with:
minting a plain version after an extant one, pushing after an extant
version, popping after an extant version.  Operations naming an absent
version index, and pops that would panic on an empty view, leave the state
unchanged (the real program would have stopped; every real history is among
the runs kept here). -/
inductive VOp where
  | mint (vi : Nat)
  | push (vi x : Nat)
  | pop (vi : Nat)
deriving Repr, DecidableEq

/-- One step of the vector state machine. -/
def stepOp (s : VState) : VOp → VState
  | .mint vi =>
    match s.minted[vi]? with
    | none => s
    | some v =>
      let r := mintAfter s.order s.fresh v
      { s with order := r.1, fresh := r.2.1, minted := s.minted ++ [r.2.2] }
  | .push vi x =>
    match s.minted[vi]? with
    | none => s
    | some v => pushAfter s v x
  | .pop vi =>
    match s.minted[vi]? with
    | none => s
    | some v =>
      match popAfter s v with
      | none => s
      | some r => r.1

/-- Run a sequence of vector operations from the initial state. -/
def runV (ops : List VOp) : VState := ops.foldl stepOp initV

/-- State of a family of persistent cells sharing one version tree
(`src/cell.rs` alone, several cells as in the double-cell tests). -/
structure CState where
  order : List Nat
  fresh : Nat
  minted : List (Nat × Nat)
  cs : List Cell
deriving Repr, DecidableEq

/-- The state after `Version::new()`: one version (0, 1), no cells yet. -/
def initC : CState :=
  { order := [0, 1], fresh := 2, minted := [(0, 1)], cs := [] }

/-- Operations on a family of cells: minting a plain version, creating a
cell, inserting into a cell after an extant version.  Operations naming an
absent version or cell index leave the state unchanged. -/
inductive COp where
  | mint (vi : Nat)
  | newCell
  | ins (ci vi x : Nat)
deriving Repr, DecidableEq

/-- One step of the cell-family state machine. -/
def stepC (s : CState) : COp → CState
  | .mint vi =>
    match s.minted[vi]? with
    | none => s
    | some v =>
      let r := mintAfter s.order s.fresh v
      { s with order := r.1, fresh := r.2.1, minted := s.minted ++ [r.2.2] }
  | .newCell => { s with cs := s.cs ++ [[]] }
  | .ins ci vi x =>
    match s.minted[vi]?, s.cs[ci]? with
    | some v, some c =>
      let r := cellInsertAfter s.order s.fresh c v x
      { order := r.1, fresh := r.2.1, minted := s.minted ++ [r.2.2.2],
        cs := s.cs.set ci r.2.2.1 }
    | _, _ => s

/-- Run a sequence of cell operations from the initial state. -/
def runC (ops : List COp) : CState := ops.foldl stepC initC

/-- A version is before every key of a cell when every key sits strictly
after its primary in the version order. -/
def beforeAllKeys (o : List Nat) (c : Cell) (v : Nat × Nat) : Prop :=
  ∀ ke ∈ c, posOf o v.1 < posOf o ke.1

/-- The version order after `Version::insert_after(v)`: primary `f` goes
immediately after `v1`, secondary `f + 1` immediately after `f`. -/
def mintOrder (o : List Nat) (f v1 : Nat) : List Nat :=
  insAfter (insAfter o v1 f) f (f + 1)

/-- `cellGet` with the version projected to its primary node (the only
component the cell consults). -/
def cellGetP (o : List Nat) (c : Cell) (q : Nat) : Option Nat :=
  match glb o c q with
  | none => none
  | some (_, .owned x) => some x
  | some (_, .fwd none) => none
  | some (_, .fwd (some k)) => lookupOwned c k

/-- Well-formedness of a cell against the version order and fresh counter:
keys are extant version nodes below the counter and pairwise distinct, and
every forward entry points at an owned entry strictly earlier in version
order (the pointer recorded by `insert_after`). -/
structure CellWF (o : List Nat) (f : Nat) (c : Cell) : Prop where
  keysMem : ∀ ke ∈ c, ke.1 ∈ o
  keysLt : ∀ ke ∈ c, ke.1 < f
  keysNodup : (c.map Prod.fst).Nodup
  fwdLive : ∀ ke ∈ c, ∀ t, ke.2 = Entry.fwd (some t) →
    ∃ x, (t, Entry.owned x) ∈ c ∧ posOf o t < posOf o ke.1

/-- Invariant of the cell-family machine: the order is duplicate-free and
below the fresh counter, minted primaries are extant, and every cell is
well-formed. -/
structure CInv (s : CState) : Prop where
  nodup : s.order.Nodup
  bound : ∀ a ∈ s.order, a < s.fresh
  mintedMem : ∀ v ∈ s.minted, v.1 ∈ s.order
  csWF : ∀ c ∈ s.cs, CellWF s.order s.fresh c

/-- Invariant of the vector machine: tree well-formedness, cell
well-formedness of every slot cell and of the length cell, recorded
lengths bounded by the number of slot cells, and soundness: an index below
`len(v)` always reads `some` value (`VecView::index` cannot hit its
`expect`). -/
structure VInv (s : VState) : Prop where
  nodup : s.order.Nodup
  bound : ∀ a ∈ s.order, a < s.fresh
  mintedMem : ∀ v ∈ s.minted, v.1 ∈ s.order
  lenWF : CellWF s.order s.fresh s.lenCell
  cellsWF : ∀ c ∈ s.cells, CellWF s.order s.fresh c
  lenVals : ∀ ke ∈ s.lenCell, ∀ x, ke.2 = Entry.owned x → x ≤ s.cells.length
  sound : ∀ v ∈ s.minted, ∀ i, i < lenAt s v →
    ∃ c, s.cells[i]? = some c ∧ (cellGet s.order c v).isSome = true

end CellM


namespace VersionM

/-- The modulus of `u64` label arithmetic in `src/version.rs`. -/
def M : Nat := 2 ^ 64

/-- The node relabel unit `1 << 32` used by `split`. -/
def HALF : Nat := 2 ^ 32

/-- `u64::wrapping_sub` on values below `M`. -/
def wsub (a b : Nat) : Nat := (a + M - b) % M

/-- A super node of the version list: its `value` label and its chain of
version nodes, each a `(value, id)` pair in chain order.  Identifiers stand
for the `VersionNode` pointers handed out as `PartialVersion`s. -/
structure Group where
  label : Nat
  nodes : List (Nat × Nat)
deriving Repr, DecidableEq

/-- The version list: super nodes in ring order starting at `base`, and
the next free identifier. -/
structure VL where
  groups : List Group
  nextId : Nat
deriving Repr, DecidableEq

/-- `PartialVersion::new()`: one super node labelled 0 holding one node
labelled 0. -/
def init : VL := ⟨[⟨0, [(0, 0)]⟩], 1⟩

/-- Insert `x` directly after position `i`. -/
def insAfterIdx {A : Type} (l : List A) (i : Nat) (x : A) : List A :=
  l.take (i + 1) ++ [x] ++ l.drop (i + 1)

/-- Locate the group index and node index of the version node with
identifier `a`. -/
def locate : List Group → Nat → Option (Nat × Nat)
  | [], _ => none
  | g :: gs, a =>
    match g.nodes.findIdx? (fun nd => nd.2 == a) with
    | some ni => some (0, ni)
    | none =>
      match locate gs a with
      | some (gi, ni) => some (gi + 1, ni)
      | none => none

/-- The label of a fresh node inserted between labels `prevV` and `nextV`:
`prev_value + (next_value - prev_value).div_ceil(2)` with the `u64`
subtraction's debug-mode underflow panic embedded as `none`. -/
def insVal (prevV nextV : Nat) : Option Nat :=
  if nextV < prevV then none
  else some (prevV + (nextV - prevV + 1) / 2)

/-- Relabel a half chain as `split`/`split_tail` do, walking the chain with
an index: node `i` gets value `(1 << 32) * i`. -/
def relabelFrom (i : Nat) : List (Nat × Nat) → List (Nat × Nat)
  | [] => []
  | nd :: rest => (HALF * i, nd.2) :: relabelFrom (i + 1) rest

/-- Relabel a half chain starting at index 0. -/
def relabelHalf (l : List (Nat × Nat)) : List (Nat × Nat) := relabelFrom 0 l

/-- The walk of `renumber` along the super-node ring: find the least
`j ≥ 1` with `(value(next^j) - value(this)) mod 2^64 ≥ j * j`, walking the
labels after `this`.  Walking the whole ring without an exit means the
real loop never terminates (later laps check the same labels against
larger thresholds), embedded as `none`. -/
def searchJ : List Nat → Nat → Nat → Option Nat
  | [], _, _ => none
  | l :: rest, tv, k =>
    if k * k ≤ wsub l tv then some k else searchJ rest tv (k + 1)

/-- `renumber(this)` for the super node at ring position `gi`: rotate the
ring to start at `this`, search for the exit point, spread `j` labels
evenly across the found interval, and rotate back. -/
def renumber (gs : List Group) (gi : Nat) : Option (List Group) :=
  let rot := gs.drop gi ++ gs.take gi
  let tv := (rot.headD ⟨0, []⟩).label
  match searchJ ((rot.drop 1).map Group.label) tv 1 with
  | none => none
  | some j =>
    let gap := wsub ((rot.getD j ⟨0, []⟩).label) tv
    let interval := gap / j
    let rot2 := ((List.range j).map (fun i =>
      Group.mk ((tv + interval * i) % M) ((rot.getD i ⟨0, []⟩).nodes))) ++
      rot.drop j
    some (rot2.drop (gs.length - gi) ++ rot2.take (gs.length - gi))

/-- `split_super` on the group at ring position `gi`: compute the new
label halfway across the wrapped gap to the next super node, split the
64-node chain into two relabelled halves, link the new group in, and
renumber when the computed label collides with the old one.  The `expect`
on the chain length is embedded as `none`. -/
def splitSuper (gs : List Group) (gi : Nat) : Option (List Group) :=
  let g := gs.getD gi ⟨0, []⟩
  let nxt := gs.getD ((gi + 1) % gs.length) ⟨0, []⟩
  let value := (g.label + (wsub (wsub nxt.label 1) g.label + 1) / 2) % M
  if g.nodes.length = 64 then
    let gs2 := gs.set gi ⟨g.label, relabelHalf (g.nodes.take 32)⟩
    let gs3 := insAfterIdx gs2 gi ⟨value, relabelHalf (g.nodes.drop 32)⟩
    if value = g.label then renumber gs3 gi else some gs3
  else none

/-- `PartialVersion::insert_after` on the version with identifier `a`:
compute the fresh node's label from its neighbours (the next label is
`u64::MAX` at the end of a chain), link it in, and split the super node
when its size reaches 64.  An absent identifier leaves the list unchanged;
every panic or divergence is `none`. -/
def step (s : VL) (a : Nat) : Option VL :=
  match locate s.groups a with
  | none => some s
  | some (gi, ni) =>
    let g := s.groups.getD gi ⟨0, []⟩
    let prevV := (g.nodes.getD ni (0, 0)).1
    let nextV := if ni + 1 < g.nodes.length
      then (g.nodes.getD (ni + 1) (0, 0)).1 else M - 1
    match insVal prevV nextV with
    | none => none
    | some value =>
      let nodes2 := insAfterIdx g.nodes ni (value, s.nextId)
      let gs2 := s.groups.set gi ⟨g.label, nodes2⟩
      if nodes2.length = 64 then
        match splitSuper gs2 gi with
        | none => none
        | some gs3 => some ⟨gs3, s.nextId + 1⟩
      else some ⟨gs2, s.nextId + 1⟩

/-- Run a sequence of insert-after operations (each naming the identifier
to insert after) from the fresh list. -/
def runFrom (s : VL) : List Nat → Option VL
  | [] => some s
  | a :: rest =>
    match step s a with
    | none => none
    | some s2 => runFrom s2 rest

/-- Run from `PartialVersion::new()`. -/
def run (ops : List Nat) : Option VL := runFrom init ops

/-- `PartialVersion::ordering_values`: the pair of the super node's label
relative to the base (wrapping subtraction) and the node's own label. -/
def ordVals (s : VL) (a : Nat) : Option (Nat × Nat) :=
  match locate s.groups a with
  | none => none
  | some (gi, ni) =>
    let g := s.groups.getD gi ⟨0, []⟩
    let base := s.groups.headD ⟨0, []⟩
    some (wsub g.label base.label, (g.nodes.getD ni (0, 0)).1)

/-- Lexicographic comparison of label pairs, as Rust tuple `Ord`. -/
def cmpPair (p q : Nat × Nat) : Ordering :=
  match compare p.1 q.1 with
  | Ordering.eq => compare p.2 q.2
  | o => o

/-- `PartialVersion::cmp`: lexicographic comparison of ordering values. -/
def cmpV (s : VL) (a b : Nat) : Option Ordering :=
  match ordVals s a, ordVals s b with
  | some p, some q => some (cmpPair p q)
  | _, _ => none

/-- The canonical in-order sequence of all extant version identifiers. -/
def seqIds (s : VL) : List Nat :=
  (s.groups.map (fun g => g.nodes.map Prod.snd)).flatten

/-- The wrapped distances of the ring labels from the base label. -/
def deltas (ls : List Nat) : List Nat := ls.map (fun x => wsub x (ls.headD 0))

/-- Well-ordering of the super-node ring: the wrapped distances from the
base label strictly increase along the list. -/
def ringOK (ls : List Nat) : Prop := List.Chain' (· < ·) (deltas ls)

/-- Well-formedness of one super node at rest: a nonempty chain of at most
63 nodes whose labels are below `2^64` and climb in steps of at least
`2^(63-size)`, with the same headroom below the `u64::MAX` sentinel. -/
structure GroupInv (g : Group) : Prop where
  ne : g.nodes ≠ []
  size : g.nodes.length ≤ 63
  labelLt : g.label < M
  nodeLt : ∀ nd ∈ g.nodes, nd.1 < M
  chain : List.Chain' (fun a b => a.1 + 2 ^ (63 - g.nodes.length) ≤ b.1)
    g.nodes
  top : ∀ x ∈ g.nodes.getLast?, x.1 + 2 ^ (63 - g.nodes.length) ≤ M - 1

/-- The flattened identifier sequence of a group list. -/
def idsOf (gs : List Group) : List Nat :=
  (gs.map (fun g => g.nodes.map Prod.snd)).flatten

/-- The inductive invariant of the version list. -/
structure Inv (s : VL) : Prop where
  ne : s.groups ≠ []
  ring : ringOK (s.groups.map Group.label)
  gwf : ∀ g ∈ s.groups, GroupInv g
  nodup : (idsOf s.groups).Nodup
  idlt : ∀ b ∈ idsOf s.groups, b < s.nextId

/-- The version list reached from `new()` by inserting twice after the
base version. -/
def wVL : VL :=
  ⟨[⟨0, [(0, 0), (4611686018427387904, 2), (9223372036854775808, 1)]⟩], 3⟩

end VersionM

/-!
Theorems.  Each claim of the specification gets one theorem below; shared
helper lemmas come first.
-/

namespace LinkM

/-- Helper: a non-reverse `add` call never completes, whatever the fuel and
whatever the heap: the recursive reverse-edge call of `Node::add` passes
`reverse = false` again, so the mutual recursion between the two endpoints
never bottoms out. -/
theorem addF_reverse_false_none :
    ∀ (fuel : Nat) (h : KHeap) (i : Nat) (tag : BTag) (ptr version : Nat),
      addF fuel h i tag ptr version false = none := by
  intro fuel
  induction fuel with
  | zero => intro h i tag ptr version; rfl
  | succ fuel ih =>
    intro h i tag ptr version
    rw [addF]
    simp only [ih]
    split
    · rfl
    · split
      · split
        · rfl
        · rfl
      · split
        · rfl
        · rfl

/-- Helper: the very first `PersistentBST` insert (key 7 into the tree with
root key 10) already fails to complete for any fuel bound. -/
theorem bst_insert_diverges :
    ∀ (fuel version : Nat),
      bstInsertF fuel [emptyNodeK 4 10] 0 7 version = none := by
  intro fuel version
  cases fuel with
  | zero => rfl
  | succ fuel =>
    rw [bstInsertF]
    simp only [addF_reverse_false_none]
    rfl

/-- C2: the claim states that every `Node::add` call terminates and that
`PersistentBST::insert` completes for every key and version.  The code
contradicts this: `add` with `reverse = false` — the form used by every
public caller, including the BST at an absent child — never completes for
any amount of fuel, because its recursive reverse-edge call passes
`reverse = false` again; in particular the first BST insert diverges. -/
theorem add_and_bst_insert_never_complete :
    (∀ (fuel : Nat) (h : KHeap) (i : Nat) (tag : BTag) (ptr version : Nat),
        addF fuel h i tag ptr version false = none) ∧
      (∀ (fuel version : Nat),
        bstInsertF fuel [emptyNodeK 4 10] 0 7 version = none) :=
  ⟨addF_reverse_false_none, bst_insert_diverges⟩

/-- C6: the claim states that after any sequence of `add` operations every
occupied slot has an occupied twin pointing back.  The code contradicts
this: the only `add` calls that complete are the `reverse = true` ones, and
such a call installs an occupied slot whose `link_pointer` is left dangling
(no twin is ever wired), so twin symmetry fails after a single completed
`add`; `reverse = false` calls never complete at all. -/
theorem add_completed_breaks_twin_symmetry :
    ((addF 9 [emptyNodeK 4 0, emptyNodeK 4 1] 0 .leftChild 1 5 true).map
        (fun r => (twinSymB r.1, slotAt r.1 (0, 0))) =
      some (false, some (some ⟨.leftChild, 5, 1, none⟩))) ∧
      (∀ (fuel : Nat) (h : KHeap) (i : Nat) (tag : BTag) (ptr version : Nat),
        addF fuel h i tag ptr version false = none) :=
  ⟨by decide, addF_reverse_false_none⟩

/-- C5 counterexample: on the three-node copy chain 0 → 1 → 2,
`current_version` of node 0 resolves to node 1, whose copy pointer is not
`none` — refuting the claim that the resolved node always has no copy
pointer. -/
theorem current_version_chain_counterexample :
    ¬ ((currentVersion chain3 0).bind (fun j => copyPointer chain3 j) = some none) := by
  decide

/-- C5 amended: `current_version` follows exactly one copy-forwarding step —
it returns the node's copy when one is recorded and the node itself
otherwise — so the resolved node is copy-free iff the copy chain from the
node has length at most one. -/
theorem currentVersion_one_step (h : KHeap) (i : Nat) (n : NodeK)
    (hn : h[i]? = some n) :
    currentVersion h i = some (n.copy.getD i) ∧
      ((currentVersion h i).bind (fun j => copyPointer h j) = some none ↔
        n.copy = none ∨ ∃ j m, n.copy = some j ∧ h[j]? = some m ∧ m.copy = none) := by
  constructor
  · simp [currentVersion, hn]
  · cases hc : n.copy with
    | none =>
      simp [currentVersion, copyPointer, hn, hc]
    | some j =>
      cases hj : h[j]? with
      | none => simp [currentVersion, copyPointer, hn, hc, hj]
      | some m =>
        cases hm : m.copy with
        | none => simp [currentVersion, copyPointer, hn, hc, hj, hm]
        | some k => simp [currentVersion, copyPointer, hn, hc, hj, hm]

/-- Witness for the amended C5 theorem, at the concrete chain 0 → 1 → 2. -/
theorem currentVersion_one_step_witness :
    currentVersion chain3 0 = some ((some 1).getD 0) ∧
      ((currentVersion chain3 0).bind (fun j => copyPointer chain3 j) = some none ↔
        (some 1 : Option Nat) = none ∨
          ∃ j m, (some 1 : Option Nat) = some j ∧ chain3[j]? = some m ∧ m.copy = none) :=
  currentVersion_one_step chain3 0 ⟨[], 0, some 1⟩ rfl

end LinkM

namespace PListM

/-- C8: starting from the single-element list `[10]` and performing the five
middle inserts `(1,0) … (1,4)` in order, the final handle reads back the
sequence `10, 4, 3, 2, 1, 0` (spec scenario S3). -/
theorem middle_inserts_final_sequence :
    (runInserts 99 [] emptyList [(0, 10), (1, 0), (1, 1), (1, 2), (1, 3), (1, 4)]).bind
      (fun r => readSeq r.1 r.2 6) =
      some [some 10, some 4, some 3, some 2, some 1, some 0] := by decide

/-- C7: the claim states that `insert` never changes the sequence observed
through an existing handle.  The code contradicts this: in the S4 branching
scenario (`branchRun`), the earlier handle `b` reads `[1, 0]` before the
branch, but after `insert(0, 2)` is applied to the intermediate handle the
same handle `b` reads `[1, 2, 0]` — the branch re-used version number 2 and
overwrote the shared node's pointer overlay for that version. -/
theorem branch_insert_corrupts_earlier_handle :
    (branchRun.map fun r => (readSeq r.1 r.2.2 2, readSeq r.2.1 r.2.2 3)) =
      some (some [some 1, some 0], some [some 1, some 2, some 0]) := by decide

end PListM

namespace CellM

theorem posOf_cons (x : Nat) (xs : List Nat) (a : Nat) :
    posOf (x :: xs) a = if x = a then 0 else posOf xs a + 1 := rfl

theorem posOf_lt_length {o : List Nat} {a : Nat} (h : a ∈ o) :
    posOf o a < o.length := by
  induction o with
  | nil => cases h
  | cons x xs ih =>
    rw [posOf_cons]
    by_cases hx : x = a
    · simp [hx]
    · have ha : a ∈ xs := (List.mem_cons.1 h).resolve_left (fun e => hx e.symm)
      simp only [hx, if_false, List.length_cons]
      exact Nat.succ_lt_succ (ih ha)

theorem posOf_eq_length {o : List Nat} {a : Nat} (h : a ∉ o) :
    posOf o a = o.length := by
  induction o with
  | nil => rfl
  | cons x xs ih =>
    rw [posOf_cons]
    have hx : x ≠ a := fun e => h (List.mem_cons.2 (Or.inl e.symm))
    simp only [hx, if_false, List.length_cons]
    exact congrArg Nat.succ (ih (fun hm => h (List.mem_cons.2 (Or.inr hm))))

theorem posOf_inj {o : List Nat} {a b : Nat} (ha : a ∈ o) (hb : b ∈ o)
    (h : posOf o a = posOf o b) : a = b := by
  induction o with
  | nil => cases ha
  | cons x xs ih =>
    rw [posOf_cons, posOf_cons] at h
    by_cases hxa : x = a <;> by_cases hxb : x = b
    · exact hxa ▸ hxb
    · rw [if_pos hxa, if_neg hxb] at h
      omega
    · rw [if_neg hxa, if_pos hxb] at h
      omega
    · rw [if_neg hxa, if_neg hxb, Nat.add_right_cancel_iff] at h
      exact ih ((List.mem_cons.1 ha).resolve_left (fun e => hxa e.symm))
        ((List.mem_cons.1 hb).resolve_left (fun e => hxb e.symm)) h

theorem exists_split {o : List Nat} {v : Nat} (h : v ∈ o) :
    ∃ l1 l2, o = l1 ++ v :: l2 ∧ v ∉ l1 := by
  induction o with
  | nil => cases h
  | cons x xs ih =>
    by_cases hx : x = v
    · exact ⟨[], xs, by simp [hx], by simp⟩
    · rcases ih ((List.mem_cons.1 h).resolve_left (fun e => hx e.symm)) with
        ⟨l1, l2, rfl, hv1⟩
      refine ⟨x :: l1, l2, rfl, ?_⟩
      intro hm
      rcases List.mem_cons.1 hm with e | hm2
      · exact hx e.symm
      · exact hv1 hm2

theorem insAfter_split {l1 l2 : List Nat} {v n : Nat} (hv : v ∉ l1) :
    insAfter (l1 ++ v :: l2) v n = l1 ++ v :: n :: l2 := by
  induction l1 with
  | nil => simp [insAfter]
  | cons x xs ih =>
    have hx : x ≠ v := fun e => hv (List.mem_cons.2 (Or.inl e.symm))
    simp only [List.cons_append, insAfter, hx, if_false, List.append_eq]
    rw [ih (fun hm => hv (List.mem_cons.2 (Or.inr hm)))]

theorem posOf_append_left {l1 l2 : List Nat} {a : Nat} (h : a ∈ l1) :
    posOf (l1 ++ l2) a = posOf l1 a := by
  induction l1 with
  | nil => cases h
  | cons x xs ih =>
    simp only [List.cons_append, posOf_cons]
    by_cases hx : x = a
    · simp [hx]
    · simp only [hx, if_false]
      rw [ih ((List.mem_cons.1 h).resolve_left (fun e => hx e.symm))]

theorem posOf_append_right {l1 l2 : List Nat} {a : Nat} (h : a ∉ l1) :
    posOf (l1 ++ l2) a = l1.length + posOf l2 a := by
  induction l1 with
  | nil => simp [posOf]
  | cons x xs ih =>
    have hx : x ≠ a := fun e => h (List.mem_cons.2 (Or.inl e.symm))
    simp only [List.cons_append, posOf_cons, hx, if_false, List.length_cons]
    rw [ih (fun hm => h (List.mem_cons.2 (Or.inr hm)))]
    omega

theorem posOf_insAfter_old {o : List Nat} {v n a : Nat} (ho : o.Nodup)
    (hv : v ∈ o) (hn : n ∉ o) (ha : a ∈ o) :
    posOf (insAfter o v n) a =
      if posOf o a ≤ posOf o v then posOf o a else posOf o a + 1 := by
  rcases exists_split hv with ⟨l1, l2, rfl, hv1⟩
  rw [insAfter_split hv1]
  have hvpos : posOf (l1 ++ v :: l2) v = l1.length := by
    rw [posOf_append_right hv1]
    simp [posOf_cons]
  rw [hvpos]
  by_cases h1 : a ∈ l1
  · rw [posOf_append_left h1, posOf_append_left h1,
      if_pos (Nat.le_of_lt (posOf_lt_length h1))]
  · by_cases hav : v = a
    · subst hav
      rw [hvpos, posOf_append_right hv1]
      simp [posOf_cons]
    · have han : n ≠ a := fun e => hn (e ▸ ha)
      have e1 : posOf (l1 ++ v :: l2) a = l1.length + (posOf l2 a + 1) := by
        rw [posOf_append_right h1]
        simp [posOf_cons, hav]
      have e2 : posOf (l1 ++ v :: n :: l2) a = l1.length + (posOf l2 a + 2) := by
        rw [posOf_append_right h1]
        simp only [posOf_cons, hav, if_false, han]
      rw [e1, e2]
      have h3 : ¬ l1.length + (posOf l2 a + 1) ≤ l1.length := by omega
      rw [if_neg h3]
      omega

theorem posOf_insAfter_new {o : List Nat} {v n : Nat}
    (hv : v ∈ o) (hv1 : n ∉ o) :
    posOf (insAfter o v n) n = posOf o v + 1 := by
  rcases exists_split hv with ⟨l1, l2, rfl, hl1⟩
  have hnl1 : n ∉ l1 := fun hm => hv1 (List.mem_append.2 (Or.inl hm))
  have hnv : v ≠ n := fun e => hv1 (e ▸ hv)
  rw [insAfter_split hl1, posOf_append_right hl1, posOf_append_right hnl1]
  simp [posOf_cons, hnv]

theorem vleB_insAfter_old {o : List Nat} {v n a b : Nat} (ho : o.Nodup)
    (hv : v ∈ o) (hn : n ∉ o) (ha : a ∈ o) (hb : b ∈ o) :
    vleB (insAfter o v n) a b = vleB o a b := by
  unfold vleB
  rw [posOf_insAfter_old ho hv hn ha, posOf_insAfter_old ho hv hn hb]
  by_cases h1 : posOf o a ≤ posOf o v <;> by_cases h2 : posOf o b ≤ posOf o v <;>
    simp [h1, h2] <;> omega

theorem vleB_insAfter_new_right {o : List Nat} {v n a : Nat} (ho : o.Nodup)
    (hv : v ∈ o) (hn : n ∉ o) (ha : a ∈ o) :
    vleB (insAfter o v n) a n = vleB o a v := by
  unfold vleB
  rw [posOf_insAfter_old ho hv hn ha, posOf_insAfter_new hv hn]
  by_cases h1 : posOf o a ≤ posOf o v <;> simp [h1] <;> omega

theorem vleB_insAfter_new_left {o : List Nat} {v n a : Nat} (ho : o.Nodup)
    (hv : v ∈ o) (hn : n ∉ o) (ha : a ∈ o) :
    vleB (insAfter o v n) n a = decide (posOf o v < posOf o a) := by
  unfold vleB
  rw [posOf_insAfter_old ho hv hn ha, posOf_insAfter_new hv hn]
  by_cases h1 : posOf o a ≤ posOf o v <;> simp [h1] <;> omega

theorem vleB_refl (o : List Nat) (a : Nat) : vleB o a a = true := by
  simp [vleB]

theorem better_none (o : List Nat) (ke : Nat × Entry) :
    better o ke none = some ke := rfl

theorem better_some (o : List Nat) (ke b : Nat × Entry) :
    better o ke (some b) = if vleB o ke.1 b.1 then some b else some ke := rfl

theorem glb_mem {o : List Nat} {c : Cell} {q : Nat} :
    ∀ {ke : Nat × Entry}, glb o c q = some ke → ke ∈ c ∧ vleB o ke.1 q = true := by
  induction c with
  | nil => intro ke h; cases h
  | cons hd rest ih =>
    intro ke h
    rw [glb] at h
    by_cases hle : vleB o hd.1 q = true
    · rw [if_pos hle] at h
      cases hg : glb o rest q with
      | none =>
        rw [hg, better_none] at h
        cases h
        exact ⟨List.mem_cons.2 (Or.inl rfl), hle⟩
      | some b =>
        rw [hg, better_some] at h
        split at h
        · cases h
          rcases ih hg with ⟨hm, hq⟩
          exact ⟨List.mem_cons.2 (Or.inr hm), hq⟩
        · cases h
          exact ⟨List.mem_cons.2 (Or.inl rfl), hle⟩
    · rw [if_neg hle] at h
      rcases ih h with ⟨hm, hq⟩
      exact ⟨List.mem_cons.2 (Or.inr hm), hq⟩

theorem glb_none_iff {o : List Nat} {c : Cell} {q : Nat} :
    glb o c q = none ↔ ∀ ke ∈ c, vleB o ke.1 q = false := by
  induction c with
  | nil => simp [glb]
  | cons hd rest ih =>
    rw [glb]
    constructor
    · intro h
      by_cases hle : vleB o hd.1 q = true
      · rw [if_pos hle] at h
        cases hg : glb o rest q with
        | none => rw [hg, better_none] at h; cases h
        | some b =>
          rw [hg, better_some] at h
          split at h <;> cases h
      · rw [if_neg hle] at h
        intro ke hke
        rcases List.mem_cons.1 hke with rfl | hm
        · exact Bool.eq_false_iff.2 hle
        · exact ih.1 h ke hm
    · intro h
      have hhd := h hd (List.mem_cons.2 (Or.inl rfl))
      rw [Bool.eq_false_iff] at hhd
      rw [if_neg hhd]
      exact ih.2 (fun ke hke => h ke (List.mem_cons.2 (Or.inr hke)))

theorem glb_max {o : List Nat} {c : Cell} {q : Nat} :
    ∀ ke, glb o c q = some ke →
      ∀ ke2 ∈ c, vleB o ke2.1 q = true → posOf o ke2.1 ≤ posOf o ke.1 := by
  induction c with
  | nil => intro ke h; cases h
  | cons hd rest ih =>
    intro ke h ke2 hke2 hle2
    rw [glb] at h
    rcases List.mem_cons.1 hke2 with rfl | hm
    · rw [if_pos hle2] at h
      cases hg : glb o rest q with
      | none =>
        rw [hg, better_none] at h
        cases h
        exact Nat.le_refl _
      | some b =>
        rw [hg, better_some] at h
        split at h
        next hb =>
          cases h
          exact of_decide_eq_true hb
        next hb =>
          cases h
          exact Nat.le_refl _
    · by_cases hle : vleB o hd.1 q = true
      · rw [if_pos hle] at h
        cases hg : glb o rest q with
        | none =>
          exfalso
          have := (glb_none_iff.1 hg) ke2 hm
          rw [hle2] at this
          cases this
        | some b =>
          rw [hg, better_some] at h
          have hb2 := ih b hg ke2 hm hle2
          split at h
          next hb =>
            cases h
            exact hb2
          next hb =>
            cases h
            have h2 : ¬ posOf o hd.1 ≤ posOf o b.1 := fun hcon =>
              hb (decide_eq_true hcon)
            omega
      · rw [if_neg hle] at h
        exact ih ke h ke2 hm hle2

theorem glb_unique {o : List Nat} {c : Cell} {q : Nat} {ke : Nat × Entry}
    (hsep : ∀ a ∈ c, ∀ b ∈ c, a.1 = b.1 → a = b)
    (hmem : ∀ a ∈ c, a.1 ∈ o)
    (hke : ke ∈ c) (hle : vleB o ke.1 q = true)
    (hmax : ∀ ke2 ∈ c, vleB o ke2.1 q = true → posOf o ke2.1 ≤ posOf o ke.1) :
    glb o c q = some ke := by
  cases hg : glb o c q with
  | none =>
    have := (glb_none_iff.1 hg) ke hke
    rw [hle] at this
    cases this
  | some b =>
    rcases glb_mem hg with ⟨hbm, hbq⟩
    have h1 : posOf o b.1 ≤ posOf o ke.1 := hmax b hbm hbq
    have h2 : posOf o ke.1 ≤ posOf o b.1 := glb_max b hg ke hke hle
    rw [hsep ke hke b hbm (posOf_inj (hmem ke hke) (hmem b hbm)
      (Nat.le_antisymm h2 h1))]

theorem glb_congr {o o2 : List Nat} {c : Cell} {q q2 : Nat}
    (h1 : ∀ ke ∈ c, vleB o2 ke.1 q2 = vleB o ke.1 q)
    (h2 : ∀ ke ∈ c, ∀ ke2 ∈ c, vleB o2 ke.1 ke2.1 = vleB o ke.1 ke2.1) :
    glb o2 c q2 = glb o c q := by
  induction c with
  | nil => rfl
  | cons hd rest ih =>
    rw [glb, glb]
    have hrest : glb o2 rest q2 = glb o rest q :=
      ih (fun ke hke => h1 ke (List.mem_cons.2 (Or.inr hke)))
        (fun ke hke ke2 hke2 => h2 ke (List.mem_cons.2 (Or.inr hke)) ke2
          (List.mem_cons.2 (Or.inr hke2)))
    rw [hrest, h1 hd (List.mem_cons.2 (Or.inl rfl))]
    cases hg : glb o rest q with
    | none => rfl
    | some b =>
      have hbm := (glb_mem hg).1
      rw [better_some, better_some,
        h2 hd (List.mem_cons.2 (Or.inl rfl)) b (List.mem_cons.2 (Or.inr hbm))]

theorem lookupOwned_append_left {c d : Cell} {k : Nat}
    (h : (lookupOwned c k).isSome = true) :
    lookupOwned (c ++ d) k = lookupOwned c k := by
  unfold lookupOwned at *
  cases hf : c.find? (fun ke => ke.1 == k) with
  | none => rw [hf] at h; simp at h
  | some e =>
    rw [List.find?_append, hf]
    rfl

theorem lookupOwned_of_mem {c : Cell} {k x : Nat}
    (hnd : (c.map Prod.fst).Nodup) (hm : (k, Entry.owned x) ∈ c) :
    lookupOwned c k = some x := by
  induction c with
  | nil => cases hm
  | cons hd rest ih =>
    rw [List.map_cons, List.nodup_cons] at hnd
    rcases List.mem_cons.1 hm with rfl | hm2
    · unfold lookupOwned
      simp [List.find?]
    · have hk : hd.1 ≠ k := fun e => hnd.1 (e ▸ List.mem_map.2 ⟨_, hm2, rfl⟩)
      unfold lookupOwned
      rw [List.find?_cons_of_neg _ (by simp [hk])]
      exact ih hnd.2 hm2

theorem mem_insAfter {o : List Nat} {v n a : Nat} :
    a ∈ insAfter o v n ↔ a ∈ o ∨ (v ∈ o ∧ a = n) := by
  induction o with
  | nil => simp [insAfter]
  | cons x xs ih =>
    rw [insAfter]
    by_cases hx : x = v
    · subst hx
      rw [if_pos rfl]
      simp only [List.mem_cons]
      constructor
      · rintro (rfl | rfl | hm)
        · exact Or.inl (Or.inl rfl)
        · exact Or.inr ⟨Or.inl trivial, rfl⟩
        · exact Or.inl (Or.inr hm)
      · rintro ((rfl | hm) | ⟨hv2, rfl⟩)
        · exact Or.inl rfl
        · exact Or.inr (Or.inr hm)
        · exact Or.inr (Or.inl rfl)
    · rw [if_neg hx]
      simp only [List.mem_cons, ih]
      have hvx : v ≠ x := fun e => hx e.symm
      constructor
      · rintro (rfl | hm | ⟨hv2, rfl⟩)
        · exact Or.inl (Or.inl rfl)
        · exact Or.inl (Or.inr hm)
        · exact Or.inr ⟨Or.inr hv2, rfl⟩
      · rintro ((rfl | hm) | ⟨rfl | hv2, rfl⟩)
        · exact Or.inl rfl
        · exact Or.inr (Or.inl hm)
        · exact absurd rfl hvx
        · exact Or.inr (Or.inr ⟨hv2, rfl⟩)

theorem nodup_insAfter {o : List Nat} {v n : Nat} (ho : o.Nodup) (hn : n ∉ o) :
    (insAfter o v n).Nodup := by
  induction o with
  | nil => simp [insAfter]
  | cons x xs ih =>
    rw [insAfter]
    rcases List.nodup_cons.1 ho with ⟨hx, hxs⟩
    have hnxs : n ∉ xs := fun hm => hn (List.mem_cons.2 (Or.inr hm))
    by_cases hxv : x = v
    · rw [if_pos hxv]
      refine List.nodup_cons.2 ⟨?_, List.nodup_cons.2 ⟨hnxs, hxs⟩⟩
      intro hm
      rcases List.mem_cons.1 hm with rfl | hm2
      · exact hn (List.mem_cons.2 (Or.inl rfl))
      · exact hx hm2
    · rw [if_neg hxv]
      refine List.nodup_cons.2 ⟨?_, ih hxs hnxs⟩
      intro hm
      rcases mem_insAfter.1 hm with hm2 | ⟨_, rfl⟩
      · exact hx hm2
      · exact hn (List.mem_cons.2 (Or.inl rfl))

theorem mintAfter_eq (o : List Nat) (f : Nat) (v : Nat × Nat) :
    mintAfter o f v = (mintOrder o f v.1, f + 2, (f, f + 1)) := rfl

theorem mint_f_not_mem {o : List Nat} {f : Nat} (hf : ∀ a ∈ o, a < f) :
    f ∉ o := fun hm => absurd (hf f hm) (Nat.lt_irrefl f)

theorem mint_o1_nodup {o : List Nat} {f v1 : Nat} (ho : o.Nodup)
    (hf : ∀ a ∈ o, a < f) : (insAfter o v1 f).Nodup :=
  nodup_insAfter ho (mint_f_not_mem hf)

theorem mint_mem_o1 {o : List Nat} {f v1 a : Nat} (ha : a ∈ o) :
    a ∈ insAfter o v1 f :=
  mem_insAfter.2 (Or.inl ha)

theorem mint_f_mem_o1 {o : List Nat} {f v1 : Nat} (hv : v1 ∈ o) :
    f ∈ insAfter o v1 f :=
  mem_insAfter.2 (Or.inr ⟨hv, rfl⟩)

theorem mint_f1_not_mem_o1 {o : List Nat} {f v1 : Nat} (hf : ∀ a ∈ o, a < f) :
    f + 1 ∉ insAfter o v1 f := by
  intro hm
  rcases mem_insAfter.1 hm with hm2 | ⟨_, he⟩
  · exact absurd (hf _ hm2) (by omega)
  · omega

theorem mem_mintOrder {o : List Nat} {f v1 a : Nat} (hf : ∀ a ∈ o, a < f) :
    a ∈ mintOrder o f v1 ↔ a ∈ o ∨ (v1 ∈ o ∧ (a = f ∨ a = f + 1)) := by
  unfold mintOrder
  rw [mem_insAfter, mem_insAfter]
  constructor
  · rintro ((ha | ⟨hv2, rfl⟩) | ⟨hfm, rfl⟩)
    · exact Or.inl ha
    · exact Or.inr ⟨hv2, Or.inl rfl⟩
    · rcases mem_insAfter.1 hfm with hm2 | ⟨hv2, _⟩
      · exact absurd (hf f hm2) (Nat.lt_irrefl f)
      · exact Or.inr ⟨hv2, Or.inr rfl⟩
  · rintro (ha | ⟨hv2, rfl | rfl⟩)
    · exact Or.inl (Or.inl ha)
    · exact Or.inl (Or.inr ⟨hv2, rfl⟩)
    · exact Or.inr ⟨mem_insAfter.2 (Or.inr ⟨hv2, rfl⟩), rfl⟩

theorem mintOrder_nodup {o : List Nat} {f v1 : Nat} (ho : o.Nodup)
    (hf : ∀ a ∈ o, a < f) : (mintOrder o f v1).Nodup :=
  nodup_insAfter (mint_o1_nodup ho hf) (mint_f1_not_mem_o1 hf)

theorem mintOrder_mem {o : List Nat} {f v1 a : Nat} (ha : a ∈ o) :
    a ∈ mintOrder o f v1 :=
  mem_insAfter.2 (Or.inl (mint_mem_o1 ha))

theorem mintOrder_mem_f {o : List Nat} {f v1 : Nat} (hv : v1 ∈ o) :
    f ∈ mintOrder o f v1 :=
  mem_insAfter.2 (Or.inl (mint_f_mem_o1 hv))

theorem mintOrder_mem_f1 {o : List Nat} {f v1 : Nat} (hv : v1 ∈ o) :
    f + 1 ∈ mintOrder o f v1 :=
  mem_insAfter.2 (Or.inr ⟨mint_f_mem_o1 hv, rfl⟩)

theorem mintOrder_bound {o : List Nat} {f v1 a : Nat} (hf : ∀ a ∈ o, a < f)
    (ha : a ∈ mintOrder o f v1) : a < f + 2 := by
  rcases (mem_mintOrder hf).1 ha with hm | ⟨_, rfl | rfl⟩
  · exact Nat.lt_of_lt_of_le (hf a hm) (by omega)
  · omega
  · omega

theorem vleB_mint_old {o : List Nat} {f v1 a q : Nat} (ho : o.Nodup)
    (hf : ∀ a ∈ o, a < f) (hv : v1 ∈ o) (ha : a ∈ o) (hq : q ∈ o) :
    vleB (mintOrder o f v1) a q = vleB o a q := by
  unfold mintOrder
  rw [vleB_insAfter_old (mint_o1_nodup ho hf) (mint_f_mem_o1 hv)
    (mint_f1_not_mem_o1 hf) (mint_mem_o1 ha) (mint_mem_o1 hq)]
  exact vleB_insAfter_old ho hv (mint_f_not_mem hf) ha hq

theorem vleB_mint_old_f {o : List Nat} {f v1 a : Nat} (ho : o.Nodup)
    (hf : ∀ a ∈ o, a < f) (hv : v1 ∈ o) (ha : a ∈ o) :
    vleB (mintOrder o f v1) a f = vleB o a v1 := by
  unfold mintOrder
  rw [vleB_insAfter_old (mint_o1_nodup ho hf) (mint_f_mem_o1 hv)
    (mint_f1_not_mem_o1 hf) (mint_mem_o1 ha) (mint_f_mem_o1 hv)]
  exact vleB_insAfter_new_right ho hv (mint_f_not_mem hf) ha

theorem vleB_mint_old_f1 {o : List Nat} {f v1 a : Nat} (ho : o.Nodup)
    (hf : ∀ a ∈ o, a < f) (hv : v1 ∈ o) (ha : a ∈ o) :
    vleB (mintOrder o f v1) a (f + 1) = vleB o a v1 := by
  unfold mintOrder
  rw [vleB_insAfter_new_right (mint_o1_nodup ho hf) (mint_f_mem_o1 hv)
    (mint_f1_not_mem_o1 hf) (mint_mem_o1 ha)]
  exact vleB_insAfter_new_right ho hv (mint_f_not_mem hf) ha

theorem vleB_mint_f_old {o : List Nat} {f v1 q : Nat} (ho : o.Nodup)
    (hf : ∀ a ∈ o, a < f) (hv : v1 ∈ o) (hq : q ∈ o) :
    vleB (mintOrder o f v1) f q = decide (posOf o v1 < posOf o q) := by
  unfold mintOrder
  rw [vleB_insAfter_old (mint_o1_nodup ho hf) (mint_f_mem_o1 hv)
    (mint_f1_not_mem_o1 hf) (mint_f_mem_o1 hv) (mint_mem_o1 hq)]
  exact vleB_insAfter_new_left ho hv (mint_f_not_mem hf) hq

theorem vleB_mint_f1_old {o : List Nat} {f v1 q : Nat} (ho : o.Nodup)
    (hf : ∀ a ∈ o, a < f) (hv : v1 ∈ o) (hq : q ∈ o) :
    vleB (mintOrder o f v1) (f + 1) q = decide (posOf o v1 < posOf o q) := by
  unfold mintOrder
  rw [vleB_insAfter_new_left (mint_o1_nodup ho hf) (mint_f_mem_o1 hv)
    (mint_f1_not_mem_o1 hf) (mint_mem_o1 hq)]
  rw [posOf_insAfter_new hv (mint_f_not_mem hf),
    posOf_insAfter_old ho hv (mint_f_not_mem hf) hq]
  rcases le_or_lt (posOf o q) (posOf o v1) with hle | hlt
  · rw [if_pos hle]
    have h1 : ¬ posOf o v1 + 1 < posOf o q := by omega
    have h2 : ¬ posOf o v1 < posOf o q := by omega
    simp [h1, h2]
  · rw [if_neg (by omega)]
    have h1 : posOf o v1 + 1 < posOf o q + 1 := by omega
    simp [h1, hlt]

theorem vleB_mint_f_f1 {o : List Nat} {f v1 : Nat} (ho : o.Nodup)
    (hf : ∀ a ∈ o, a < f) (hv : v1 ∈ o) :
    vleB (mintOrder o f v1) f (f + 1) = true := by
  unfold vleB mintOrder
  rw [posOf_insAfter_new (mint_f_mem_o1 hv) (mint_f1_not_mem_o1 hf),
    posOf_insAfter_old (mint_o1_nodup ho hf) (mint_f_mem_o1 hv)
      (mint_f1_not_mem_o1 hf) (mint_f_mem_o1 hv), if_pos (Nat.le_refl _)]
  simp

theorem vleB_mint_f1_f {o : List Nat} {f v1 : Nat} (ho : o.Nodup)
    (hf : ∀ a ∈ o, a < f) (hv : v1 ∈ o) :
    vleB (mintOrder o f v1) (f + 1) f = false := by
  unfold vleB mintOrder
  rw [posOf_insAfter_new (mint_f_mem_o1 hv) (mint_f1_not_mem_o1 hf),
    posOf_insAfter_old (mint_o1_nodup ho hf) (mint_f_mem_o1 hv)
      (mint_f1_not_mem_o1 hf) (mint_f_mem_o1 hv), if_pos (Nat.le_refl _)]
  simp

theorem cellGet_eq_p (o : List Nat) (c : Cell) (v : Nat × Nat) :
    cellGet o c v = cellGetP o c v.1 := rfl

theorem glb_snoc_skip {o : List Nat} {c : Cell} {ke : Nat × Entry} {q : Nat}
    (h : vleB o ke.1 q = false) : glb o (c ++ [ke]) q = glb o c q := by
  induction c with
  | nil =>
    rw [List.nil_append, glb, glb, h]
    rfl
  | cons hd rest ih =>
    rw [List.cons_append, glb, ih, glb]

theorem cellInsertAfter_eq (o : List Nat) (f : Nat) (c : Cell) (v : Nat × Nat)
    (x : Nat) :
    cellInsertAfter o f c v x =
      (mintOrder o f v.1, f + 2,
        (c ++ [(f, Entry.owned x)]) ++
          [(f + 1, Entry.fwd (getPointer (mintOrder o f v.1)
            (c ++ [(f, Entry.owned x)]) v.1))],
        (f, f + 1)) := rfl

theorem vleB_self_lt {o : List Nat} {v1 : Nat} :
    decide (posOf o v1 < posOf o v1) = false := by simp

theorem cia_pointer {o : List Nat} {f : Nat} {c : Cell} {v1 : Nat} {x : Nat}
    (ho : o.Nodup) (hf : ∀ a ∈ o, a < f) (hv : v1 ∈ o)
    (hc : CellWF o f c) :
    getPointer (mintOrder o f v1) (c ++ [(f, Entry.owned x)]) v1 =
      getPointer o c v1 := by
  have h1 : glb (mintOrder o f v1) (c ++ [(f, Entry.owned x)]) v1 =
      glb o c v1 := by
    rw [glb_snoc_skip (by
      show vleB (mintOrder o f v1) f v1 = false
      rw [vleB_mint_f_old ho hf hv hv]
      simp)]
    exact glb_congr
      (fun ke hke => vleB_mint_old ho hf hv (hc.keysMem ke hke) hv)
      (fun ke hke ke2 hke2 =>
        vleB_mint_old ho hf hv (hc.keysMem ke hke) (hc.keysMem ke2 hke2))
  unfold getPointer
  rw [h1]

theorem cia_deref {o : List Nat} {c c2 : Cell} {v1 : Nat}
    (hnd : (c.map Prod.fst).Nodup)
    (hfwd : ∀ ke ∈ c, ∀ t, ke.2 = Entry.fwd (some t) →
      ∃ x, (t, Entry.owned x) ∈ c ∧ posOf o t < posOf o ke.1)
    (hpre : ∀ k y, (k, Entry.owned y) ∈ c → lookupOwned c2 k = some y) :
    (match getPointer o c v1 with
      | none => none
      | some t => lookupOwned c2 t) = cellGetP o c v1 := by
  unfold getPointer cellGetP
  cases hg : glb o c v1 with
  | none => rfl
  | some ke =>
    rcases ke with ⟨k, e⟩
    cases e with
    | owned y =>
      have hm := (glb_mem hg).1
      show lookupOwned c2 k = some y
      exact hpre k y hm
    | fwd p =>
      cases p with
      | none => rfl
      | some t =>
        have hm := (glb_mem hg).1
        rcases hfwd _ hm t rfl with ⟨y, hmy, _⟩
        show lookupOwned c2 t = lookupOwned c t
        rw [hpre t y hmy, lookupOwned_of_mem hnd hmy]

theorem sep_of_keysNodup {c : Cell} (hnd : (c.map Prod.fst).Nodup) :
    ∀ a ∈ c, ∀ b ∈ c, a.1 = b.1 → a = b := by
  induction c with
  | nil => intro a ha; cases ha
  | cons hd rest ih =>
    rw [List.map_cons, List.nodup_cons] at hnd
    intro a ha b hb he
    rcases List.mem_cons.1 ha with rfl | ha2 <;> rcases List.mem_cons.1 hb with rfl | hb2
    · rfl
    · have hmem : b.1 ∈ rest.map Prod.fst := List.mem_map.2 ⟨b, hb2, rfl⟩
      rw [← he] at hmem
      exact absurd hmem hnd.1
    · have hmem : a.1 ∈ rest.map Prod.fst := List.mem_map.2 ⟨a, ha2, rfl⟩
      rw [he] at hmem
      exact absurd hmem hnd.1
    · exact ih hnd.2 a ha2 b hb2 he

theorem c2_keysNodup {o : List Nat} {f : Nat} {c : Cell} {e1 e2 : Entry}
    (hc : CellWF o f c) :
    ((c ++ [(f, e1), (f + 1, e2)]).map Prod.fst).Nodup := by
  rw [List.map_append]
  rw [List.nodup_append]
  refine ⟨hc.keysNodup, by simp, ?_⟩
  intro a ha hb
  simp only [List.map_cons, List.map_nil] at hb
  rcases List.mem_map.1 ha with ⟨ke, hke, rfl⟩
  have := hc.keysLt ke hke
  rcases List.mem_cons.1 hb with he | hb2
  · omega
  · rcases List.mem_cons.1 hb2 with he | hb3
    · omega
    · cases hb3

theorem mem_c2_elim {c : Cell} {p1 p2 : Nat × Entry} {ke : Nat × Entry}
    (h : ke ∈ c ++ [p1, p2]) : ke ∈ c ∨ ke = p1 ∨ ke = p2 := by
  rcases List.mem_append.1 h with hm | hm
  · exact Or.inl hm
  · rcases List.mem_cons.1 hm with rfl | hm2
    · exact Or.inr (Or.inl rfl)
    · rcases List.mem_cons.1 hm2 with rfl | hm3
      · exact Or.inr (Or.inr rfl)
      · cases hm3

theorem mem_c2_intro_left {c : Cell} {p1 p2 : Nat × Entry} {ke : Nat × Entry}
    (h : ke ∈ c) : ke ∈ c ++ [p1, p2] :=
  List.mem_append.2 (Or.inl h)

theorem lookupOwned_c2 {c : Cell} {p1 p2 : Nat × Entry} {k y : Nat}
    (hnd : (c.map Prod.fst).Nodup)
    (hm : (k, Entry.owned y) ∈ c) :
    lookupOwned (c ++ [p1, p2]) k = some y := by
  have h1 : lookupOwned c k = some y := lookupOwned_of_mem hnd hm
  have h2 : (lookupOwned c k).isSome = true := by rw [h1]; rfl
  rw [show c ++ [p1, p2] = c ++ ([p1, p2]) from rfl,
    lookupOwned_append_left h2, h1]

theorem posLt_mint_old {o : List Nat} {f v1 a b : Nat} (ho : o.Nodup)
    (hf : ∀ a ∈ o, a < f) (hv : v1 ∈ o) (ha : a ∈ o) (hb : b ∈ o) :
    (posOf (mintOrder o f v1) a < posOf (mintOrder o f v1) b) ↔
      (posOf o a < posOf o b) := by
  have h := vleB_mint_old ho hf hv hb ha
  unfold vleB at h
  constructor
  · intro hlt
    by_contra hcon
    push_neg at hcon
    have : decide (posOf o b ≤ posOf o a) = true := decide_eq_true hcon
    rw [this] at h
    have := of_decide_eq_true h
    omega
  · intro hlt
    by_contra hcon
    push_neg at hcon
    have h2 : decide (posOf (mintOrder o f v1) b ≤ posOf (mintOrder o f v1) a)
        = true := decide_eq_true hcon
    rw [h2] at h
    have := of_decide_eq_true h.symm
    omega

theorem cellGetP_of_glb_eq {o o2 : List Nat} {c : Cell} {q q2 : Nat}
    (hglb : glb o2 c q2 = glb o c q) :
    cellGetP o2 c q2 = cellGetP o c q := by
  unfold cellGetP
  rw [hglb]

theorem cellGetP_snoc2_of_glb_eq {o o2 : List Nat} {c : Cell}
    {p1 p2 : Nat × Entry} {q q2 : Nat}
    (hnd : (c.map Prod.fst).Nodup)
    (hfwd : ∀ ke ∈ c, ∀ t, ke.2 = Entry.fwd (some t) →
      ∃ y, (t, Entry.owned y) ∈ c ∧ posOf o t < posOf o ke.1)
    (hglb : glb o2 (c ++ [p1, p2]) q2 = glb o c q) :
    cellGetP o2 (c ++ [p1, p2]) q2 = cellGetP o c q := by
  unfold cellGetP
  rw [hglb]
  cases hg : glb o c q with
  | none => rfl
  | some ke =>
    rcases ke with ⟨k, e⟩
    cases e with
    | owned y => rfl
    | fwd p =>
      cases p with
      | none => rfl
      | some t =>
        rcases hfwd _ (glb_mem hg).1 t rfl with ⟨y, hmy, _⟩
        show lookupOwned (c ++ [p1, p2]) t = lookupOwned c t
        rw [lookupOwned_c2 hnd hmy, lookupOwned_of_mem hnd hmy]

theorem cia_get_new {o : List Nat} {f v1 x : Nat} {c : Cell} {p : Option Nat}
    (ho : o.Nodup) (hf : ∀ a ∈ o, a < f) (hv : v1 ∈ o)
    (hc : CellWF o f c) :
    cellGetP (mintOrder o f v1)
      (c ++ [(f, Entry.owned x), (f + 1, Entry.fwd p)]) f = some x := by
  have hglb : glb (mintOrder o f v1)
      (c ++ [(f, Entry.owned x), (f + 1, Entry.fwd p)]) f =
      some (f, Entry.owned x) := by
    apply glb_unique (sep_of_keysNodup (c2_keysNodup hc))
    · intro a hm
      rcases mem_c2_elim hm with hm2 | rfl | rfl
      · exact mintOrder_mem (hc.keysMem a hm2)
      · exact mintOrder_mem_f hv
      · exact mintOrder_mem_f1 hv
    · exact List.mem_append.2 (Or.inr (List.mem_cons.2 (Or.inl rfl)))
    · exact vleB_refl _ _
    · intro ke2 hm2 hle2
      exact of_decide_eq_true hle2
  unfold cellGetP
  rw [hglb]

theorem cia_get_le {o : List Nat} {f v1 x : Nat} {c : Cell} {p : Option Nat}
    {q : Nat}
    (ho : o.Nodup) (hf : ∀ a ∈ o, a < f) (hv : v1 ∈ o) (hc : CellWF o f c)
    (hq : q ∈ o) (hle : posOf o q ≤ posOf o v1) :
    cellGetP (mintOrder o f v1)
      (c ++ [(f, Entry.owned x), (f + 1, Entry.fwd p)]) q =
      cellGetP o c q := by
  apply cellGetP_snoc2_of_glb_eq hc.keysNodup hc.fwdLive
  rw [show c ++ [(f, Entry.owned x), (f + 1, Entry.fwd p)] =
    (c ++ [(f, Entry.owned x)]) ++ [(f + 1, Entry.fwd p)] by simp]
  rw [glb_snoc_skip (by
    show vleB (mintOrder o f v1) (f + 1) q = false
    rw [vleB_mint_f1_old ho hf hv hq]
    simp
    omega)]
  rw [glb_snoc_skip (by
    show vleB (mintOrder o f v1) f q = false
    rw [vleB_mint_f_old ho hf hv hq]
    simp
    omega)]
  exact glb_congr
    (fun ke hke => vleB_mint_old ho hf hv (hc.keysMem ke hke) hq)
    (fun ke hke ke2 hke2 =>
      vleB_mint_old ho hf hv (hc.keysMem ke hke) (hc.keysMem ke2 hke2))

theorem cia_get_dom {o : List Nat} {f v1 x : Nat} {c : Cell} {p : Option Nat}
    {q : Nat} {ke0 : Nat × Entry}
    (ho : o.Nodup) (hf : ∀ a ∈ o, a < f) (hv : v1 ∈ o) (hc : CellWF o f c)
    (hq : q ∈ o) (hg0 : glb o c q = some ke0)
    (hdom : posOf o v1 < posOf o ke0.1) :
    cellGetP (mintOrder o f v1)
      (c ++ [(f, Entry.owned x), (f + 1, Entry.fwd p)]) q =
      cellGetP o c q := by
  apply cellGetP_snoc2_of_glb_eq hc.keysNodup hc.fwdLive
  rw [hg0]
  apply glb_unique (sep_of_keysNodup (c2_keysNodup hc))
  · intro a hm
    rcases mem_c2_elim hm with hm2 | rfl | rfl
    · exact mintOrder_mem (hc.keysMem a hm2)
    · exact mintOrder_mem_f hv
    · exact mintOrder_mem_f1 hv
  · exact mem_c2_intro_left (glb_mem hg0).1
  · rw [vleB_mint_old ho hf hv (hc.keysMem _ (glb_mem hg0).1) hq]
    exact (glb_mem hg0).2
  · intro ke2 hm2 hle2
    have hke0o : ke0.1 ∈ o := hc.keysMem _ (glb_mem hg0).1
    rcases mem_c2_elim hm2 with hm3 | rfl | rfl
    · have hke2o : ke2.1 ∈ o := hc.keysMem _ hm3
      rw [vleB_mint_old ho hf hv hke2o hq] at hle2
      have h1 : posOf o ke2.1 ≤ posOf o ke0.1 := glb_max _ hg0 ke2 hm3 hle2
      have h2 : vleB (mintOrder o f v1) ke2.1 ke0.1 = true := by
        rw [vleB_mint_old ho hf hv hke2o hke0o]
        exact decide_eq_true h1
      exact of_decide_eq_true h2
    · have h2 : vleB (mintOrder o f v1) f ke0.1 = true := by
        rw [vleB_mint_f_old ho hf hv hke0o]
        exact decide_eq_true hdom
      exact of_decide_eq_true h2
    · have h2 : vleB (mintOrder o f v1) (f + 1) ke0.1 = true := by
        rw [vleB_mint_f1_old ho hf hv hke0o]
        exact decide_eq_true hdom
      exact of_decide_eq_true h2

theorem glb_shift {o : List Nat} {c : Cell} {q v1 : Nat}
    (hsep : ∀ a ∈ c, ∀ b ∈ c, a.1 = b.1 → a = b)
    (hmem : ∀ a ∈ c, a.1 ∈ o)
    (hgt : posOf o v1 < posOf o q)
    (hsw : glb o c q = none ∨
      ∃ ke0, glb o c q = some ke0 ∧ posOf o ke0.1 ≤ posOf o v1) :
    glb o c v1 = glb o c q := by
  rcases hsw with hnone | ⟨ke0, hg0, hlow⟩
  · rw [hnone]
    rw [glb_none_iff] at hnone ⊢
    intro ke hke
    have h1 := hnone ke hke
    unfold vleB at h1 ⊢
    simp at h1 ⊢
    omega
  · rw [hg0]
    rcases glb_mem hg0 with ⟨hm0, hle0⟩
    unfold vleB at hle0
    have hle0' := of_decide_eq_true hle0
    apply glb_unique hsep hmem hm0
    · unfold vleB
      exact decide_eq_true (by omega)
    · intro ke2 hm2 hle2
      unfold vleB at hle2
      have h2 := of_decide_eq_true hle2
      have h3 : vleB o ke2.1 q = true := by
        unfold vleB
        exact decide_eq_true (by omega)
      exact glb_max _ hg0 ke2 hm2 h3

theorem cia_get_switch {o : List Nat} {f v1 x q : Nat} {c : Cell}
    (ho : o.Nodup) (hf : ∀ a ∈ o, a < f) (hv : v1 ∈ o) (hc : CellWF o f c)
    (hq : q ∈ o) (hgt : posOf o v1 < posOf o q)
    (hsw : glb o c q = none ∨
      ∃ ke0, glb o c q = some ke0 ∧ posOf o ke0.1 ≤ posOf o v1) :
    cellGetP (mintOrder o f v1)
      (c ++ [(f, Entry.owned x), (f + 1, Entry.fwd (getPointer o c v1))]) q =
      cellGetP o c v1 := by
  have hglb2 : glb (mintOrder o f v1)
      (c ++ [(f, Entry.owned x), (f + 1, Entry.fwd (getPointer o c v1))]) q =
      some (f + 1, Entry.fwd (getPointer o c v1)) := by
    apply glb_unique (sep_of_keysNodup (c2_keysNodup hc))
    · intro a hm
      rcases mem_c2_elim hm with hm2 | rfl | rfl
      · exact mintOrder_mem (hc.keysMem a hm2)
      · exact mintOrder_mem_f hv
      · exact mintOrder_mem_f1 hv
    · exact List.mem_append.2 (Or.inr (List.mem_cons.2 (Or.inr
        (List.mem_cons.2 (Or.inl rfl)))))
    · rw [vleB_mint_f1_old ho hf hv hq]
      exact decide_eq_true hgt
    · intro ke2 hm2 hle2
      rcases mem_c2_elim hm2 with hm3 | rfl | rfl
      · have hke2o : ke2.1 ∈ o := hc.keysMem _ hm3
        rw [vleB_mint_old ho hf hv hke2o hq] at hle2
        rcases hsw with hnone | ⟨ke0, hg0, hlow⟩
        · exfalso
          have := (glb_none_iff.1 hnone) ke2 hm3
          rw [hle2] at this
          cases this
        · have h1 : posOf o ke2.1 ≤ posOf o ke0.1 := glb_max _ hg0 ke2 hm3 hle2
          have h2 : vleB (mintOrder o f v1) ke2.1 (f + 1) = true := by
            rw [vleB_mint_old_f1 ho hf hv hke2o]
            unfold vleB
            exact decide_eq_true (by omega)
          exact of_decide_eq_true h2
      · exact of_decide_eq_true (vleB_mint_f_f1 ho hf hv)
      · exact Nat.le_refl _
  have hstep : cellGetP (mintOrder o f v1)
      (c ++ [(f, Entry.owned x), (f + 1, Entry.fwd (getPointer o c v1))]) q =
      (match getPointer o c v1 with
        | none => none
        | some t => lookupOwned
            (c ++ [(f, Entry.owned x),
              (f + 1, Entry.fwd (getPointer o c v1))]) t) := by
    unfold cellGetP
    rw [hglb2]
    cases getPointer o c v1 with
    | none => rfl
    | some t => rfl
  rw [hstep]
  exact cia_deref hc.keysNodup hc.fwdLive
    (fun k y hm => lookupOwned_c2 hc.keysNodup hm)

theorem cia_get_other {o : List Nat} {f v1 q : Nat} {c : Cell}
    (ho : o.Nodup) (hf : ∀ a ∈ o, a < f) (hv : v1 ∈ o)
    (hmem : ∀ ke ∈ c, ke.1 ∈ o) (hq : q ∈ o) :
    cellGetP (mintOrder o f v1) c q = cellGetP o c q := by
  apply cellGetP_of_glb_eq
  exact glb_congr
    (fun ke hke => vleB_mint_old ho hf hv (hmem ke hke) hq)
    (fun ke hke ke2 hke2 =>
      vleB_mint_old ho hf hv (hmem ke hke) (hmem ke2 hke2))

theorem cia_get_other_new {o : List Nat} {f v1 : Nat} {c : Cell}
    (ho : o.Nodup) (hf : ∀ a ∈ o, a < f) (hv : v1 ∈ o)
    (hmem : ∀ ke ∈ c, ke.1 ∈ o) :
    cellGetP (mintOrder o f v1) c f = cellGetP o c v1 := by
  apply cellGetP_of_glb_eq
  exact glb_congr
    (fun ke hke => vleB_mint_old_f ho hf hv (hmem ke hke))
    (fun ke hke ke2 hke2 =>
      vleB_mint_old ho hf hv (hmem ke hke) (hmem ke2 hke2))

theorem posLt_f1_of_le {o : List Nat} {f v1 a : Nat} (ho : o.Nodup)
    (hf : ∀ a ∈ o, a < f) (hv : v1 ∈ o) (ha : a ∈ o)
    (h : posOf o a ≤ posOf o v1) :
    posOf (mintOrder o f v1) a <
      posOf (mintOrder o f v1) (f + 1) := by
  have h2 := vleB_mint_f1_old ho hf hv ha
  unfold vleB at h2
  have h3 : decide (posOf o v1 < posOf o a) = false :=
    decide_eq_false (by omega)
  rw [h3] at h2
  have h4 := of_decide_eq_false h2
  omega

theorem cia_wf {o : List Nat} {f v1 x : Nat} {c : Cell}
    (ho : o.Nodup) (hf : ∀ a ∈ o, a < f) (hv : v1 ∈ o) (hc : CellWF o f c) :
    CellWF (mintOrder o f v1) (f + 2)
      (c ++ [(f, Entry.owned x), (f + 1, Entry.fwd (getPointer o c v1))]) := by
  refine ⟨?_, ?_, c2_keysNodup hc, ?_⟩
  · intro a hm
    rcases mem_c2_elim hm with hm2 | rfl | rfl
    · exact mintOrder_mem (hc.keysMem a hm2)
    · exact mintOrder_mem_f hv
    · exact mintOrder_mem_f1 hv
  · intro a hm
    rcases mem_c2_elim hm with hm2 | rfl | rfl
    · have := hc.keysLt a hm2
      omega
    · omega
    · omega
  · intro ke hm t hfw
    rcases mem_c2_elim hm with hm2 | rfl | rfl
    · rcases hc.fwdLive ke hm2 t hfw with ⟨y, hmy, hpos⟩
      refine ⟨y, mem_c2_intro_left hmy, ?_⟩
      have hto : t ∈ o := hc.keysMem _ hmy
      have hko : ke.1 ∈ o := hc.keysMem _ hm2
      exact (posLt_mint_old ho hf hv hto hko).2 hpos
    · cases hfw
    · simp only at hfw
      have hgp : getPointer o c v1 = some t := by
        injection hfw
      unfold getPointer at hgp
      cases hg : glb o c v1 with
      | none => rw [hg] at hgp; cases hgp
      | some ke0 =>
        rcases ke0 with ⟨k, e⟩
        rcases glb_mem hg with ⟨hm0, hle0⟩
        unfold vleB at hle0
        have hle0' := of_decide_eq_true hle0
        cases e with
        | owned y =>
          rw [hg] at hgp
          have hkt : k = t := by injection hgp
          subst hkt
          refine ⟨y, mem_c2_intro_left hm0, ?_⟩
          exact posLt_f1_of_le ho hf hv (hc.keysMem _ hm0) hle0'
        | fwd p =>
          rw [hg] at hgp
          cases p with
          | none => cases hgp
          | some t2 =>
            have ht2 : t2 = t := by injection hgp
            subst ht2
            rcases hc.fwdLive _ hm0 t2 rfl with ⟨y, hmy, hpos⟩
            refine ⟨y, mem_c2_intro_left hmy, ?_⟩
            exact posLt_f1_of_le ho hf hv (hc.keysMem _ hmy) (by omega)

theorem cia_wf_other {o : List Nat} {f v1 : Nat} {c : Cell}
    (ho : o.Nodup) (hf : ∀ a ∈ o, a < f) (hv : v1 ∈ o) (hc : CellWF o f c) :
    CellWF (mintOrder o f v1) (f + 2) c := by
  refine ⟨?_, ?_, hc.keysNodup, ?_⟩
  · intro a hm
    exact mintOrder_mem (hc.keysMem a hm)
  · intro a hm
    have := hc.keysLt a hm
    omega
  · intro ke hm t hfw
    rcases hc.fwdLive ke hm t hfw with ⟨y, hmy, hpos⟩
    refine ⟨y, hmy, ?_⟩
    exact (posLt_mint_old ho hf hv (hc.keysMem _ hmy) (hc.keysMem _ hm)).2 hpos

theorem cellInsertAfter_norm {o : List Nat} {f : Nat} {c : Cell}
    {v : Nat × Nat} {x : Nat}
    (ho : o.Nodup) (hf : ∀ a ∈ o, a < f) (hv : v.1 ∈ o) (hc : CellWF o f c) :
    cellInsertAfter o f c v x =
      (mintOrder o f v.1, f + 2,
        c ++ [(f, Entry.owned x), (f + 1, Entry.fwd (getPointer o c v.1))],
        (f, f + 1)) := by
  rw [cellInsertAfter_eq, cia_pointer ho hf hv hc]
  simp

theorem cia_get_old {o : List Nat} {f v1 x q : Nat} {c : Cell}
    (ho : o.Nodup) (hf : ∀ a ∈ o, a < f) (hv : v1 ∈ o) (hc : CellWF o f c)
    (hq : q ∈ o) :
    cellGetP (mintOrder o f v1)
      (c ++ [(f, Entry.owned x), (f + 1, Entry.fwd (getPointer o c v1))]) q =
      cellGetP o c q := by
  rcases le_or_lt (posOf o q) (posOf o v1) with hA | hB
  · exact cia_get_le ho hf hv hc hq hA
  · cases hg : glb o c q with
    | none =>
      rw [cia_get_switch ho hf hv hc hq hB (Or.inl hg)]
      exact cellGetP_of_glb_eq (glb_shift (sep_of_keysNodup hc.keysNodup)
        hc.keysMem hB (Or.inl hg))
    | some ke0 =>
      rcases le_or_lt (posOf o ke0.1) (posOf o v1) with hlow | hdom
      · rw [cia_get_switch ho hf hv hc hq hB (Or.inr ⟨ke0, hg, hlow⟩)]
        exact cellGetP_of_glb_eq (glb_shift (sep_of_keysNodup hc.keysNodup)
          hc.keysMem hB (Or.inr ⟨ke0, hg, hlow⟩))
      · exact cia_get_dom ho hf hv hc hq hg hdom

theorem lookupOwned_mem {c : Cell} {k x : Nat}
    (h : lookupOwned c k = some x) : (k, Entry.owned x) ∈ c := by
  unfold lookupOwned at h
  cases hf : c.find? (fun ke => ke.1 == k) with
  | none => rw [hf] at h; cases h
  | some ke =>
    rw [hf] at h
    have hmem := List.mem_of_find?_eq_some hf
    have hpred := List.find?_some hf
    rcases ke with ⟨k2, e⟩
    cases e with
    | owned y =>
      have hxy : y = x := by
        injection h
      have hk : k2 = k := by
        simpa using hpred
      rw [hxy, hk] at hmem
      exact hmem
    | fwd p => cases h

theorem mem_of_get? {A : Type} {l : List A} {i : Nat} {a : A}
    (h : l[i]? = some a) : a ∈ l := by
  rcases List.getElem?_eq_some.1 h with ⟨hlt, rfl⟩
  exact List.getElem_mem hlt

theorem cinv_init : CInv initC := by
  refine ⟨?_, ?_, ?_, ?_⟩
  · decide
  · decide
  · decide
  · intro c hc
    cases hc

theorem cinv_step (s : CState) (op : COp) (h : CInv s) : CInv (stepC s op) := by
  cases op with
  | mint vi =>
    cases hm : s.minted[vi]? with
    | none =>
      have he : stepC s (COp.mint vi) = s := by
        simp only [stepC, hm]
      rw [he]
      exact h
    | some v =>
      have hv : v.1 ∈ s.order := h.mintedMem v (mem_of_get? hm)
      have he : stepC s (COp.mint vi) =
          { order := mintOrder s.order s.fresh v.1, fresh := s.fresh + 2,
            minted := s.minted ++ [(s.fresh, s.fresh + 1)], cs := s.cs } := by
        simp only [stepC, hm, mintAfter_eq]
      rw [he]
      refine ⟨mintOrder_nodup h.nodup h.bound, ?_, ?_, ?_⟩
      · intro a ha
        exact mintOrder_bound h.bound ha
      · intro w hw
        rcases List.mem_append.1 hw with hw2 | hw2
        · exact mintOrder_mem (h.mintedMem w hw2)
        · rcases List.mem_singleton.1 hw2 with rfl
          exact mintOrder_mem_f hv
      · intro c hc
        exact cia_wf_other h.nodup h.bound hv (h.csWF c hc)
  | newCell =>
    refine ⟨h.nodup, h.bound, h.mintedMem, ?_⟩
    intro c hc
    rcases List.mem_append.1 hc with hc2 | hc2
    · exact h.csWF c hc2
    · rcases List.mem_singleton.1 hc2 with rfl
      exact ⟨fun ke hke => absurd hke (List.not_mem_nil ke),
        fun ke hke => absurd hke (List.not_mem_nil ke),
        List.nodup_nil,
        fun ke hke => absurd hke (List.not_mem_nil ke)⟩
  | ins ci vi x =>
    cases hm : s.minted[vi]? with
    | none =>
      have he : stepC s (COp.ins ci vi x) = s := by
        simp only [stepC, hm]
      rw [he]
      exact h
    | some v =>
      cases hc2 : s.cs[ci]? with
      | none =>
        have he : stepC s (COp.ins ci vi x) = s := by
          simp only [stepC, hm, hc2]
        rw [he]
        exact h
      | some c =>
        have hv : v.1 ∈ s.order := h.mintedMem v (mem_of_get? hm)
        have hcw : CellWF s.order s.fresh c := h.csWF c (mem_of_get? hc2)
        have he : stepC s (COp.ins ci vi x) =
            { order := mintOrder s.order s.fresh v.1, fresh := s.fresh + 2,
              minted := s.minted ++ [(s.fresh, s.fresh + 1)],
              cs := s.cs.set ci (c ++ [(s.fresh, Entry.owned x),
                (s.fresh + 1, Entry.fwd (getPointer s.order c v.1))]) } := by
          simp only [stepC, hm, hc2,
            cellInsertAfter_norm h.nodup h.bound hv hcw]
        rw [he]
        refine ⟨mintOrder_nodup h.nodup h.bound, ?_, ?_, ?_⟩
        · intro a ha
          exact mintOrder_bound h.bound ha
        · intro w hw
          rcases List.mem_append.1 hw with hw2 | hw2
          · exact mintOrder_mem (h.mintedMem w hw2)
          · rcases List.mem_singleton.1 hw2 with rfl
            exact mintOrder_mem_f hv
        · intro c2 hc3
          rcases List.mem_or_eq_of_mem_set hc3 with hc4 | rfl
          · exact cia_wf_other h.nodup h.bound hv (h.csWF c2 hc4)
          · exact cia_wf h.nodup h.bound hv hcw

theorem cinv_run (ops : List COp) : CInv (runC ops) := by
  suffices hgen : ∀ s, CInv s → CInv (ops.foldl stepC s) from
    hgen initC cinv_init
  induction ops with
  | nil => exact fun s hs => hs
  | cons op rest ih =>
    intro s hs
    exact ih (stepC s op) (cinv_step s op hs)

theorem runC_snoc (ops : List COp) (op : COp) :
    runC (ops ++ [op]) = stepC (runC ops) op := by
  unfold runC
  rw [List.foldl_append]
  rfl

theorem getD_set_self {A : Type} {l : List A} {i : Nat} {a d : A}
    (h : i < l.length) : (l.set i a).getD i d = a := by
  rw [List.getD_eq_getElem?_getD, List.getElem?_set_self]
  · rfl
  · exact h

theorem lenAt_eq (s : VState) (v : Nat × Nat) :
    lenAt s v = (cellGetP s.order s.lenCell v.1).getD 0 := rfl

theorem cellGetP_owned_val {o : List Nat} {c : Cell} {q x : Nat}
    (h : cellGetP o c q = some x) : ∃ k, (k, Entry.owned x) ∈ c := by
  unfold cellGetP at h
  cases hg : glb o c q with
  | none => rw [hg] at h; cases h
  | some ke =>
    rw [hg] at h
    rcases ke with ⟨k, e⟩
    cases e with
    | owned y =>
      have : y = x := by injection h
      exact ⟨k, this ▸ (glb_mem hg).1⟩
    | fwd p =>
      cases p with
      | none => cases h
      | some t => exact ⟨t, lookupOwned_mem h⟩

theorem lenAt_le {s : VState} (h : VInv s) (v : Nat × Nat) :
    lenAt s v ≤ s.cells.length := by
  rw [lenAt_eq]
  cases hg : cellGetP s.order s.lenCell v.1 with
  | none => simp
  | some x =>
    rcases cellGetP_owned_val hg with ⟨k, hk⟩
    simpa using h.lenVals _ hk x rfl

theorem emptyCellWF (o : List Nat) (f : Nat) : CellWF o f ([] : Cell) :=
  ⟨fun ke hke => absurd hke (List.not_mem_nil ke),
    fun ke hke => absurd hke (List.not_mem_nil ke),
    List.nodup_nil,
    fun ke hke => absurd hke (List.not_mem_nil ke)⟩

theorem vinv_init : VInv initV := by
  refine ⟨?_, ?_, ?_, emptyCellWF _ _, ?_, ?_, ?_⟩
  · decide
  · decide
  · decide
  · intro c hc
    cases hc
  · intro ke hke
    cases hke
  · intro v hv i hi
    have : lenAt initV v = 0 := by
      rw [lenAt_eq]
      rfl
    omega

theorem vinv_mint (s : VState) (v : Nat × Nat) (h : VInv s) (hvm : v ∈ s.minted) :
    VInv { s with
      order := mintOrder s.order s.fresh v.1
      fresh := s.fresh + 2
      minted := s.minted ++ [(s.fresh, s.fresh + 1)] } := by
  have hv1 : v.1 ∈ s.order := h.mintedMem v hvm
  refine ⟨mintOrder_nodup h.nodup h.bound, ?_, ?_, ?_, ?_, ?_, ?_⟩
  · intro a ha
    exact mintOrder_bound h.bound ha
  · intro w hw
    rcases List.mem_append.1 hw with hw2 | hw2
    · exact mintOrder_mem (h.mintedMem w hw2)
    · rcases List.mem_singleton.1 hw2 with rfl
      exact mintOrder_mem_f hv1
  · exact cia_wf_other h.nodup h.bound hv1 h.lenWF
  · intro c hc
    exact cia_wf_other h.nodup h.bound hv1 (h.cellsWF c hc)
  · intro ke hke x hx
    exact h.lenVals ke hke x hx
  · intro u hu i hi
    rcases List.mem_append.1 hu with hu2 | hu2
    · have hu1 : u.1 ∈ s.order := h.mintedMem u hu2
      have hlen : lenAt { s with
          order := mintOrder s.order s.fresh v.1
          fresh := s.fresh + 2
          minted := s.minted ++ [(s.fresh, s.fresh + 1)] } u = lenAt s u := by
        rw [lenAt_eq, lenAt_eq]
        rw [cia_get_other h.nodup h.bound hv1 h.lenWF.keysMem hu1]
      rw [hlen] at hi
      rcases h.sound u hu2 i hi with ⟨c, hci, hsi⟩
      refine ⟨c, hci, ?_⟩
      rw [cellGet_eq_p] at hsi ⊢
      rw [cia_get_other h.nodup h.bound hv1
        (h.cellsWF c (mem_of_get? hci)).keysMem hu1]
      exact hsi
    · rcases List.mem_singleton.1 hu2 with rfl
      have hlen : lenAt { s with
          order := mintOrder s.order s.fresh v.1
          fresh := s.fresh + 2
          minted := s.minted ++ [(s.fresh, s.fresh + 1)] } (s.fresh, s.fresh + 1)
          = lenAt s v := by
        rw [lenAt_eq, lenAt_eq]
        rw [cia_get_other_new h.nodup h.bound hv1 h.lenWF.keysMem]
      rw [hlen] at hi
      rcases h.sound v hvm i hi with ⟨c, hci, hsi⟩
      refine ⟨c, hci, ?_⟩
      rw [cellGet_eq_p] at hsi ⊢
      rw [cia_get_other_new h.nodup h.bound hv1
        (h.cellsWF c (mem_of_get? hci)).keysMem]
      exact hsi

theorem vinv_pop (s : VState) (v : Nat × Nat) (len : Nat) (h : VInv s)
    (hvm : v ∈ s.minted) (hlen : lenAt s v = len + 1) :
    VInv { s with
      order := mintOrder s.order s.fresh v.1
      fresh := s.fresh + 2
      minted := s.minted ++ [(s.fresh, s.fresh + 1)]
      lenCell := s.lenCell ++ [(s.fresh, Entry.owned len),
        (s.fresh + 1, Entry.fwd (getPointer s.order s.lenCell v.1))] } := by
  have hv1 : v.1 ∈ s.order := h.mintedMem v hvm
  refine ⟨mintOrder_nodup h.nodup h.bound, ?_, ?_, ?_, ?_, ?_, ?_⟩
  · intro a ha
    exact mintOrder_bound h.bound ha
  · intro w hw
    rcases List.mem_append.1 hw with hw2 | hw2
    · exact mintOrder_mem (h.mintedMem w hw2)
    · rcases List.mem_singleton.1 hw2 with rfl
      exact mintOrder_mem_f hv1
  · exact cia_wf h.nodup h.bound hv1 h.lenWF
  · intro c hc
    exact cia_wf_other h.nodup h.bound hv1 (h.cellsWF c hc)
  · intro ke hke x hx
    show x ≤ s.cells.length
    rcases mem_c2_elim hke with hk2 | rfl | rfl
    · exact h.lenVals ke hk2 x hx
    · have hx2 : len = x := by
        injection hx
      have h1 := lenAt_le h v
      omega
    · exact absurd hx (by simp)
  · intro u hu i hi
    rcases List.mem_append.1 hu with hu2 | hu2
    · have hu1 : u.1 ∈ s.order := h.mintedMem u hu2
      have hl2 : lenAt { s with
          order := mintOrder s.order s.fresh v.1
          fresh := s.fresh + 2
          minted := s.minted ++ [(s.fresh, s.fresh + 1)]
          lenCell := s.lenCell ++ [(s.fresh, Entry.owned len),
            (s.fresh + 1, Entry.fwd (getPointer s.order s.lenCell v.1))] } u
          = lenAt s u := by
        rw [lenAt_eq, lenAt_eq]
        rw [cia_get_old h.nodup h.bound hv1 h.lenWF hu1]
      rw [hl2] at hi
      rcases h.sound u hu2 i hi with ⟨c, hci, hsi⟩
      refine ⟨c, hci, ?_⟩
      rw [cellGet_eq_p] at hsi ⊢
      rw [cia_get_other h.nodup h.bound hv1
        (h.cellsWF c (mem_of_get? hci)).keysMem hu1]
      exact hsi
    · rcases List.mem_singleton.1 hu2 with rfl
      have hl2 : lenAt { s with
          order := mintOrder s.order s.fresh v.1
          fresh := s.fresh + 2
          minted := s.minted ++ [(s.fresh, s.fresh + 1)]
          lenCell := s.lenCell ++ [(s.fresh, Entry.owned len),
            (s.fresh + 1, Entry.fwd (getPointer s.order s.lenCell v.1))] }
          (s.fresh, s.fresh + 1) = len := by
        rw [lenAt_eq]
        show (cellGetP (mintOrder s.order s.fresh v.1)
          (s.lenCell ++ [(s.fresh, Entry.owned len),
            (s.fresh + 1, Entry.fwd (getPointer s.order s.lenCell v.1))])
          s.fresh).getD 0 = len
        rw [cia_get_new h.nodup h.bound hv1 h.lenWF]
        rfl
      rw [hl2] at hi
      have hi2 : i < lenAt s v := by omega
      rcases h.sound v hvm i hi2 with ⟨c, hci, hsi⟩
      refine ⟨c, hci, ?_⟩
      rw [cellGet_eq_p] at hsi ⊢
      rw [cia_get_other_new h.nodup h.bound hv1
        (h.cellsWF c (mem_of_get? hci)).keysMem]
      exact hsi

theorem push_cells_facts (s : VState) (v : Nat × Nat) (cl : List Cell)
    (h : VInv s)
    (hcl : cl = if lenAt s v = s.cells.length then s.cells ++ [[]] else s.cells) :
    s.cells.length ≤ cl.length ∧ lenAt s v < cl.length ∧
    (∀ c ∈ cl, CellWF s.order s.fresh c) ∧
    (∀ i, i < s.cells.length → cl[i]? = s.cells[i]?) := by
  have hle := lenAt_le h v
  by_cases hq : lenAt s v = s.cells.length
  · rw [hq, if_pos rfl] at hcl
    subst hcl
    refine ⟨by simp, by simp [hq], ?_, ?_⟩
    · intro c hc
      rcases List.mem_append.1 hc with hc2 | hc2
      · exact h.cellsWF c hc2
      · rcases List.mem_singleton.1 hc2 with rfl
        exact emptyCellWF _ _
    · intro i hi
      rw [List.getElem?_append, if_pos hi]
  · rw [if_neg hq] at hcl
    subst hcl
    exact ⟨Nat.le_refl _, by omega, h.cellsWF, fun i hi => rfl⟩

theorem vinv_push (s : VState) (v : Nat × Nat) (x : Nat) (cl : List Cell)
    (h : VInv s) (hvm : v ∈ s.minted)
    (hcl : cl = if lenAt s v = s.cells.length then s.cells ++ [[]] else s.cells) :
    VInv { order := mintOrder (mintOrder s.order s.fresh v.1) (s.fresh + 2) s.fresh
           fresh := s.fresh + 2 + 2
           minted := s.minted ++ [(s.fresh + 2, s.fresh + 2 + 1)]
           cells := cl.set (lenAt s v) ((cl.getD (lenAt s v) []) ++
             [(s.fresh, Entry.owned x), (s.fresh + 1,
               Entry.fwd (getPointer s.order (cl.getD (lenAt s v) []) v.1))])
           lenCell := s.lenCell ++ [(s.fresh + 2, Entry.owned (lenAt s v + 1)),
             (s.fresh + 2 + 1, Entry.fwd (getPointer (mintOrder s.order s.fresh v.1)
               s.lenCell s.fresh))] } := by
  have hv1 : v.1 ∈ s.order := h.mintedMem v hvm
  obtain ⟨hlenle, hlenlt, hclWF, hclpre⟩ := push_cells_facts s v cl h hcl
  have hcLget : cl[lenAt s v]? = some (cl.getD (lenAt s v) []) := by
    rw [List.getD_eq_getElem?_getD, List.getElem?_eq_getElem hlenlt]
    rfl
  have hcLWF : CellWF s.order s.fresh (cl.getD (lenAt s v) []) :=
    hclWF _ (mem_of_get? hcLget)
  have ho2 : (mintOrder s.order s.fresh v.1).Nodup :=
    mintOrder_nodup h.nodup h.bound
  have hb2 : ∀ a ∈ mintOrder s.order s.fresh v.1, a < s.fresh + 2 :=
    fun a ha => mintOrder_bound h.bound ha
  have hf2 : s.fresh ∈ mintOrder s.order s.fresh v.1 := mintOrder_mem_f hv1
  have hlenWF2 : CellWF (mintOrder s.order s.fresh v.1) (s.fresh + 2) s.lenCell :=
    cia_wf_other h.nodup h.bound hv1 h.lenWF
  have hcl2WF : CellWF (mintOrder s.order s.fresh v.1) (s.fresh + 2)
      ((cl.getD (lenAt s v) []) ++ [(s.fresh, Entry.owned x), (s.fresh + 1,
        Entry.fwd (getPointer s.order (cl.getD (lenAt s v) []) v.1))]) :=
    cia_wf h.nodup h.bound hv1 hcLWF
  have hlen_old : ∀ u1 ∈ s.order,
      cellGetP (mintOrder (mintOrder s.order s.fresh v.1) (s.fresh + 2) s.fresh)
        (s.lenCell ++ [(s.fresh + 2, Entry.owned (lenAt s v + 1)),
          (s.fresh + 2 + 1, Entry.fwd (getPointer (mintOrder s.order s.fresh v.1)
            s.lenCell s.fresh))]) u1 = cellGetP s.order s.lenCell u1 := by
    intro u1 hu1
    rw [cia_get_old ho2 hb2 hf2 hlenWF2 (mintOrder_mem hu1)]
    exact cia_get_other h.nodup h.bound hv1 h.lenWF.keysMem hu1
  have hread_old : ∀ c, CellWF s.order s.fresh c → ∀ u1 ∈ s.order,
      cellGetP (mintOrder (mintOrder s.order s.fresh v.1) (s.fresh + 2) s.fresh)
        c u1 = cellGetP s.order c u1 := by
    intro c hcw u1 hu1
    rw [cia_get_other ho2 hb2 hf2
      (cia_wf_other h.nodup h.bound hv1 hcw).keysMem (mintOrder_mem hu1)]
    exact cia_get_other h.nodup h.bound hv1 hcw.keysMem hu1
  have hreadL_old : ∀ u1 ∈ s.order,
      cellGetP (mintOrder (mintOrder s.order s.fresh v.1) (s.fresh + 2) s.fresh)
        ((cl.getD (lenAt s v) []) ++ [(s.fresh, Entry.owned x), (s.fresh + 1,
          Entry.fwd (getPointer s.order (cl.getD (lenAt s v) []) v.1))]) u1 =
        cellGetP s.order (cl.getD (lenAt s v) []) u1 := by
    intro u1 hu1
    rw [cia_get_other ho2 hb2 hf2 hcl2WF.keysMem (mintOrder_mem hu1)]
    exact cia_get_old h.nodup h.bound hv1 hcLWF hu1
  have hlen_new :
      cellGetP (mintOrder (mintOrder s.order s.fresh v.1) (s.fresh + 2) s.fresh)
        (s.lenCell ++ [(s.fresh + 2, Entry.owned (lenAt s v + 1)),
          (s.fresh + 2 + 1, Entry.fwd (getPointer (mintOrder s.order s.fresh v.1)
            s.lenCell s.fresh))]) (s.fresh + 2) = some (lenAt s v + 1) :=
    cia_get_new ho2 hb2 hf2 hlenWF2
  have hread_new : ∀ c, CellWF s.order s.fresh c →
      cellGetP (mintOrder (mintOrder s.order s.fresh v.1) (s.fresh + 2) s.fresh)
        c (s.fresh + 2) = cellGetP s.order c v.1 := by
    intro c hcw
    rw [cia_get_other_new ho2 hb2 hf2
      (cia_wf_other h.nodup h.bound hv1 hcw).keysMem]
    exact cia_get_other_new h.nodup h.bound hv1 hcw.keysMem
  have hreadL_new :
      cellGetP (mintOrder (mintOrder s.order s.fresh v.1) (s.fresh + 2) s.fresh)
        ((cl.getD (lenAt s v) []) ++ [(s.fresh, Entry.owned x), (s.fresh + 1,
          Entry.fwd (getPointer s.order (cl.getD (lenAt s v) []) v.1))])
        (s.fresh + 2) = some x := by
    rw [cia_get_other_new ho2 hb2 hf2 hcl2WF.keysMem]
    exact cia_get_new h.nodup h.bound hv1 hcLWF
  refine ⟨mintOrder_nodup ho2 hb2, ?_, ?_, ?_, ?_, ?_, ?_⟩
  · intro a ha
    exact mintOrder_bound hb2 ha
  · intro w hw
    rcases List.mem_append.1 hw with hw2 | hw2
    · exact mintOrder_mem (mintOrder_mem (h.mintedMem w hw2))
    · rcases List.mem_singleton.1 hw2 with rfl
      exact mintOrder_mem_f hf2
  · exact cia_wf ho2 hb2 hf2 hlenWF2
  · intro c hc
    rcases List.mem_or_eq_of_mem_set hc with hc2 | rfl
    · exact cia_wf_other ho2 hb2 hf2
        (cia_wf_other h.nodup h.bound hv1 (hclWF c hc2))
    · exact cia_wf_other ho2 hb2 hf2 hcl2WF
  · intro ke hke y hy
    show y ≤ (cl.set (lenAt s v) _).length
    rw [List.length_set]
    rcases mem_c2_elim hke with hk2 | rfl | rfl
    · have := h.lenVals ke hk2 y hy
      omega
    · have hy2 : lenAt s v + 1 = y := by
        injection hy
      omega
    · exact absurd hy (by simp)
  · intro u hu i hi
    rcases List.mem_append.1 hu with hu2 | hu2
    · have hu1 : u.1 ∈ s.order := h.mintedMem u hu2
      have hi2 : i < (cellGetP
          (mintOrder (mintOrder s.order s.fresh v.1) (s.fresh + 2) s.fresh)
          (s.lenCell ++ [(s.fresh + 2, Entry.owned (lenAt s v + 1)),
            (s.fresh + 2 + 1, Entry.fwd (getPointer
              (mintOrder s.order s.fresh v.1) s.lenCell s.fresh))]) u.1).getD 0 :=
        hi
      rw [hlen_old u.1 hu1] at hi2
      have hi3 : i < lenAt s u := hi2
      rcases h.sound u hu2 i hi3 with ⟨c, hci, hsi⟩
      have hilen : i < s.cells.length := (List.getElem?_eq_some.1 hci).1
      by_cases hieq : i = lenAt s v
      · subst hieq
        have h1 : cl[lenAt s v]? = some c := by
          rw [hclpre _ hilen]
          exact hci
        rw [h1] at hcLget
        injection hcLget with hceq
        subst hceq
        refine ⟨_, List.getElem?_set_self hlenlt, ?_⟩
        rw [cellGet_eq_p] at hsi ⊢
        rw [hreadL_old u.1 hu1]
        exact hsi
      · refine ⟨c, ?_, ?_⟩
        · show (cl.set (lenAt s v) _)[i]? = some c
          rw [List.getElem?_set_ne (fun he => hieq he.symm)]
          rw [hclpre i hilen]
          exact hci
        · rw [cellGet_eq_p] at hsi ⊢
          rw [hread_old c (h.cellsWF c (mem_of_get? hci)) u.1 hu1]
          exact hsi
    · rcases List.mem_singleton.1 hu2 with rfl
      have hi2 : i < (cellGetP
          (mintOrder (mintOrder s.order s.fresh v.1) (s.fresh + 2) s.fresh)
          (s.lenCell ++ [(s.fresh + 2, Entry.owned (lenAt s v + 1)),
            (s.fresh + 2 + 1, Entry.fwd (getPointer
              (mintOrder s.order s.fresh v.1) s.lenCell s.fresh))])
          (s.fresh + 2)).getD 0 := hi
      rw [hlen_new] at hi2
      have hi3 : i < lenAt s v + 1 := hi2
      by_cases hieq : i = lenAt s v
      · subst hieq
        refine ⟨_, List.getElem?_set_self hlenlt, ?_⟩
        rw [cellGet_eq_p]
        show (cellGetP (mintOrder (mintOrder s.order s.fresh v.1)
          (s.fresh + 2) s.fresh) _ (s.fresh + 2)).isSome = true
        rw [hreadL_new]
        rfl
      · have hi4 : i < lenAt s v := by omega
        rcases h.sound v hvm i hi4 with ⟨c, hci, hsi⟩
        have hilen : i < s.cells.length := (List.getElem?_eq_some.1 hci).1
        refine ⟨c, ?_, ?_⟩
        · show (cl.set (lenAt s v) _)[i]? = some c
          rw [List.getElem?_set_ne (fun he => hieq he.symm)]
          rw [hclpre i hilen]
          exact hci
        · rw [cellGet_eq_p] at hsi ⊢
          rw [hread_new c (h.cellsWF c (mem_of_get? hci))]
          exact hsi

theorem vinv_push_run (s : VState) (v : Nat × Nat) (x : Nat) (h : VInv s)
    (hvm : v ∈ s.minted) : VInv (pushAfter s v x) := by
  have hv1 : v.1 ∈ s.order := h.mintedMem v hvm
  obtain ⟨hlenle, hlenlt, hclWF, hclpre⟩ :=
    push_cells_facts s v (if lenAt s v = s.cells.length then s.cells ++ [[]] else s.cells) h rfl
  have hcLget : (if lenAt s v = s.cells.length then s.cells ++ [[]] else s.cells)[lenAt s v]? =
      some ((if lenAt s v = s.cells.length then s.cells ++ [[]] else s.cells).getD (lenAt s v) []) := by
    rw [List.getD_eq_getElem?_getD, List.getElem?_eq_getElem hlenlt]
    rfl
  have hcLWF : CellWF s.order s.fresh ((if lenAt s v = s.cells.length then s.cells ++ [[]] else s.cells).getD (lenAt s v) []) :=
    hclWF _ (mem_of_get? hcLget)
  have ho2 : (mintOrder s.order s.fresh v.1).Nodup :=
    mintOrder_nodup h.nodup h.bound
  have hb2 : ∀ a ∈ mintOrder s.order s.fresh v.1, a < s.fresh + 2 :=
    fun a ha => mintOrder_bound h.bound ha
  have hf2 : s.fresh ∈ mintOrder s.order s.fresh v.1 := mintOrder_mem_f hv1
  have hlenWF2 : CellWF (mintOrder s.order s.fresh v.1) (s.fresh + 2) s.lenCell :=
    cia_wf_other h.nodup h.bound hv1 h.lenWF
  have he2 : pushAfter s v x =
      { order := mintOrder (mintOrder s.order s.fresh v.1) (s.fresh + 2) s.fresh
        fresh := s.fresh + 2 + 2
        minted := s.minted ++ [(s.fresh + 2, s.fresh + 2 + 1)]
        cells := (if lenAt s v = s.cells.length then s.cells ++ [[]] else s.cells).set (lenAt s v) (((if lenAt s v = s.cells.length then s.cells ++ [[]] else s.cells).getD (lenAt s v) []) ++
          [(s.fresh, Entry.owned x), (s.fresh + 1,
            Entry.fwd (getPointer s.order ((if lenAt s v = s.cells.length then s.cells ++ [[]] else s.cells).getD (lenAt s v) []) v.1))])
        lenCell := s.lenCell ++ [(s.fresh + 2, Entry.owned (lenAt s v + 1)),
          (s.fresh + 2 + 1, Entry.fwd (getPointer (mintOrder s.order s.fresh v.1)
            s.lenCell s.fresh))] } := by
    simp only [pushAfter]
    rw [cellInsertAfter_norm h.nodup h.bound hv1 hcLWF]
    rw [cellInsertAfter_norm ho2 hb2 hf2 hlenWF2]
  rw [he2]
  exact vinv_push s v x (if lenAt s v = s.cells.length then s.cells ++ [[]] else s.cells) h hvm rfl

theorem vinv_step (s : VState) (op : VOp) (h : VInv s) : VInv (stepOp s op) := by
  cases op with
  | mint vi =>
    cases hm : s.minted[vi]? with
    | none =>
      have he : stepOp s (VOp.mint vi) = s := by
        simp only [stepOp, hm]
      rw [he]
      exact h
    | some v =>
      have he : stepOp s (VOp.mint vi) = { s with
          order := mintOrder s.order s.fresh v.1
          fresh := s.fresh + 2
          minted := s.minted ++ [(s.fresh, s.fresh + 1)] } := by
        simp only [stepOp, hm, mintAfter_eq]
      rw [he]
      exact vinv_mint s v h (mem_of_get? hm)
  | push vi x =>
    cases hm : s.minted[vi]? with
    | none =>
      have he : stepOp s (VOp.push vi x) = s := by
        simp only [stepOp, hm]
      rw [he]
      exact h
    | some v =>
      have he : stepOp s (VOp.push vi x) = pushAfter s v x := by
        simp only [stepOp, hm]
      rw [he]
      exact vinv_push_run s v x h (mem_of_get? hm)
  | pop vi =>
    cases hm : s.minted[vi]? with
    | none =>
      have he : stepOp s (VOp.pop vi) = s := by
        simp only [stepOp, hm]
      rw [he]
      exact h
    | some v =>
      have hv1 : v.1 ∈ s.order := h.mintedMem v (mem_of_get? hm)
      cases hl : lenAt s v with
      | zero =>
        have he : stepOp s (VOp.pop vi) = s := by
          simp only [stepOp, hm]
          unfold popAfter
          rw [hl]
        rw [he]
        exact h
      | succ len =>
        have he : stepOp s (VOp.pop vi) = { s with
            order := mintOrder s.order s.fresh v.1
            fresh := s.fresh + 2
            minted := s.minted ++ [(s.fresh, s.fresh + 1)]
            lenCell := s.lenCell ++ [(s.fresh, Entry.owned len),
              (s.fresh + 1, Entry.fwd (getPointer s.order s.lenCell v.1))] } := by
          simp only [stepOp, hm]
          unfold popAfter
          rw [hl]
          simp only [cellInsertAfter_norm h.nodup h.bound hv1 h.lenWF]
        rw [he]
        exact vinv_pop s v len h (mem_of_get? hm) hl

theorem vinv_run (ops : List VOp) : VInv (runV ops) := by
  suffices hgen : ∀ s, VInv s → VInv (ops.foldl stepOp s) from
    hgen initV vinv_init
  induction ops with
  | nil => exact fun s hs => hs
  | cons op rest ih =>
    intro s hs
    exact ih (stepOp s op) (vinv_step s op hs)

theorem runV_snoc (ops : List VOp) (op : VOp) :
    runV (ops ++ [op]) = stepOp (runV ops) op := by
  unfold runV
  rw [List.foldl_append]
  rfl

theorem cellGetP_provenance {o : List Nat} {f : Nat} {c : Cell} {q x : Nat}
    (hcw : CellWF o f c) (h : cellGetP o c q = some x) :
    ∃ k, (k, Entry.owned x) ∈ c ∧ posOf o k ≤ posOf o q := by
  unfold cellGetP at h
  cases hg : glb o c q with
  | none => rw [hg] at h; cases h
  | some ke =>
    rw [hg] at h
    rcases ke with ⟨k, e⟩
    rcases glb_mem hg with ⟨hkm, hkle⟩
    have hkle2 : posOf o k ≤ posOf o q := by
      unfold vleB at hkle
      exact of_decide_eq_true hkle
    cases e with
    | owned y =>
      have hyx : y = x := by injection h
      exact ⟨k, hyx ▸ hkm, hkle2⟩
    | fwd p =>
      cases p with
      | none => cases h
      | some t =>
        have hmem : (t, Entry.owned x) ∈ c := lookupOwned_mem h
        rcases hcw.fwdLive _ hkm t rfl with ⟨y, hmy, hpos⟩
        have hpos2 : posOf o t < posOf o k := hpos
        exact ⟨t, hmem, by omega⟩


/-- C3: counterexample.  After creating a cell, minting a plain version u
after the base, and then inserting 42 at the base, get(u) returns None even
though u is not from before the first version inserted into the cell: keys
at most u.primary exist (the greatest being the insert's forward entry,
which stores no pointer), refuting the claim that get returns Some of the
owned value at the greatest key at most u.primary whenever such a key
exists, with None only before the first insert. -/
theorem cell_get_none_not_before_first :
    (runC [COp.newCell, COp.mint 0, COp.ins 0 0 42]).minted[1]? = some (2, 3) ∧
    cellGet (runC [COp.newCell, COp.mint 0, COp.ins 0 0 42]).order
      ((runC [COp.newCell, COp.mint 0, COp.ins 0 0 42]).cs.getD 0 [])
      (2, 3) = none ∧
    ¬ beforeAllKeys (runC [COp.newCell, COp.mint 0, COp.ins 0 0 42]).order
      ((runC [COp.newCell, COp.mint 0, COp.ins 0 0 42]).cs.getD 0 []) (2, 3) ∧
    (glb (runC [COp.newCell, COp.mint 0, COp.ins 0 0 42]).order
      ((runC [COp.newCell, COp.mint 0, COp.ins 0 0 42]).cs.getD 0 [])
      2).isSome = true := by
  refine ⟨by decide, by decide, ?_, by decide⟩
  unfold beforeAllKeys
  decide

/-- C3: amended characterization of PersistentCell::get over every
reachable cell-family state and extant version: get is None when the
version is before every key; an owned greatest key yields its value; a
forward greatest key that stores a pointer dereferences to the owned entry
it points at (which exists, strictly earlier in version order); and
immediately after insert_after(v, x) the returned version reads Some x.
Together with the counterexample: a forward greatest key storing no
pointer (insert at a version before the first key) yields None, the one
case the claim's wording omits. -/
theorem cell_get_characterization (ops : List COp) (ci vi x : Nat)
    (v : Nat × Nat) (c : Cell)
    (hv : (runC ops).minted[vi]? = some v) (hc : (runC ops).cs[ci]? = some c) :
    (beforeAllKeys (runC ops).order c v → cellGet (runC ops).order c v = none) ∧
    (∀ k y, glb (runC ops).order c v.1 = some (k, Entry.owned y) →
      cellGet (runC ops).order c v = some y) ∧
    (∀ k t, glb (runC ops).order c v.1 = some (k, Entry.fwd (some t)) →
      ∃ y, (t, Entry.owned y) ∈ c ∧
        posOf (runC ops).order t < posOf (runC ops).order k ∧
        cellGet (runC ops).order c v = some y) ∧
    cellGet (runC (ops ++ [COp.ins ci vi x])).order
      ((runC (ops ++ [COp.ins ci vi x])).cs.getD ci [])
      ((runC ops).fresh, (runC ops).fresh + 1) = some x := by
  have inv := cinv_run ops
  have hvm : v.1 ∈ (runC ops).order := inv.mintedMem v (mem_of_get? hv)
  have hcw : CellWF (runC ops).order (runC ops).fresh c :=
    inv.csWF c (mem_of_get? hc)
  refine ⟨?_, ?_, ?_, ?_⟩
  · intro hb
    have hg : glb (runC ops).order c v.1 = none := by
      rw [glb_none_iff]
      intro ke hke
      have := hb ke hke
      unfold vleB
      exact decide_eq_false (by omega)
    rw [cellGet_eq_p]
    unfold cellGetP
    rw [hg]
  · intro k y hg
    rw [cellGet_eq_p]
    unfold cellGetP
    rw [hg]
  · intro k t hg
    rcases hcw.fwdLive _ (glb_mem hg).1 t rfl with ⟨y, hmy, hpos⟩
    refine ⟨y, hmy, hpos, ?_⟩
    rw [cellGet_eq_p]
    unfold cellGetP
    rw [hg]
    exact lookupOwned_of_mem hcw.keysNodup hmy
  · have hstep : runC (ops ++ [COp.ins ci vi x]) =
        { order := mintOrder (runC ops).order (runC ops).fresh v.1,
          fresh := (runC ops).fresh + 2,
          minted := (runC ops).minted ++
            [((runC ops).fresh, (runC ops).fresh + 1)],
          cs := (runC ops).cs.set ci (c ++ [((runC ops).fresh, Entry.owned x),
            ((runC ops).fresh + 1,
              Entry.fwd (getPointer (runC ops).order c v.1))]) } := by
      rw [runC_snoc]
      simp only [stepC, hv, hc,
        cellInsertAfter_norm inv.nodup inv.bound hvm hcw]
    rw [hstep]
    have hlen : ci < (runC ops).cs.length := (List.getElem?_eq_some.1 hc).1
    rw [getD_set_self hlen]
    rw [cellGet_eq_p]
    exact cia_get_new inv.nodup inv.bound hvm hcw

/-- C3: witness instantiating the amended characterization at the empty
cell and base version. -/
theorem cell_get_characterization_witness :
    (beforeAllKeys (runC [COp.newCell]).order [] (0, 1) →
      cellGet (runC [COp.newCell]).order [] (0, 1) = none) ∧
    (∀ k y, glb (runC [COp.newCell]).order [] (0, 1).1 =
        some (k, Entry.owned y) →
      cellGet (runC [COp.newCell]).order [] (0, 1) = some y) ∧
    (∀ k t, glb (runC [COp.newCell]).order [] (0, 1).1 =
        some (k, Entry.fwd (some t)) →
      ∃ y, (t, Entry.owned y) ∈ ([] : Cell) ∧
        posOf (runC [COp.newCell]).order t < posOf (runC [COp.newCell]).order k ∧
        cellGet (runC [COp.newCell]).order [] (0, 1) = some y) ∧
    cellGet (runC ([COp.newCell] ++ [COp.ins 0 0 42])).order
      ((runC ([COp.newCell] ++ [COp.ins 0 0 42])).cs.getD 0 [])
      ((runC [COp.newCell]).fresh, (runC [COp.newCell]).fresh + 1) = some 42 :=
  cell_get_characterization [COp.newCell] 0 0 42 (0, 1) [] (by decide) (by decide)

/-- C4: PersistentCell::get_mut(v) can return Some for a version whose
primary is not a key of the cell map at all: after inserting 42 at the
base and minting a plain version u after the insert's version, get_mut(u)
returns Some 42 although u.primary (node 4) is no key, refuting the claim
that Some is returned only when v.primary is exactly an Owned key (the
code resolves the greatest key at most v.primary instead, contradicting
its own documentation). -/
theorem get_mut_nonexact_version :
    (runC [COp.newCell, COp.ins 0 0 42, COp.mint 1]).minted[2]? = some (4, 5) ∧
    cellGetMut (runC [COp.newCell, COp.ins 0 0 42, COp.mint 1]).order
      ((runC [COp.newCell, COp.ins 0 0 42, COp.mint 1]).cs.getD 0 [])
      (4, 5) = some 42 ∧
    ∀ ke ∈ (runC [COp.newCell, COp.ins 0 0 42, COp.mint 1]).cs.getD 0 [],
      ke.1 ≠ 4 := by
  decide

/-- C9: counterexample to the value clause.  Push 10, mint a plain version
v from the resulting version, pop from it, then push 13 after the popped
version: view(v).index(0) returns 10 (the value v could see when it was
minted), while the value placed at slot 0 at the greatest version at most
v in the version order is 13 from the later push, refuting the claim that
index returns the value placed at the slot at the greatest version at
most v. -/
theorem view_index_not_greatest_version_value :
    (runV [VOp.push 0 10, VOp.mint 1, VOp.pop 1, VOp.push 3 13]).minted[2]? =
      some (6, 7) ∧
    lenAt (runV [VOp.push 0 10, VOp.mint 1, VOp.pop 1, VOp.push 3 13])
      (6, 7) = 1 ∧
    viewIndex (runV [VOp.push 0 10, VOp.mint 1, VOp.pop 1, VOp.push 3 13])
      (6, 7) 0 = some 10 ∧
    ownedVisible
      (runV [VOp.push 0 10, VOp.mint 1, VOp.pop 1, VOp.push 3 13]).order
      ((runV [VOp.push 0 10, VOp.mint 1, VOp.pop 1, VOp.push 3 13]).cells.getD
        0 []) 6 = some 13 := by
  decide

/-- C9: amended view consistency over every reachable vector state and
extant version: view(v).index(i) fails (bounds panic or the expect, both
embedded as none) exactly when len(v) is at most i — in particular the
expect never fires in bounds — and when it returns a value, that value
was placed at slot i by an insert at some version at most v in version
order (not necessarily the greatest such version, per the counterexample).
The function itself is read-only, so no access corrupts the state. -/
theorem view_index_bounds_and_provenance (ops : List VOp) (vi i : Nat)
    (v : Nat × Nat) (hv : (runV ops).minted[vi]? = some v) :
    (viewIndex (runV ops) v i = none ↔ lenAt (runV ops) v ≤ i) ∧
    (∀ x, viewIndex (runV ops) v i = some x →
      i < lenAt (runV ops) v ∧
      ∃ c k, (runV ops).cells[i]? = some c ∧ (k, Entry.owned x) ∈ c ∧
        posOf (runV ops).order k ≤ posOf (runV ops).order v.1) := by
  have inv := vinv_run ops
  have hvm : v ∈ (runV ops).minted := mem_of_get? hv
  constructor
  · constructor
    · intro hnone
      by_contra hcon
      push_neg at hcon
      rcases inv.sound v hvm i hcon with ⟨c, hci, hsi⟩
      unfold viewIndex at hnone
      rw [if_neg (by omega), hci] at hnone
      have hnone2 : cellGet (runV ops).order c v = none := hnone
      rw [hnone2] at hsi
      cases hsi
    · intro hle
      unfold viewIndex
      rw [if_pos hle]
  · intro x hx
    unfold viewIndex at hx
    by_cases hle : lenAt (runV ops) v ≤ i
    · rw [if_pos hle] at hx
      cases hx
    · rw [if_neg hle] at hx
      refine ⟨by omega, ?_⟩
      cases hci : (runV ops).cells[i]? with
      | none => rw [hci] at hx; cases hx
      | some c =>
        rw [hci] at hx
        have hx2 : cellGet (runV ops).order c v = some x := hx
        rw [cellGet_eq_p] at hx2
        rcases cellGetP_provenance (inv.cellsWF c (mem_of_get? hci)) hx2 with
          ⟨k, hk1, hk2⟩
        exact ⟨c, k, rfl, hk1, hk2⟩

/-- C9: witness instantiating the amended view consistency after a single
push. -/
theorem view_index_bounds_and_provenance_witness :
    (viewIndex (runV [VOp.push 0 10]) (4, 5) 0 = none ↔
      lenAt (runV [VOp.push 0 10]) (4, 5) ≤ 0) ∧
    (∀ x, viewIndex (runV [VOp.push 0 10]) (4, 5) 0 = some x →
      0 < lenAt (runV [VOp.push 0 10]) (4, 5) ∧
      ∃ c k, (runV [VOp.push 0 10]).cells[0]? = some c ∧
        (k, Entry.owned x) ∈ c ∧
        posOf (runV [VOp.push 0 10]).order k ≤
          posOf (runV [VOp.push 0 10]).order (4, 5).1) :=
  view_index_bounds_and_provenance [VOp.push 0 10] 1 0 (4, 5) (by decide)

/-- C10: Vec::pop_after(v) fails (the usize subtraction len - 1
underflows, a debug panic, embedded as none) exactly when len(v) is zero,
and nothing is recorded in that case; when len(v) is positive the
operation leaves every slot cell untouched, hands out one new version, and
records len(v) - 1 as the length at that version. -/
theorem pop_after_underflow_iff (ops : List VOp) (vi : Nat) (v : Nat × Nat)
    (hv : (runV ops).minted[vi]? = some v) :
    (popAfter (runV ops) v = none ↔ lenAt (runV ops) v = 0) ∧
    (∀ r, popAfter (runV ops) v = some r →
      r.1.cells = (runV ops).cells ∧
      r.1.minted = (runV ops).minted ++ [r.2] ∧
      lenAt r.1 r.2 + 1 = lenAt (runV ops) v) := by
  have inv := vinv_run ops
  have hvm : v ∈ (runV ops).minted := mem_of_get? hv
  have hv1 : v.1 ∈ (runV ops).order := inv.mintedMem v hvm
  constructor
  · constructor
    · intro hnone
      cases hl : lenAt (runV ops) v with
      | zero => rfl
      | succ len =>
        unfold popAfter at hnone
        rw [hl] at hnone
        cases hnone
    · intro hl
      unfold popAfter
      rw [hl]
  · intro r hr
    cases hl : lenAt (runV ops) v with
    | zero =>
      unfold popAfter at hr
      rw [hl] at hr
      cases hr
    | succ len =>
      unfold popAfter at hr
      rw [hl] at hr
      simp only [cellInsertAfter_norm inv.nodup inv.bound hv1 inv.lenWF] at hr
      have hr2 := hr.symm
      injection hr2 with hr3
      subst hr3
      refine ⟨rfl, rfl, ?_⟩
      have hlen2 : lenAt ({ runV ops with
          order := mintOrder (runV ops).order (runV ops).fresh v.1
          fresh := (runV ops).fresh + 2
          minted := (runV ops).minted ++
            [((runV ops).fresh, (runV ops).fresh + 1)]
          lenCell := (runV ops).lenCell ++ [((runV ops).fresh, Entry.owned len),
            ((runV ops).fresh + 1, Entry.fwd (getPointer (runV ops).order
              (runV ops).lenCell v.1))] } : VState)
          ((runV ops).fresh, (runV ops).fresh + 1) = len := by
        rw [lenAt_eq]
        show (cellGetP (mintOrder (runV ops).order (runV ops).fresh v.1)
          ((runV ops).lenCell ++ [((runV ops).fresh, Entry.owned len),
            ((runV ops).fresh + 1, Entry.fwd (getPointer (runV ops).order
              (runV ops).lenCell v.1))]) (runV ops).fresh).getD 0 = len
        rw [cia_get_new inv.nodup inv.bound hv1 inv.lenWF]
        rfl
      rw [hlen2]

/-- C10: witness instantiating the pop characterization at the empty
initial vector, where pop fails. -/
theorem pop_after_underflow_iff_witness :
    (popAfter (runV []) (0, 1) = none ↔ lenAt (runV []) (0, 1) = 0) ∧
    (∀ r, popAfter (runV []) (0, 1) = some r →
      r.1.cells = (runV []).cells ∧
      r.1.minted = (runV []).minted ++ [r.2] ∧
      lenAt r.1 r.2 + 1 = lenAt (runV []) (0, 1)) :=
  pop_after_underflow_iff [] 0 (0, 1) (by decide)

end CellM

namespace VersionM
theorem M_pos : 0 < M := by decide

theorem wsub_lt (a b : Nat) : wsub a b < M :=
  Nat.mod_lt _ M_pos

theorem wsub_of_le {a b : Nat} (ha : a < M) (h : b ≤ a) : wsub a b = a - b := by
  unfold wsub
  have h1 : a + M - b = M + (a - b) := by omega
  rw [h1, Nat.add_mod_left]
  exact Nat.mod_eq_of_lt (by omega)

theorem wsub_of_gt {a b : Nat} (hb : b < M) (h : a < b) : wsub a b = a + M - b := by
  unfold wsub
  exact Nat.mod_eq_of_lt (by omega)

theorem wsub_self {a : Nat} (ha : a < M) : wsub a a = 0 := by
  rw [wsub_of_le ha (Nat.le_refl a)]
  omega

theorem wsub_elim (a b : Nat) (ha : a < M) (hb : b < M) :
    (b ≤ a ∧ wsub a b = a - b) ∨ (a < b ∧ wsub a b = a + M - b) := by
  rcases le_or_lt b a with h | h
  · exact Or.inl ⟨h, wsub_of_le ha h⟩
  · exact Or.inr ⟨h, wsub_of_gt hb h⟩

theorem wsub_shift_ge {x b c : Nat} (hx : x < M) (hb : b < M) (hc : c < M)
    (h : wsub c b ≤ wsub x b) : wsub x c = wsub x b - wsub c b := by
  rcases wsub_elim x b hx hb with ⟨h1, e1⟩ | ⟨h1, e1⟩ <;>
    rcases wsub_elim c b hc hb with ⟨h2, e2⟩ | ⟨h2, e2⟩ <;>
    rcases wsub_elim x c hx hc with ⟨h3, e3⟩ | ⟨h3, e3⟩ <;>
    omega

theorem wsub_shift_lt {x b c : Nat} (hx : x < M) (hb : b < M) (hc : c < M)
    (h : wsub x b < wsub c b) : wsub x c = wsub x b + M - wsub c b := by
  rcases wsub_elim x b hx hb with ⟨h1, e1⟩ | ⟨h1, e1⟩ <;>
    rcases wsub_elim c b hc hb with ⟨h2, e2⟩ | ⟨h2, e2⟩ <;>
    rcases wsub_elim x c hx hc with ⟨h3, e3⟩ | ⟨h3, e3⟩ <;>
    omega

theorem wsub_add {tv x : Nat} (htv : tv < M) (hx : x < M) :
    wsub ((tv + x) % M) tv = x := by
  rcases lt_or_le (tv + x) M with h | h
  · rw [Nat.mod_eq_of_lt h, wsub_of_le h (by omega)]
    omega
  · have h2 : (tv + x) % M = tv + x - M := by
      rw [Nat.mod_eq_sub_mod h, Nat.mod_eq_of_lt (by omega)]
    rw [h2, wsub_of_gt htv (by omega)]
    omega


theorem ringOK_iff (ls : List Nat) :
    ringOK ls ↔ List.Chain'
      (fun x y => wsub x (ls.headD 0) < wsub y (ls.headD 0)) ls :=
  List.chain'_map _

theorem ringOK_pairwise {ls : List Nat} (h : ringOK ls) :
    List.Pairwise (fun x y => wsub x (ls.headD 0) < wsub y (ls.headD 0)) ls :=
  List.pairwise_map.1 (List.chain'_iff_pairwise.1 h)

theorem headD_mem {ls : List Nat} (h : ls ≠ []) : ls.headD 0 ∈ ls := by
  cases ls with
  | nil => exact absurd rfl h
  | cons x xs => exact List.mem_cons_self x xs

theorem getElem_mem_drop {ls : List Nat} {k : Nat} (hk : k < ls.length) :
    ls[k] ∈ ls.drop k := by
  have h2 : (ls.drop k).head? = some ls[k] := by
    rw [List.head?_drop, List.getElem?_eq_getElem hk]
  exact List.mem_of_mem_head? h2

theorem ringOK_rotate {ls : List Nat} {k : Nat} (hk : k < ls.length)
    (hlt : ∀ l ∈ ls, l < M) (h : ringOK ls) :
    ringOK (ls.drop k ++ ls.take k) := by
  rcases Nat.eq_zero_or_pos k with rfl | hk0
  · simpa using h
  have hne : ls ≠ [] := by
    intro he
    rw [he] at hk
    cases hk
  have hbM : ls.headD 0 < M := hlt _ (headD_mem hne)
  have hkM : ls[k] < M := hlt _ (List.getElem_mem hk)
  have hpair := ringOK_pairwise h
  have hdropP := hpair.sublist (List.drop_sublist k ls)
  have htakeP := hpair.sublist (List.take_sublist k ls)
  have hcross : ∀ x ∈ ls.take k, ∀ y ∈ ls.drop k,
      wsub x (ls.headD 0) < wsub y (ls.headD 0) := by
    have h2 : List.Pairwise
        (fun x y => wsub x (ls.headD 0) < wsub y (ls.headD 0))
        (ls.take k ++ ls.drop k) := by
      rw [List.take_append_drop]
      exact hpair
    rw [List.pairwise_append] at h2
    exact h2.2.2
  have hF1 : ∀ y ∈ ls.drop k,
      wsub ls[k] (ls.headD 0) ≤ wsub y (ls.headD 0) := by
    intro y hy
    rw [List.drop_eq_getElem_cons hk] at hy
    rcases List.mem_cons.1 hy with rfl | hy2
    · exact Nat.le_refl _
    · have h3 := hpair.sublist (List.drop_sublist k ls)
      rw [List.drop_eq_getElem_cons hk, List.pairwise_cons] at h3
      exact Nat.le_of_lt (h3.1 y hy2)
  have hF2 : ∀ x ∈ ls.take k,
      wsub x (ls.headD 0) < wsub ls[k] (ls.headD 0) := by
    intro x hx
    exact hcross x hx _ (getElem_mem_drop hk)
  have hhead : (ls.drop k ++ ls.take k).headD 0 = ls[k] := by
    rw [List.drop_eq_getElem_cons hk]
    rfl
  rw [ringOK_iff]
  simp only [hhead]
  rw [List.chain'_append]
  refine ⟨?_, ?_, ?_⟩
  · apply List.Pairwise.chain'
    apply hdropP.imp_of_mem
    intro a b ha hb hab
    rw [wsub_shift_ge (hlt a (List.mem_of_mem_drop ha)) hbM hkM (hF1 a ha),
      wsub_shift_ge (hlt b (List.mem_of_mem_drop hb)) hbM hkM (hF1 b hb)]
    have h5 := hF1 a ha
    omega
  · apply List.Pairwise.chain'
    apply htakeP.imp_of_mem
    intro a b ha hb hab
    rw [wsub_shift_lt (hlt a (List.mem_of_mem_take ha)) hbM hkM (hF2 a ha),
      wsub_shift_lt (hlt b (List.mem_of_mem_take hb)) hbM hkM (hF2 b hb)]
    have h5 := hF2 a ha
    have h6 := hF2 b hb
    have h7 := wsub_lt ls[k] (ls.headD 0)
    omega
  · intro x hx y hy
    have hxm : x ∈ ls.drop k := List.mem_of_mem_getLast? hx
    have hym : y ∈ ls.take k := List.mem_of_mem_head? hy
    rw [wsub_shift_ge (hlt x (List.mem_of_mem_drop hxm)) hbM hkM (hF1 x hxm),
      wsub_shift_lt (hlt y (List.mem_of_mem_take hym)) hbM hkM (hF2 y hym)]
    have h5 := wsub_lt x (ls.headD 0)
    have h6 := hF1 x hxm
    have h7 := wsub_lt ls[k] (ls.headD 0)
    omega

theorem rot_rot {A : Type} (ls : List A) (k : Nat) (hk : k ≤ ls.length) :
    ((ls.drop k ++ ls.take k).drop (ls.length - k)) ++
      ((ls.drop k ++ ls.take k).take (ls.length - k)) = ls := by
  have h1 : (ls.drop k).length = ls.length - k := List.length_drop k ls
  rw [List.drop_append_of_le_length (by omega),
    List.take_append_of_le_length (by omega)]
  rw [List.drop_drop]
  rw [show k + (ls.length - k) = ls.length by omega,
    List.drop_length, List.nil_append]
  have h3 : (ls.drop k).take (ls.length - k) = ls.drop k := by
    apply List.take_of_length_le
    omega
  rw [h3, List.take_append_drop]

theorem mem_rot {A : Type} {ls : List A} {k : Nat} {x : A} :
    x ∈ ls.drop k ++ ls.take k ↔ x ∈ ls := by
  constructor
  · intro h
    rcases List.mem_append.1 h with h2 | h2
    · exact List.mem_of_mem_drop h2
    · exact List.mem_of_mem_take h2
  · intro h
    rw [← List.take_append_drop k ls] at h
    rcases List.mem_append.1 h with h2 | h2
    · exact List.mem_append.2 (Or.inr h2)
    · exact List.mem_append.2 (Or.inl h2)

theorem ringOK_unrotate {ls : List Nat} {k : Nat} (hk : k < ls.length)
    (hlt : ∀ l ∈ ls, l < M) (h : ringOK (ls.drop k ++ ls.take k)) :
    ringOK ls := by
  rcases Nat.eq_zero_or_pos k with rfl | hk0
  · simpa using h
  have h2 := @ringOK_rotate (ls.drop k ++ ls.take k) (ls.length - k)
    (by
      rw [List.length_append, List.length_drop, List.length_take]
      omega)
    (by
      intro l hl
      exact hlt l (mem_rot.1 hl)) h
  rw [rot_rot ls k (Nat.le_of_lt hk)] at h2
  exact h2

theorem searchJ_some {l : List Nat} {tv k j : Nat}
    (h : searchJ l tv k = some j) :
    k ≤ j ∧ j - k < l.length ∧ j * j ≤ wsub (l.getD (j - k) 0) tv ∧
      (∀ i, k ≤ i → i < j → wsub (l.getD (i - k) 0) tv < i * i) := by
  induction l generalizing k with
  | nil => cases h
  | cons x rest ih =>
    rw [searchJ] at h
    split at h
    next hc =>
      injection h with hj
      subst hj
      refine ⟨Nat.le_refl _, by simp, ?_, ?_⟩
      · simpa using hc
      · intro i h1 h2
        omega
    next hc =>
      rcases ih h with ⟨h1, h2, h3, h4⟩
      refine ⟨by omega, ?_, ?_, ?_⟩
      · simp only [List.length_cons]
        omega
      · have he : j - k = (j - (k + 1)) + 1 := by omega
        rw [he]
        simpa using h3
      · intro i hik hij
        rcases Nat.eq_or_lt_of_le hik with rfl | hik2
        · simpa using Nat.lt_of_not_le (fun hcon => hc hcon)
        · have he : i - k = (i - (k + 1)) + 1 := by omega
          rw [he]
          simpa using h4 i (by omega) hij

theorem range_map_getD {A : Type} (l : List A) (j : Nat) (d : A)
    (hj : j ≤ l.length) :
    (List.range j).map (fun i => l.getD i d) = l.take j := by
  induction j with
  | zero => simp
  | succ n ih =>
    rw [List.range_succ, List.map_append, ih (by omega)]
    have h1 : n < l.length := by omega
    rw [List.take_succ, List.getElem?_eq_getElem h1]
    simp [List.getD_eq_getElem?_getD, List.getElem?_eq_getElem h1]

theorem headD_drop {A : Type} {l : List A} {k : Nat} (hk : k < l.length)
    (d : A) : (l.drop k).headD d = l[k] := by
  rw [List.headD_eq_head?, List.head?_drop, List.getElem?_eq_getElem hk]
  rfl

theorem getD_eq_get {A : Type} {l : List A} {i : Nat} (d : A)
    (h : i < l.length) : l.getD i d = l[i] := by
  rw [List.getD_eq_getElem?_getD, List.getElem?_eq_getElem h]
  rfl

theorem renum_labels {rl : List Nat} {tv j : Nat}
    (htv : tv < M) (hlt : ∀ l ∈ rl, l < M)
    (hj1 : 1 ≤ j) (hjn : j < rl.length)
    (hgap : j * j ≤ wsub (rl.getD j 0) tv)
    (hsuffix : List.Chain' (· < ·) ((rl.drop j).map (fun x => wsub x tv))) :
    ringOK (((List.range j).map (fun i =>
      (tv + (wsub (rl.getD j 0) tv / j) * i) % M)) ++ rl.drop j) := by
  obtain ⟨m, rfl⟩ : ∃ m, j = m + 1 := ⟨j - 1, by omega⟩
  have hgapM : wsub (rl.getD (m + 1) 0) tv < M := wsub_lt _ _
  have hq1 : m + 1 ≤ wsub (rl.getD (m + 1) 0) tv / (m + 1) :=
    (Nat.le_div_iff_mul_le (by omega)).2 hgap
  have hmul : ∀ i, i < m + 1 →
      wsub (rl.getD (m + 1) 0) tv / (m + 1) * i <
        wsub (rl.getD (m + 1) 0) tv := by
    intro i hi
    have h1 : wsub (rl.getD (m + 1) 0) tv / (m + 1) * (m + 1) ≤
        wsub (rl.getD (m + 1) 0) tv := Nat.div_mul_le_self _ _
    have h2 : wsub (rl.getD (m + 1) 0) tv / (m + 1) * (i + 1) ≤
        wsub (rl.getD (m + 1) 0) tv / (m + 1) * (m + 1) :=
      Nat.mul_le_mul_left _ (by omega)
    have h3 : wsub (rl.getD (m + 1) 0) tv / (m + 1) * (i + 1) =
        wsub (rl.getD (m + 1) 0) tv / (m + 1) * i +
        wsub (rl.getD (m + 1) 0) tv / (m + 1) := by ring
    omega
  have hvals : ∀ i, i < m + 1 →
      wsub ((tv + wsub (rl.getD (m + 1) 0) tv / (m + 1) * i) % M) tv =
        wsub (rl.getD (m + 1) 0) tv / (m + 1) * i := by
    intro i hi
    exact wsub_add htv (by
      have := hmul i hi
      omega)
  have hhead : ((((List.range (m + 1)).map (fun i =>
      (tv + wsub (rl.getD (m + 1) 0) tv / (m + 1) * i) % M)) ++
      rl.drop (m + 1)).headD 0) = tv := by
    rw [List.range_succ_eq_map]
    simp [Nat.mod_eq_of_lt htv]
  rw [ringOK_iff]
  simp only [hhead]
  rw [List.chain'_append]
  refine ⟨?_, ?_, ?_⟩
  · rw [List.chain'_map]
    rw [List.chain'_range_succ]
    intro i hi
    rw [hvals i (by omega), hvals (i + 1) (by omega)]
    have h4 : 1 ≤ wsub (rl.getD (m + 1) 0) tv / (m + 1) := by omega
    have h5 : wsub (rl.getD (m + 1) 0) tv / (m + 1) * (i + 1) =
        wsub (rl.getD (m + 1) 0) tv / (m + 1) * i +
        wsub (rl.getD (m + 1) 0) tv / (m + 1) := by ring
    omega
  · rw [List.chain'_map] at hsuffix
    exact hsuffix
  · intro x hx y hy
    have hxval : x = (tv + wsub (rl.getD (m + 1) 0) tv / (m + 1) * m) % M := by
      rw [List.range_succ, List.map_append] at hx
      simp only [List.map_cons, List.map_nil, List.getLast?_concat,
        Option.mem_def] at hx
      injection hx with h6
      exact h6.symm
    have hyval : y = rl[m + 1] := by
      rw [List.head?_drop, List.getElem?_eq_getElem hjn, Option.mem_def] at hy
      injection hy with h6
      exact h6.symm
    subst hxval
    subst hyval
    rw [hvals m (by omega)]
    rw [getD_eq_get 0 hjn] at hmul hq1 hgap ⊢
    exact hmul m (by omega)

theorem getD_map {A B : Type} {l : List A} {i : Nat} (f : A → B) (d : B)
    (d2 : A) (h : i < l.length) : (l.map f).getD i d = f (l.getD i d2) := by
  rw [getD_eq_get d (by simpa using h), getD_eq_get d2 h]
  simp

theorem getD_drop {A : Type} {l : List A} {k i : Nat} (d : A) :
    (l.drop k).getD i d = l.getD (k + i) d := by
  rw [List.getD_eq_getElem?_getD, List.getD_eq_getElem?_getD,
    List.getElem?_drop]

theorem headD_append_left {A : Type} {l1 l2 : List A} {d : A} (h : l1 ≠ []) :
    (l1 ++ l2).headD d = l1.headD d := by
  cases l1 with
  | nil => exact absurd rfl h
  | cons x xs => rfl

theorem drop_ne_nil {A : Type} {l : List A} {k : Nat} (h : k < l.length) :
    l.drop k ≠ [] := by
  intro he
  have := List.length_drop k l
  rw [he] at this
  simp at this
  omega

theorem renumber_spec {gs gs4 : List Group} {gi : Nat}
    (hgi : gi < gs.length)
    (hM : ∀ g ∈ gs, g.label < M)
    (hdup : ((gs.drop gi ++ gs.take gi).map Group.label).getD 1 0 =
      gs[gi].label)
    (hchain2 : List.Chain' (· < ·)
      ((((gs.drop gi ++ gs.take gi).map Group.label).drop 2).map
        (fun x => wsub x gs[gi].label)))
    (hr : renumber gs gi = some gs4) :
    ringOK (gs4.map Group.label) ∧ (∀ g ∈ gs4, g.label < M) ∧
      gs4.map Group.nodes = gs.map Group.nodes ∧ gs4.length = gs.length := by
  unfold renumber at hr
  have hrotne : gs.drop gi ≠ [] := drop_ne_nil hgi
  have htveq : ((gs.drop gi ++ gs.take gi).headD ⟨0, []⟩).label =
      gs[gi].label := by
    rw [headD_append_left hrotne, List.headD_eq_head?, List.head?_drop,
      List.getElem?_eq_getElem hgi]
    rfl
  simp only [htveq] at hr
  cases hsj : searchJ (((gs.drop gi ++ gs.take gi).drop 1).map Group.label)
      gs[gi].label 1 with
  | none =>
    rw [hsj] at hr
    cases hr
  | some j =>
    rw [hsj] at hr
    injection hr with hr4
    rcases searchJ_some hsj with ⟨hj1, hj2, hj3, hj4⟩
    have hrlen : (gs.drop gi ++ gs.take gi).length = gs.length := by
      rw [List.length_append, List.length_drop, List.length_take]
      omega
    have hjn : j < gs.length := by
      rw [List.length_map, List.length_drop, hrlen] at hj2
      omega
    have htvM : gs[gi].label < M := hM _ (List.getElem_mem hgi)
    have hj2' : j ≥ 2 := by
      by_contra hcon
      have hje : j = 1 := by omega
      subst hje
      rw [List.map_drop, getD_drop] at hj3
      have he1 : (1 + (1 - 1)) = 1 := by rfl
      rw [he1, hdup, wsub_self htvM] at hj3
      omega
    have hrotM : ∀ l ∈ (gs.drop gi ++ gs.take gi).map Group.label, l < M := by
      intro l hl
      rcases List.mem_map.1 hl with ⟨g, hg, rfl⟩
      exact hM g (mem_rot.1 hg)
    have hrllen : ((gs.drop gi ++ gs.take gi).map Group.label).length =
        gs.length := by
      rw [List.length_map, hrlen]
    have hj3' : j * j ≤
        wsub (((gs.drop gi ++ gs.take gi).map Group.label).getD j 0)
          gs[gi].label := by
      rw [List.map_drop, getD_drop] at hj3
      rw [show (1 + (j - 1)) = j by omega] at hj3
      exact hj3
    have hsuffix : List.Chain' (· < ·)
        ((((gs.drop gi ++ gs.take gi).map Group.label).drop j).map
          (fun x => wsub x gs[gi].label)) := by
      have h1 := List.chain'_iff_pairwise.1 hchain2
      have h2 := h1.sublist
        (List.drop_sublist (j - 2)
          ((((gs.drop gi ++ gs.take gi).map Group.label).drop 2).map
            (fun x => wsub x gs[gi].label)))
      rw [← List.map_drop, List.drop_drop] at h2
      first
      | rw [show (j - 2 + 2) = j by omega] at h2
      | rw [show (2 + (j - 2)) = j by omega] at h2
      exact h2.chain'
    have hmain := renum_labels
      htvM hrotM (by omega) (by omega) hj3' hsuffix
    have hgapD : ((gs.drop gi ++ gs.take gi).getD j ⟨0, []⟩).label =
        ((gs.drop gi ++ gs.take gi).map Group.label).getD j 0 :=
      (getD_map Group.label 0 ⟨0, []⟩ (by omega)).symm
    have hlab2 : (((List.range j).map (fun i =>
        Group.mk ((gs[gi].label +
          wsub ((gs.drop gi ++ gs.take gi).getD j ⟨0, []⟩).label
            gs[gi].label / j * i) % M)
          (((gs.drop gi ++ gs.take gi).getD i ⟨0, []⟩).nodes))) ++
        (gs.drop gi ++ gs.take gi).drop j).map Group.label =
        ((List.range j).map (fun i =>
          (gs[gi].label +
            wsub (((gs.drop gi ++ gs.take gi).map Group.label).getD j 0)
              gs[gi].label / j * i) % M)) ++
        (((gs.drop gi ++ gs.take gi).map Group.label).drop j) := by
      rw [List.map_append, List.map_map, List.map_drop]
      rw [hgapD]
      rfl
    have hnodes2 : (((List.range j).map (fun i =>
        Group.mk ((gs[gi].label +
          wsub ((gs.drop gi ++ gs.take gi).getD j ⟨0, []⟩).label
            gs[gi].label / j * i) % M)
          (((gs.drop gi ++ gs.take gi).getD i ⟨0, []⟩).nodes))) ++
        (gs.drop gi ++ gs.take gi).drop j).map Group.nodes =
        ((gs.map Group.nodes).drop gi ++ (gs.map Group.nodes).take gi) := by
      rw [List.map_append, List.map_map]
      have h3 : (List.range j).map
          (Group.nodes ∘ (fun i =>
            Group.mk ((gs[gi].label +
              wsub ((gs.drop gi ++ gs.take gi).getD j ⟨0, []⟩).label
                gs[gi].label / j * i) % M)
              (((gs.drop gi ++ gs.take gi).getD i ⟨0, []⟩).nodes))) =
          (List.range j).map
            (fun i => ((gs.drop gi ++ gs.take gi).getD i ⟨0, []⟩).nodes) := rfl
      rw [h3]
      have h4 : (List.range j).map
          (fun i => ((gs.drop gi ++ gs.take gi).getD i ⟨0, []⟩).nodes) =
          ((List.range j).map
            (fun i => (gs.drop gi ++ gs.take gi).getD i ⟨0, []⟩)).map
            Group.nodes := by
        rw [List.map_map]
        rfl
      rw [h4, range_map_getD _ _ _ (by omega)]
      rw [← List.map_append, List.take_append_drop, List.map_append,
        List.map_drop, List.map_take]
    have hlen2 : (((List.range j).map (fun i =>
        Group.mk ((gs[gi].label +
          wsub ((gs.drop gi ++ gs.take gi).getD j ⟨0, []⟩).label
            gs[gi].label / j * i) % M)
          (((gs.drop gi ++ gs.take gi).getD i ⟨0, []⟩).nodes))) ++
        (gs.drop gi ++ gs.take gi).drop j).length = gs.length := by
      rw [List.length_append, List.length_map, List.length_range,
        List.length_drop, hrlen]
      omega
    rw [← hr4]
    refine ⟨?_, ?_, ?_, ?_⟩
    · rw [List.map_append, List.map_drop, List.map_take, hlab2]
      rcases Nat.eq_zero_or_pos gi with rfl | hgi0
      · have hz : gs.length - 0 = ((((List.range j).map (fun i =>
            (gs[0].label +
              wsub (((gs.drop 0 ++ gs.take 0).map Group.label).getD j 0)
                gs[0].label / j * i) % M)) ++
            (((gs.drop 0 ++ gs.take 0).map Group.label).drop j)).length) := by
          rw [List.length_append, List.length_map, List.length_range,
            List.length_drop, hrllen]
          omega
        rw [hz, List.drop_length, List.take_length, List.nil_append]
        exact hmain
      · apply @ringOK_rotate _ (gs.length - gi)
        · rw [List.length_append, List.length_map, List.length_range,
            List.length_drop, hrllen]
          omega
        · intro l hl
          rcases List.mem_append.1 hl with hl2 | hl2
          · rcases List.mem_map.1 hl2 with ⟨i, hi, rfl⟩
            exact Nat.mod_lt _ M_pos
          · exact hrotM l (List.mem_of_mem_drop hl2)
        · exact hmain
    · intro g hg
      have hg2 : g ∈ ((List.range j).map (fun i =>
          Group.mk ((gs[gi].label +
            wsub ((gs.drop gi ++ gs.take gi).getD j ⟨0, []⟩).label
              gs[gi].label / j * i) % M)
            (((gs.drop gi ++ gs.take gi).getD i ⟨0, []⟩).nodes))) ++
          (gs.drop gi ++ gs.take gi).drop j := mem_rot.1 hg
      rcases List.mem_append.1 hg2 with hg3 | hg3
      · rcases List.mem_map.1 hg3 with ⟨i, hi, rfl⟩
        exact Nat.mod_lt _ M_pos
      · have hg4 : g ∈ gs.drop gi ++ gs.take gi := List.mem_of_mem_drop hg3
        exact hM g (mem_rot.1 hg4)
    · rw [List.map_append, List.map_drop, List.map_take, hnodes2]
      have hx := rot_rot (gs.map Group.nodes) gi (by
        rw [List.length_map]
        omega)
      rw [List.length_map] at hx
      exact hx
    · rw [List.length_append, List.length_drop, List.length_take, hlen2]
      omega

theorem wsub_pred {nxt t : Nat} (h1 : nxt < M) (ht : t < M) :
    (wsub nxt t = 0 → wsub (wsub nxt 1) t = M - 1) ∧
    (1 ≤ wsub nxt t → wsub (wsub nxt 1) t = wsub nxt t - 1) := by
  have hM1 : (1 : Nat) < M := by decide
  rcases wsub_elim nxt 1 h1 hM1 with ⟨h2, e2⟩ | ⟨h2, e2⟩ <;>
    rcases wsub_elim (wsub nxt 1) t (wsub_lt nxt 1) ht with ⟨h3, e3⟩ | ⟨h3, e3⟩ <;>
    rcases wsub_elim nxt t h1 ht with ⟨h4, e4⟩ | ⟨h4, e4⟩ <;>
    constructor <;> intro h5 <;> omega

theorem wsub_add_right {t b c : Nat} (ht : t < M) (hb : b < M)
    (h : wsub t b + c < M) : wsub ((t + c) % M) b = wsub t b + c := by
  have hc : c < M := by omega
  rcases lt_or_le (t + c) M with h2 | h2
  · rw [Nat.mod_eq_of_lt h2]
    rcases wsub_elim (t + c) b h2 hb with ⟨h3, e3⟩ | ⟨h3, e3⟩ <;>
      rcases wsub_elim t b ht hb with ⟨h4, e4⟩ | ⟨h4, e4⟩ <;> omega
  · have h5 : (t + c) % M = t + c - M := by
      rw [Nat.mod_eq_sub_mod h2, Nat.mod_eq_of_lt (by omega)]
    rw [h5]
    rcases wsub_elim (t + c - M) b (by omega) hb with ⟨h3, e3⟩ | ⟨h3, e3⟩ <;>
      rcases wsub_elim t b ht hb with ⟨h4, e4⟩ | ⟨h4, e4⟩ <;> omega

theorem length_insAfterIdx {A : Type} {l : List A} {i : Nat} {v : A}
    (hi : i < l.length) : (insAfterIdx l i v).length = l.length + 1 := by
  unfold insAfterIdx
  rw [List.length_append, List.length_append, List.length_take,
    List.length_drop]
  simp
  omega

theorem headD_insAfterIdx {A : Type} {l : List A} {i : Nat} {v d : A}
    (hl : l ≠ []) : (insAfterIdx l i v).headD d = l.headD d := by
  unfold insAfterIdx
  cases l with
  | nil => exact absurd rfl hl
  | cons x xs =>
    rw [List.take_succ_cons]
    rfl

theorem take_insAfterIdx {A : Type} {l : List A} {i : Nat} {v : A}
    (hi : i < l.length) :
    (insAfterIdx l i v).take (i + 1) = l.take (i + 1) := by
  unfold insAfterIdx
  rw [List.append_assoc, List.take_left' (by
    rw [List.length_take]
    omega)]

theorem drop_insAfterIdx {A : Type} {l : List A} {i : Nat} {v : A}
    (hi : i < l.length) :
    (insAfterIdx l i v).drop (i + 1) = v :: l.drop (i + 1) := by
  unfold insAfterIdx
  rw [List.append_assoc, List.drop_left' (by
    rw [List.length_take]
    omega)]
  rfl

theorem map_insAfterIdx {A B : Type} (f : A → B) (l : List A) (i : Nat)
    (v : A) : (insAfterIdx l i v).map f = insAfterIdx (l.map f) i (f v) := by
  unfold insAfterIdx
  rw [List.map_append, List.map_append, List.map_take, List.map_drop]
  rfl

theorem getD_append_lt {A : Type} {l1 l2 : List A} {k : Nat} (d : A)
    (h : k < l1.length) : (l1 ++ l2).getD k d = l1.getD k d := by
  rw [List.getD_eq_getElem?_getD, List.getD_eq_getElem?_getD,
    List.getElem?_append, if_pos h]

theorem getD_append_ge {A : Type} {l1 l2 : List A} {k : Nat} (d : A)
    (h : l1.length ≤ k) : (l1 ++ l2).getD k d = l2.getD (k - l1.length) d := by
  rw [List.getD_eq_getElem?_getD, List.getD_eq_getElem?_getD,
    List.getElem?_append, if_neg (by omega)]

theorem getD_insAfterIdx_le {A : Type} {l : List A} {i k : Nat} {v d : A}
    (hi : i < l.length) (hk : k ≤ i) :
    (insAfterIdx l i v).getD k d = l.getD k d := by
  unfold insAfterIdx
  rw [List.append_assoc, getD_append_lt d (by
    rw [List.length_take]
    omega)]
  rw [List.getD_eq_getElem?_getD, List.getD_eq_getElem?_getD,
    List.getElem?_take, if_pos (by omega)]

theorem getD_insAfterIdx_self {A : Type} {l : List A} {i : Nat} {v d : A}
    (hi : i < l.length) :
    (insAfterIdx l i v).getD (i + 1) d = v := by
  unfold insAfterIdx
  rw [List.append_assoc, getD_append_ge d (by
    rw [List.length_take]
    omega)]
  rw [List.length_take]
  rw [show i + 1 - min (i + 1) l.length = 0 by omega]
  rfl

theorem getD_insAfterIdx_gt {A : Type} {l : List A} {i k : Nat} {v d : A}
    (hi : i < l.length) (hk : i + 1 < k) :
    (insAfterIdx l i v).getD k d = l.getD (k - 1) d := by
  unfold insAfterIdx
  rw [List.append_assoc, getD_append_ge d (by
    rw [List.length_take]
    omega)]
  rw [List.length_take, show min (i + 1) l.length = i + 1 by omega]
  have h2 : k - (i + 1) = (k - (i + 1) - 1) + 1 := by omega
  rw [h2]
  show (l.drop (i + 1)).getD (k - (i + 1) - 1) d = l.getD (k - 1) d
  rw [getD_drop]
  congr 1
  omega

theorem mem_insAfterIdx {A : Type} {l : List A} {i : Nat} {v x : A} :
    x ∈ insAfterIdx l i v ↔ x ∈ l ∨ x = v := by
  unfold insAfterIdx
  constructor
  · intro h
    rcases List.mem_append.1 h with h2 | h2
    · rcases List.mem_append.1 h2 with h3 | h3
      · exact Or.inl (List.mem_of_mem_take h3)
      · exact Or.inr (List.mem_singleton.1 h3)
    · exact Or.inl (List.mem_of_mem_drop h2)
  · intro h
    rcases h with h2 | rfl
    · rw [← List.take_append_drop (i + 1) l] at h2
      rcases List.mem_append.1 h2 with h3 | h3
      · exact List.mem_append.2 (Or.inl (List.mem_append.2 (Or.inl h3)))
      · exact List.mem_append.2 (Or.inr h3)
    · exact List.mem_append.2 (Or.inl (List.mem_append.2 (Or.inr
        (List.mem_singleton.2 rfl))))

theorem chain'_insAfterIdx {A : Type} {R : A → A → Prop} {l : List A}
    {i : Nat} {v : A} (hi : i < l.length) (h : List.Chain' R l)
    (h1 : R (l.getD i v) v)
    (h2 : ∀ hlt : i + 1 < l.length, R v (l.getD (i + 1) v)) :
    List.Chain' R (insAfterIdx l i v) := by
  induction l generalizing i with
  | nil => cases hi
  | cons x xs ih =>
    cases i with
    | zero =>
      show List.Chain' R (x :: v :: xs)
      rw [List.chain'_cons]
      refine ⟨h1, ?_⟩
      cases xs with
      | nil => simp
      | cons y ys =>
        rw [List.chain'_cons]
        refine ⟨h2 (by simp), ?_⟩
        rw [List.chain'_cons] at h
        exact h.2
    | succ n =>
      have hxs : xs ≠ [] := by
        intro he
        rw [he] at hi
        simp at hi
      have hstep : insAfterIdx (x :: xs) (n + 1) v = x :: insAfterIdx xs n v := by
        unfold insAfterIdx
        rw [List.take_succ_cons, List.drop_succ_cons]
        rfl
      rw [hstep]
      cases xs with
      | nil => exact absurd rfl hxs
      | cons y ys =>
        rw [List.chain'_cons] at h
        have hih := ih (by
          simp at hi
          simpa using hi) h.2 h1 (fun hlt => h2 (by
            simp at hlt
            simpa using hlt))
        have hne : insAfterIdx (y :: ys) n v ≠ [] := by
          unfold insAfterIdx
          rw [List.take_succ_cons]
          simp
        cases hc : insAfterIdx (y :: ys) n v with
        | nil => exact absurd hc hne
        | cons z zs =>
          rw [List.chain'_cons]
          have hz : z = y := by
            have hh : (insAfterIdx (y :: ys) n v).headD v = y := by
              rw [headD_insAfterIdx (by simp)]
              rfl
            rw [hc] at hh
            exact hh
          subst hz
          rw [hc] at hih
          exact ⟨h.1, hih⟩

theorem chain'_getD {A : Type} {R : A → A → Prop} {l : List A} (d : A)
    (h : List.Chain' R l) {i : Nat} (hi : i + 1 < l.length) :
    R (l.getD i d) (l.getD (i + 1) d) := by
  rw [getD_eq_get d (by omega), getD_eq_get d hi]
  have h2 := List.chain'_iff_get.1 h i (by omega)
  simpa using h2

theorem pairwise_getD {A : Type} {R : A → A → Prop} {l : List A} (d : A)
    (h : List.Pairwise R l) {i j : Nat} (hij : i < j) (hj : j < l.length) :
    R (l.getD i d) (l.getD j d) := by
  rw [getD_eq_get d (by omega), getD_eq_get d hj]
  exact List.pairwise_iff_getElem.1 h i j (by omega) hj hij

theorem getD_zero_headD {A : Type} (l : List A) (d : A) :
    l.getD 0 d = l.headD d := by
  cases l <;> rfl

theorem ringOK_ne_nil {ls : List Nat} (h : ls ≠ []) : ls.headD 0 ∈ ls :=
  headD_mem h

theorem ringOK_insAfter {rl : List Nat} {gi value : Nat}
    (hgi : gi < rl.length) (hring : ringOK rl)
    (hlow : wsub (rl.getD gi 0) (rl.headD 0) < wsub value (rl.headD 0))
    (hhigh : ∀ _ : gi + 1 < rl.length,
      wsub value (rl.headD 0) < wsub (rl.getD (gi + 1) 0) (rl.headD 0)) :
    ringOK (insAfterIdx rl gi value) := by
  have hne : rl ≠ [] := by
    intro he
    rw [he] at hgi
    cases hgi
  rw [ringOK_iff]
  have hhead : (insAfterIdx rl gi value).headD 0 = rl.headD 0 :=
    headD_insAfterIdx hne
  simp only [hhead]
  apply chain'_insAfterIdx hgi ((ringOK_iff rl).1 hring)
  · rw [getD_eq_get value hgi, ← getD_eq_get 0 hgi]
    exact hlow
  · intro hlt
    rw [getD_eq_get value hlt, ← getD_eq_get 0 hlt]
    exact hhigh hlt

theorem split_value_facts {rl : List Nat} {gi : Nat}
    (hgi : gi < rl.length) (hM : ∀ l ∈ rl, l < M) (hring : ringOK rl)
    (hne : (rl.getD gi 0 +
        (wsub (wsub (rl.getD ((gi + 1) % rl.length) 0) 1) (rl.getD gi 0) + 1)
          / 2) % M ≠ rl.getD gi 0) :
    wsub (rl.getD gi 0) (rl.headD 0) <
      wsub ((rl.getD gi 0 +
        (wsub (wsub (rl.getD ((gi + 1) % rl.length) 0) 1) (rl.getD gi 0) + 1)
          / 2) % M) (rl.headD 0) ∧
    (∀ _ : gi + 1 < rl.length,
      wsub ((rl.getD gi 0 +
        (wsub (wsub (rl.getD ((gi + 1) % rl.length) 0) 1) (rl.getD gi 0) + 1)
          / 2) % M) (rl.headD 0) <
        wsub (rl.getD (gi + 1) 0) (rl.headD 0)) := by
  have hne2 : rl ≠ [] := by
    intro he
    rw [he] at hgi
    cases hgi
  have hbM : rl.headD 0 < M := hM _ (headD_mem hne2)
  have htM : rl.getD gi 0 < M := by
    rw [getD_eq_get 0 hgi]
    exact hM _ (List.getElem_mem hgi)
  have hpair := ringOK_pairwise hring
  have hd1 : ∀ d : Nat, 1 ≤ d →
      (wsub (rl.getD gi 0) (rl.headD 0) + (d + 1) / 2 < M →
        True) := fun _ _ _ => trivial
  rcases lt_or_le (gi + 1) rl.length with hcase | hcase
  · -- interior: next is rl[gi+1]
    have hmod : (gi + 1) % rl.length = gi + 1 := Nat.mod_eq_of_lt hcase
    rw [hmod] at hne ⊢
    have hnM : rl.getD (gi + 1) 0 < M := by
      rw [getD_eq_get 0 hcase]
      exact hM _ (List.getElem_mem hcase)
    have hadj : wsub (rl.getD gi 0) (rl.headD 0) <
        wsub (rl.getD (gi + 1) 0) (rl.headD 0) :=
      pairwise_getD 0 hpair (by omega) hcase
    have hsub : wsub (rl.getD (gi + 1) 0) (rl.getD gi 0) =
        wsub (rl.getD (gi + 1) 0) (rl.headD 0) -
          wsub (rl.getD gi 0) (rl.headD 0) :=
      wsub_shift_ge hnM hbM htM (by omega)
    have hd : wsub (wsub (rl.getD (gi + 1) 0) 1) (rl.getD gi 0) =
        wsub (rl.getD (gi + 1) 0) (rl.getD gi 0) - 1 :=
      (wsub_pred hnM htM).2 (by omega)
    have hdge : 1 ≤ wsub (wsub (rl.getD (gi + 1) 0) 1) (rl.getD gi 0) := by
      by_contra hcon
      have hz : wsub (wsub (rl.getD (gi + 1) 0) 1) (rl.getD gi 0) = 0 := by
        omega
      rw [hz] at hne
      exact hne (Nat.mod_eq_of_lt htM)
    have hval : wsub ((rl.getD gi 0 +
        (wsub (wsub (rl.getD (gi + 1) 0) 1) (rl.getD gi 0) + 1) / 2) % M)
        (rl.headD 0) = wsub (rl.getD gi 0) (rl.headD 0) +
          (wsub (wsub (rl.getD (gi + 1) 0) 1) (rl.getD gi 0) + 1) / 2 := by
      apply wsub_add_right htM hbM
      have h6 := wsub_lt (rl.getD (gi + 1) 0) (rl.headD 0)
      have h7 : (wsub (wsub (rl.getD (gi + 1) 0) 1) (rl.getD gi 0) + 1) / 2 ≤
          wsub (wsub (rl.getD (gi + 1) 0) 1) (rl.getD gi 0) + 1 := by omega
      omega
    rw [hval]
    constructor
    · have h8 : 1 ≤ (wsub (wsub (rl.getD (gi + 1) 0) 1) (rl.getD gi 0) + 1) / 2 := by
        omega
      omega
    · intro h9
      have h10 : (wsub (wsub (rl.getD (gi + 1) 0) 1) (rl.getD gi 0) + 1) / 2 ≤
          wsub (wsub (rl.getD (gi + 1) 0) 1) (rl.getD gi 0) := by omega
      omega
  · -- last group: next is the base
    have hmod : (gi + 1) % rl.length = 0 := by
      have he : gi + 1 = rl.length := by omega
      rw [he, Nat.mod_self]
    rw [hmod] at hne ⊢
    rw [getD_zero_headD] at hne ⊢
    have hM2 : 2 ≤ M := by decide
    rcases Nat.eq_zero_or_pos gi with rfl | hgi0
    · -- single position: inserting after the base, next is the base itself
      rw [getD_zero_headD] at hne ⊢
      have hW : wsub (rl.headD 0) (rl.headD 0) = 0 := wsub_self hbM
      have hD : wsub (wsub (rl.headD 0) 1) (rl.headD 0) = M - 1 :=
        (wsub_pred hbM hbM).1 hW
      rw [hD]
      have hval : wsub ((rl.headD 0 + (M - 1 + 1) / 2) % M) (rl.headD 0) =
          wsub (rl.headD 0) (rl.headD 0) + (M - 1 + 1) / 2 := by
        apply wsub_add_right hbM hbM
        rw [hW]
        omega
      rw [hval, hW]
      constructor
      · omega
      · intro h9
        omega
    · -- wrap at the last position
      have hdl : 1 ≤ wsub (rl.getD gi 0) (rl.headD 0) := by
        have h2 := pairwise_getD 0 hpair (show 0 < gi by omega) hgi
        rw [getD_zero_headD, wsub_self hbM] at h2
        omega
      have hW : wsub (rl.headD 0) (rl.getD gi 0) =
          M - wsub (rl.getD gi 0) (rl.headD 0) := by
        have h2 := wsub_shift_lt hbM hbM htM (by
          rw [wsub_self hbM]
          omega)
        rw [wsub_self hbM] at h2
        omega
      have hD : wsub (wsub (rl.headD 0) 1) (rl.getD gi 0) =
          M - wsub (rl.getD gi 0) (rl.headD 0) - 1 := by
        have h2 := (wsub_pred hbM htM).2 (by
          rw [hW]
          have := wsub_lt (rl.getD gi 0) (rl.headD 0)
          omega)
        omega
      rw [hD]
      have hdge : 1 ≤ M - wsub (rl.getD gi 0) (rl.headD 0) - 1 := by
        by_contra hcon
        have hz : M - wsub (rl.getD gi 0) (rl.headD 0) - 1 = 0 := by omega
        rw [hD, hz] at hne
        exact hne (Nat.mod_eq_of_lt htM)
      have hval : wsub ((rl.getD gi 0 +
          (M - wsub (rl.getD gi 0) (rl.headD 0) - 1 + 1) / 2) % M)
          (rl.headD 0) = wsub (rl.getD gi 0) (rl.headD 0) +
            (M - wsub (rl.getD gi 0) (rl.headD 0) - 1 + 1) / 2 := by
        apply wsub_add_right htM hbM
        omega
      rw [hval]
      constructor
      · omega
      · intro h9
        omega

theorem relabelFrom_ids (i : Nat) (l : List (Nat × Nat)) :
    (relabelFrom i l).map Prod.snd = l.map Prod.snd := by
  induction l generalizing i with
  | nil => rfl
  | cons nd rest ih =>
    rw [relabelFrom, List.map_cons, List.map_cons, ih]

theorem relabelFrom_length (i : Nat) (l : List (Nat × Nat)) :
    (relabelFrom i l).length = l.length := by
  induction l generalizing i with
  | nil => rfl
  | cons nd rest ih =>
    rw [relabelFrom, List.length_cons, List.length_cons, ih]

theorem relabelFrom_ne {i : Nat} {l : List (Nat × Nat)} (h : l ≠ []) :
    relabelFrom i l ≠ [] := by
  cases l with
  | nil => exact absurd rfl h
  | cons nd rest =>
    rw [relabelFrom]
    exact List.cons_ne_nil _ _

theorem relabelFrom_chain (i : Nat) (l : List (Nat × Nat)) :
    List.Chain' (fun a b => a.1 + HALF ≤ b.1) (relabelFrom i l) := by
  induction l generalizing i with
  | nil => exact List.chain'_nil
  | cons nd rest ih =>
    rw [relabelFrom]
    cases rest with
    | nil =>
      rw [relabelFrom]
      exact List.chain'_singleton _
    | cons nd2 rest2 =>
      rw [relabelFrom, List.chain'_cons]
      refine ⟨?_, ?_⟩
      · show HALF * i + HALF ≤ HALF * (i + 1)
        have : HALF * (i + 1) = HALF * i + HALF := by ring
        omega
      · have := ih (i + 1)
        rw [relabelFrom] at this
        exact this

theorem relabelFrom_mem_label {i : Nat} {l : List (Nat × Nat)}
    {nd : Nat × Nat} (h : nd ∈ relabelFrom i l) :
    ∃ k, k < l.length ∧ nd.1 = HALF * (i + k) := by
  induction l generalizing i with
  | nil => cases h
  | cons nd2 rest ih =>
    rw [relabelFrom] at h
    rcases List.mem_cons.1 h with rfl | h2
    · exact ⟨0, by simp, by simp⟩
    · rcases ih h2 with ⟨k, hk, he⟩
      refine ⟨k + 1, by simp; omega, ?_⟩
      rw [he]
      congr 1
      omega

theorem relabelFrom_last (i : Nat) {l : List (Nat × Nat)} (h : l ≠ []) :
    ∃ y, (relabelFrom i l).getLast? =
      some (HALF * (i + l.length - 1), y) := by
  induction l generalizing i with
  | nil => exact absurd rfl h
  | cons nd rest ih =>
    cases rest with
    | nil =>
      refine ⟨nd.2, ?_⟩
      rw [relabelFrom, relabelFrom]
      simp
    | cons nd2 rest2 =>
      rcases ih (i + 1) (List.cons_ne_nil _ _) with ⟨y, hy⟩
      refine ⟨y, ?_⟩
      rw [relabelFrom, relabelFrom]
      rw [List.getLast?_cons_cons]
      rw [relabelFrom] at hy
      rw [hy]
      have heq : i + 1 + (nd2 :: rest2).length - 1 =
          i + (nd :: nd2 :: rest2).length - 1 := by
        rw [List.length_cons, List.length_cons, List.length_cons]
        omega
      rw [heq]


theorem insAfterIdx_decomp {A : Type} {l : List A} {i : Nat} {v : A} (d : A)
    (hi : i < l.length) :
    insAfterIdx l i v = l.take i ++ l.getD i d :: v :: l.drop (i + 1) := by
  unfold insAfterIdx
  rw [getD_eq_get d hi, List.take_succ, List.getElem?_eq_getElem hi]
  simp only [Option.toList_some, List.append_assoc, List.singleton_append,
    List.cons_append, List.nil_append]

theorem take_getD_drop {A : Type} {l : List A} {i : Nat} (d : A)
    (hi : i < l.length) :
    l.take i ++ l.getD i d :: l.drop (i + 1) = l := by
  rw [getD_eq_get d hi]
  rw [← List.set_eq_take_cons_drop _ hi]
  apply List.ext_getElem
  · simp
  · intro k h1 h2
    rcases eq_or_ne k i with rfl | hne
    · rw [List.getElem_set_self]
    · rw [List.getElem_set_ne (Ne.symm hne)]

theorem GroupInv_of_nodes_eq {g g2 : Group} (h : g2.nodes = g.nodes)
    (hlab : g2.label < M) (hg : GroupInv g) : GroupInv g2 := by
  refine ⟨?_, ?_, hlab, ?_, ?_, ?_⟩
  · rw [h]
    exact hg.ne
  · rw [h]
    exact hg.size
  · rw [h]
    exact hg.nodeLt
  · rw [h]
    exact hg.chain
  · rw [h]
    exact hg.top

theorem groupInv_half {lab : Nat} {l : List (Nat × Nat)} (hlab : lab < M)
    (hlen : l.length = 32) : GroupInv ⟨lab, relabelHalf l⟩ := by
  have hL : (relabelHalf l).length = 32 := by
    unfold relabelHalf
    rw [relabelFrom_length, hlen]
  have hne : l ≠ [] := by
    intro he
    rw [he] at hlen
    cases hlen
  refine ⟨?_, ?_, hlab, ?_, ?_, ?_⟩
  · show relabelHalf l ≠ []
    unfold relabelHalf
    exact relabelFrom_ne hne
  · show (relabelHalf l).length ≤ 63
    omega
  · intro nd hnd
    show nd.1 < M
    unfold relabelHalf at hnd
    rcases relabelFrom_mem_label hnd with ⟨k, hk, he⟩
    rw [he]
    have h1 : HALF * (0 + k) ≤ HALF * 31 :=
      Nat.mul_le_mul_left _ (by omega)
    have h2 : HALF * 31 < M := by decide
    omega
  · show List.Chain' (fun a b =>
      a.1 + 2 ^ (63 - (relabelHalf l).length) ≤ b.1) (relabelHalf l)
    simp only [hL]
    have h1 := relabelFrom_chain 0 l
    apply List.Chain'.imp ?_ h1
    intro a b hab
    have h2 : (2 : Nat) ^ (63 - 32) ≤ HALF := by decide
    omega
  · intro x hx
    show x.1 + 2 ^ (63 - (relabelHalf l).length) ≤ M - 1
    simp only [hL]
    unfold relabelHalf at hx
    rcases relabelFrom_last 0 hne with ⟨y, hy⟩
    rw [hy, Option.mem_def] at hx
    injection hx with he
    rw [← he]
    show HALF * (0 + l.length - 1) + 2 ^ (63 - 32) ≤ M - 1
    rw [hlen]
    decide

theorem gs3_form {gs : List Group} {gi : Nat} (h1 h2 : Group)
    (hgi : gi < gs.length) :
    insAfterIdx (gs.set gi h1) gi h2 =
      gs.take gi ++ h1 :: h2 :: gs.drop (gi + 1) := by
  have hlen : gi < (gs.set gi h1).length := by
    rw [List.length_set]
    exact hgi
  rw [insAfterIdx_decomp h1 hlen]
  have hA : (gs.take gi).length = gi := by
    rw [List.length_take]
    omega
  rw [List.set_eq_take_cons_drop h1 hgi]
  rw [List.take_left' hA]
  rw [getD_append_ge h1 (by omega)]
  rw [show gi - (gs.take gi).length = 0 by omega]
  rw [show gi + 1 = (gs.take gi).length + 1 by omega, List.drop_append]
  rfl

theorem relabelHalf_ids (l : List (Nat × Nat)) :
    (relabelHalf l).map Prod.snd = l.map Prod.snd := relabelFrom_ids 0 l

theorem splitSuper_spec {gs gs' : List Group} {gi : Nat}
    (hgi : gi < gs.length)
    (hring : ringOK (gs.map Group.label))
    (hM : ∀ g ∈ gs, g.label < M)
    (hgood : ∀ g2 ∈ gs.take gi, GroupInv g2)
    (hgood2 : ∀ g2 ∈ gs.drop (gi + 1), GroupInv g2)
    (hs : splitSuper gs gi = some gs') :
    ringOK (gs'.map Group.label) ∧ (∀ g2 ∈ gs', GroupInv g2) ∧
      (gs'.map (fun g => g.nodes.map Prod.snd)).flatten =
        (gs.map (fun g => g.nodes.map Prod.snd)).flatten ∧
      gs'.length = gs.length + 1 := by
  have hGmem : gs.getD gi ⟨0, []⟩ ∈ gs := by
    rw [getD_eq_get ⟨0, []⟩ hgi]
    exact List.getElem_mem hgi
  have hGlab : (gs.getD gi ⟨0, []⟩).label < M := hM _ hGmem
  have hnpos : 0 < gs.length := by omega
  have hmodlt : (gi + 1) % gs.length < gs.length := Nat.mod_lt _ hnpos
  have hGlabD : (gs.map Group.label).getD gi 0 = (gs.getD gi ⟨0, []⟩).label :=
    getD_map Group.label 0 ⟨0, []⟩ hgi
  have hnxtD : (gs.map Group.label).getD ((gi + 1) % (gs.map Group.label).length) 0 =
      (gs.getD ((gi + 1) % gs.length) ⟨0, []⟩).label := by
    rw [List.length_map]
    exact getD_map Group.label 0 ⟨0, []⟩ hmodlt
  simp only [splitSuper] at hs
  split at hs
  case isFalse => cases hs
  case isTrue h64 =>
    have htake32 : ((gs.getD gi ⟨0, []⟩).nodes.take 32).length = 32 := by
      rw [List.length_take]
      omega
    have hdrop32 : ((gs.getD gi ⟨0, []⟩).nodes.drop 32).length = 32 := by
      rw [List.length_drop]
      omega
    have hvalM : ((gs.getD gi ⟨0, []⟩).label +
        (wsub (wsub (gs.getD ((gi + 1) % gs.length) ⟨0, []⟩).label 1)
          (gs.getD gi ⟨0, []⟩).label + 1) / 2) % M < M := Nat.mod_lt _ M_pos
    have hform := gs3_form
      ⟨(gs.getD gi ⟨0, []⟩).label, relabelHalf ((gs.getD gi ⟨0, []⟩).nodes.take 32)⟩
      ⟨((gs.getD gi ⟨0, []⟩).label +
        (wsub (wsub (gs.getD ((gi + 1) % gs.length) ⟨0, []⟩).label 1)
          (gs.getD gi ⟨0, []⟩).label + 1) / 2) % M,
        relabelHalf ((gs.getD gi ⟨0, []⟩).nodes.drop 32)⟩ hgi
    have hlen3 : (insAfterIdx (gs.set gi
        ⟨(gs.getD gi ⟨0, []⟩).label,
          relabelHalf ((gs.getD gi ⟨0, []⟩).nodes.take 32)⟩) gi
        ⟨((gs.getD gi ⟨0, []⟩).label +
          (wsub (wsub (gs.getD ((gi + 1) % gs.length) ⟨0, []⟩).label 1)
            (gs.getD gi ⟨0, []⟩).label + 1) / 2) % M,
          relabelHalf ((gs.getD gi ⟨0, []⟩).nodes.drop 32)⟩).length =
        gs.length + 1 := by
      rw [hform, List.length_append, List.length_cons, List.length_cons,
        List.length_take, List.length_drop]
      omega
    have hmem3 : ∀ g2 ∈ insAfterIdx (gs.set gi
        ⟨(gs.getD gi ⟨0, []⟩).label,
          relabelHalf ((gs.getD gi ⟨0, []⟩).nodes.take 32)⟩) gi
        ⟨((gs.getD gi ⟨0, []⟩).label +
          (wsub (wsub (gs.getD ((gi + 1) % gs.length) ⟨0, []⟩).label 1)
            (gs.getD gi ⟨0, []⟩).label + 1) / 2) % M,
          relabelHalf ((gs.getD gi ⟨0, []⟩).nodes.drop 32)⟩, GroupInv g2 := by
      intro g2 hg2
      rw [hform] at hg2
      rcases List.mem_append.1 hg2 with hg3 | hg3
      · exact hgood g2 hg3
      · rcases List.mem_cons.1 hg3 with rfl | hg4
        · exact groupInv_half hGlab htake32
        · rcases List.mem_cons.1 hg4 with rfl | hg5
          · exact groupInv_half hvalM hdrop32
          · exact hgood2 g2 hg5
    have hids3 : ((insAfterIdx (gs.set gi
        ⟨(gs.getD gi ⟨0, []⟩).label,
          relabelHalf ((gs.getD gi ⟨0, []⟩).nodes.take 32)⟩) gi
        ⟨((gs.getD gi ⟨0, []⟩).label +
          (wsub (wsub (gs.getD ((gi + 1) % gs.length) ⟨0, []⟩).label 1)
            (gs.getD gi ⟨0, []⟩).label + 1) / 2) % M,
          relabelHalf ((gs.getD gi ⟨0, []⟩).nodes.drop 32)⟩).map
          (fun g => g.nodes.map Prod.snd)).flatten =
        (gs.map (fun g => g.nodes.map Prod.snd)).flatten := by
      rw [hform]
      conv_rhs => rw [← take_getD_drop ⟨0, []⟩ hgi]
      rw [List.map_append, List.map_append, List.map_cons, List.map_cons,
        List.map_cons, List.flatten_append, List.flatten_append,
        List.flatten_cons, List.flatten_cons, List.flatten_cons]
      show _ ++ ((relabelHalf ((gs.getD gi ⟨0, []⟩).nodes.take 32)).map Prod.snd
        ++ ((relabelHalf ((gs.getD gi ⟨0, []⟩).nodes.drop 32)).map Prod.snd ++ _))
        = _ ++ ((gs.getD gi ⟨0, []⟩).nodes.map Prod.snd ++ _)
      rw [relabelHalf_ids, relabelHalf_ids]
      congr 1
      rw [List.map_take, List.map_drop, ← List.append_assoc,
        List.take_append_drop]
    have hlab3 : ((insAfterIdx (gs.set gi
        ⟨(gs.getD gi ⟨0, []⟩).label,
          relabelHalf ((gs.getD gi ⟨0, []⟩).nodes.take 32)⟩) gi
        ⟨((gs.getD gi ⟨0, []⟩).label +
          (wsub (wsub (gs.getD ((gi + 1) % gs.length) ⟨0, []⟩).label 1)
            (gs.getD gi ⟨0, []⟩).label + 1) / 2) % M,
          relabelHalf ((gs.getD gi ⟨0, []⟩).nodes.drop 32)⟩).map Group.label) =
        (gs.map Group.label).take gi ++ (gs.getD gi ⟨0, []⟩).label ::
          (((gs.getD gi ⟨0, []⟩).label +
            (wsub (wsub (gs.getD ((gi + 1) % gs.length) ⟨0, []⟩).label 1)
              (gs.getD gi ⟨0, []⟩).label + 1) / 2) % M) ::
          (gs.map Group.label).drop (gi + 1) := by
      rw [hform, List.map_append, List.map_cons, List.map_cons,
        List.map_take, List.map_drop]
    split at hs
    case isTrue hcol =>
      rw [hcol] at hs hform hlen3 hmem3 hids3
      have hAlen : (gs.take gi).length = gi := by
        rw [List.length_take]
        omega
      have hgi3 : gi < (insAfterIdx (gs.set gi
          ⟨(gs.getD gi ⟨0, []⟩).label,
            relabelHalf ((gs.getD gi ⟨0, []⟩).nodes.take 32)⟩) gi
          ⟨(gs.getD gi ⟨0, []⟩).label,
            relabelHalf ((gs.getD gi ⟨0, []⟩).nodes.drop 32)⟩).length := by
        rw [hlen3]
        omega
      have hdropgi : (insAfterIdx (gs.set gi
          ⟨(gs.getD gi ⟨0, []⟩).label,
            relabelHalf ((gs.getD gi ⟨0, []⟩).nodes.take 32)⟩) gi
          ⟨(gs.getD gi ⟨0, []⟩).label,
            relabelHalf ((gs.getD gi ⟨0, []⟩).nodes.drop 32)⟩).drop gi =
          ⟨(gs.getD gi ⟨0, []⟩).label,
            relabelHalf ((gs.getD gi ⟨0, []⟩).nodes.take 32)⟩ ::
          ⟨(gs.getD gi ⟨0, []⟩).label,
            relabelHalf ((gs.getD gi ⟨0, []⟩).nodes.drop 32)⟩ ::
          gs.drop (gi + 1) := by
        rw [hform]
        exact List.drop_left' hAlen
      have htakegi : (insAfterIdx (gs.set gi
          ⟨(gs.getD gi ⟨0, []⟩).label,
            relabelHalf ((gs.getD gi ⟨0, []⟩).nodes.take 32)⟩) gi
          ⟨(gs.getD gi ⟨0, []⟩).label,
            relabelHalf ((gs.getD gi ⟨0, []⟩).nodes.drop 32)⟩).take gi =
          gs.take gi := by
        rw [hform]
        exact List.take_left' hAlen
      have hgetD : (insAfterIdx (gs.set gi
          ⟨(gs.getD gi ⟨0, []⟩).label,
            relabelHalf ((gs.getD gi ⟨0, []⟩).nodes.take 32)⟩) gi
          ⟨(gs.getD gi ⟨0, []⟩).label,
            relabelHalf ((gs.getD gi ⟨0, []⟩).nodes.drop 32)⟩).getD gi
          ⟨0, []⟩ =
          ⟨(gs.getD gi ⟨0, []⟩).label,
            relabelHalf ((gs.getD gi ⟨0, []⟩).nodes.take 32)⟩ := by
        rw [hform, getD_append_ge _ (by omega),
          show gi - (gs.take gi).length = 0 by omega]
        rfl
      have hrgi : gi < (gs.map Group.label).length := by
        rw [List.length_map]
        exact hgi
      have hMl : ∀ l ∈ gs.map Group.label, l < M := by
        intro l hl
        rcases List.mem_map.1 hl with ⟨g, hg, rfl⟩
        exact hM g hg
      have hchainBA : List.Chain' (· < ·)
          ((((gs.map Group.label).drop (gi + 1) ++
            (gs.map Group.label).take gi)).map
            (fun x => wsub x (gs.getD gi ⟨0, []⟩).label)) := by
        have hrot := @ringOK_rotate _ gi hrgi hMl hring
        have hd : (gs.map Group.label).drop gi =
            (gs.map Group.label).getD gi 0 ::
              (gs.map Group.label).drop (gi + 1) := by
          rw [getD_eq_get 0 hrgi]
          exact List.drop_eq_getElem_cons hrgi
        rw [hd, hGlabD] at hrot
        unfold ringOK deltas at hrot
        rw [List.cons_append] at hrot
        have hhd : (((gs.getD gi ⟨0, []⟩).label ::
            ((gs.map Group.label).drop (gi + 1) ++
              (gs.map Group.label).take gi))).headD 0 =
            (gs.getD gi ⟨0, []⟩).label := rfl
        rw [hhd, List.map_cons] at hrot
        exact hrot.tail
      have hspec := renumber_spec
        hgi3 (fun g hg => (hmem3 g hg).labelLt) (by
          rw [hdropgi, htakegi]
          rw [← getD_eq_get ⟨0, []⟩ hgi3, hgetD]
          rfl) (by
          rw [hdropgi, htakegi]
          rw [← getD_eq_get ⟨0, []⟩ hgi3, hgetD]
          show List.Chain' (· < ·) (((⟨(gs.getD gi ⟨0, []⟩).label,
            relabelHalf ((gs.getD gi ⟨0, []⟩).nodes.take 32)⟩ ::
            ⟨(gs.getD gi ⟨0, []⟩).label,
              relabelHalf ((gs.getD gi ⟨0, []⟩).nodes.drop 32)⟩ ::
            gs.drop (gi + 1) ++ gs.take gi).map Group.label).drop 2 |>.map
            (fun x => wsub x (gs.getD gi ⟨0, []⟩).label))
          simp only [List.cons_append, List.map_cons, List.drop_succ_cons,
            List.drop_zero, List.map_append, List.map_drop, List.map_take]
          simp only [List.map_append, List.map_drop, List.map_take]
            at hchainBA
          exact hchainBA) hs
      refine ⟨hspec.1, ?_, ?_, ?_⟩
      · intro g2 hg2
        rcases List.mem_iff_getElem.1 hg2 with ⟨k, hk, he⟩
        have hklt3 : k < (insAfterIdx (gs.set gi
            ⟨(gs.getD gi ⟨0, []⟩).label,
              relabelHalf ((gs.getD gi ⟨0, []⟩).nodes.take 32)⟩) gi
            ⟨(gs.getD gi ⟨0, []⟩).label,
              relabelHalf ((gs.getD gi ⟨0, []⟩).nodes.drop 32)⟩).length := by
          rw [← hspec.2.2.2]
          exact hk
        have hnk : (gs'.getD k ⟨0, []⟩).nodes =
            ((insAfterIdx (gs.set gi
              ⟨(gs.getD gi ⟨0, []⟩).label,
                relabelHalf ((gs.getD gi ⟨0, []⟩).nodes.take 32)⟩) gi
              ⟨(gs.getD gi ⟨0, []⟩).label,
                relabelHalf ((gs.getD gi ⟨0, []⟩).nodes.drop 32)⟩).getD k
              ⟨0, []⟩).nodes := by
          have h5 := congrArg (fun l => l.getD k ([] : List (Nat × Nat)))
            hspec.2.2.1
          simp only at h5
          rw [getD_map Group.nodes [] ⟨0, []⟩ hk,
            getD_map Group.nodes [] ⟨0, []⟩ hklt3] at h5
          exact h5
        have hmemk : (insAfterIdx (gs.set gi
            ⟨(gs.getD gi ⟨0, []⟩).label,
              relabelHalf ((gs.getD gi ⟨0, []⟩).nodes.take 32)⟩) gi
            ⟨(gs.getD gi ⟨0, []⟩).label,
              relabelHalf ((gs.getD gi ⟨0, []⟩).nodes.drop 32)⟩).getD k
            ⟨0, []⟩ ∈ insAfterIdx (gs.set gi
            ⟨(gs.getD gi ⟨0, []⟩).label,
              relabelHalf ((gs.getD gi ⟨0, []⟩).nodes.take 32)⟩) gi
            ⟨(gs.getD gi ⟨0, []⟩).label,
              relabelHalf ((gs.getD gi ⟨0, []⟩).nodes.drop 32)⟩ := by
          rw [getD_eq_get ⟨0, []⟩ hklt3]
          exact List.getElem_mem hklt3
        have hlabk : (gs'.getD k ⟨0, []⟩).label < M := by
          apply hspec.2.1
          rw [getD_eq_get ⟨0, []⟩ hk]
          exact List.getElem_mem hk
        have hinv := GroupInv_of_nodes_eq hnk hlabk (hmem3 _ hmemk)
        rw [getD_eq_get ⟨0, []⟩ hk, he] at hinv
        exact hinv
      · have h8 : ∀ (l : List Group),
            l.map (fun g => g.nodes.map Prod.snd) =
            (l.map Group.nodes).map (fun nds => nds.map Prod.snd) := by
          intro l
          rw [List.map_map]
          rfl
        rw [h8, hspec.2.2.1, ← h8]
        exact hids3
      · rw [hspec.2.2.2, hlen3]
    case isFalse hcol =>
      injection hs with hs2
      subst hs2
      refine ⟨?_, hmem3, hids3, hlen3⟩
      rw [hlab3]
      have hrgi : gi < (gs.map Group.label).length := by
        rw [List.length_map]
        exact hgi
      have hMl : ∀ l ∈ gs.map Group.label, l < M := by
        intro l hl
        rcases List.mem_map.1 hl with ⟨g, hg, rfl⟩
        exact hM g hg
      have hne : ((gs.map Group.label).getD gi 0 +
          (wsub (wsub ((gs.map Group.label).getD
            ((gi + 1) % (gs.map Group.label).length) 0) 1)
            ((gs.map Group.label).getD gi 0) + 1) / 2) % M ≠
          (gs.map Group.label).getD gi 0 := by
        rw [hGlabD, hnxtD]
        exact hcol
      have hvfacts := split_value_facts hrgi hMl hring hne
      have hins := ringOK_insAfter hrgi hring hvfacts.1 hvfacts.2
      rw [insAfterIdx_decomp 0 hrgi, hGlabD, hnxtD] at hins
      exact hins

theorem idsOf_cons (g : Group) (gs : List Group) :
    idsOf (g :: gs) = g.nodes.map Prod.snd ++ idsOf gs := by
  simp [idsOf]

theorem idsOf_append (gs1 gs2 : List Group) :
    idsOf (gs1 ++ gs2) = idsOf gs1 ++ idsOf gs2 := by
  simp [idsOf]

theorem seqIds_eq (s : VL) : seqIds s = idsOf s.groups := rfl

theorem findIdx?_some_facts {A : Type} {l : List A} {p : A → Bool} {i : Nat}
    (d : A) (h : l.findIdx? p = some i) :
    i < l.length ∧ p (l.getD i d) = true ∧ ∀ k < i, p (l.getD k d) = false := by
  rw [List.findIdx?_eq_some_iff_findIdx_eq] at h
  obtain ⟨hlen, hidx⟩ := h
  refine ⟨hlen, ?_, ?_⟩
  · have hw : List.findIdx p l < l.length := by
      rw [hidx]
      exact hlen
    have h2 := @List.findIdx_getElem A p l hw
    rw [getD_eq_get d hlen]
    simp only [hidx] at h2
    exact h2
  · intro k hk
    have hk2 : k < List.findIdx p l := by omega
    have h2 := List.not_of_lt_findIdx hk2
    rw [getD_eq_get d (by omega)]
    exact h2

theorem findIdx?_eq_some_of {A : Type} {l : List A} {p : A → Bool} {i : Nat}
    (d : A) (hi : i < l.length) (hp : p (l.getD i d) = true)
    (hfirst : ∀ k < i, p (l.getD k d) = false) :
    l.findIdx? p = some i := by
  rw [List.findIdx?_eq_some_iff_findIdx_eq]
  refine ⟨hi, ?_⟩
  have hle : List.findIdx p l ≤ i := by
    by_contra hgt
    push_neg at hgt
    have h2 := List.not_of_lt_findIdx hgt
    rw [getD_eq_get d hi] at hp
    rw [h2] at hp
    cases hp
  rcases Nat.lt_or_ge (List.findIdx p l) i with hlt2 | hge
  · have hw : List.findIdx p l < l.length := by omega
    have h2 := hfirst _ hlt2
    have h3 := @List.findIdx_getElem A p l hw
    rw [getD_eq_get d hw] at h2
    rw [h2] at h3
    cases h3
  · omega

theorem locate_some_facts {gs : List Group} {a gi ni : Nat}
    (h : locate gs a = some (gi, ni)) :
    gi < gs.length ∧ ni < (gs.getD gi ⟨0, []⟩).nodes.length ∧
      ((gs.getD gi ⟨0, []⟩).nodes.getD ni (0, 0)).2 = a ∧
      (∀ k < ni, ((gs.getD gi ⟨0, []⟩).nodes.getD k (0, 0)).2 ≠ a) ∧
      ∀ g2 ∈ gs.take gi, a ∉ g2.nodes.map Prod.snd := by
  induction gs generalizing gi ni with
  | nil => cases h
  | cons g rest ih =>
    cases hf : g.nodes.findIdx? (fun nd => nd.2 == a) with
    | some n0 =>
      have he : locate (g :: rest) a = some (0, n0) := by
        simp only [locate, hf]
      rw [he] at h
      injection h with h1
      injection h1 with hgi hni
      subst hgi
      subst hni
      obtain ⟨h1, h2, h3⟩ := findIdx?_some_facts (0, 0) hf
      refine ⟨by simp, h1, ?_, ?_, ?_⟩
      · simpa using h2
      · intro k hk hkeq
        have h4 := h3 k hk
        simp only [beq_eq_false_iff_ne] at h4
        exact absurd hkeq h4
      · intro g2 hg2
        simp at hg2
    | none =>
      cases hr : locate rest a with
      | none =>
        have he : locate (g :: rest) a = none := by
          simp only [locate, hf, hr]
        rw [he] at h
        cases h
      | some p =>
        obtain ⟨gi0, ni0⟩ := p
        have he : locate (g :: rest) a = some (gi0 + 1, ni0) := by
          simp only [locate, hf, hr]
        rw [he] at h
        injection h with h1
        injection h1 with hgi hni
        subst hgi
        subst hni
        obtain ⟨h1, h2, h3, h4, h5⟩ := ih hr
        refine ⟨by simp; omega, h2, h3, h4, ?_⟩
        intro g2 hg2
        rw [List.take_succ_cons] at hg2
        rcases List.mem_cons.1 hg2 with rfl | hg2
        · intro hmem
          rcases List.mem_map.1 hmem with ⟨nd, hnd, hnda⟩
          have h6 := List.findIdx?_eq_none_iff.1 hf nd hnd
          rw [hnda] at h6
          simp at h6
        · exact h5 g2 hg2

theorem locate_none_iff {gs : List Group} {a : Nat} :
    locate gs a = none ↔ a ∉ idsOf gs := by
  induction gs with
  | nil =>
    simp [locate, idsOf]
  | cons g rest ih =>
    rw [idsOf_cons]
    constructor
    · intro h hmem
      cases hf : g.nodes.findIdx? (fun nd => nd.2 == a) with
      | some n0 =>
        have he : locate (g :: rest) a = some (0, n0) := by
          simp only [locate, hf]
        rw [he] at h
        cases h
      | none =>
        cases hr : locate rest a with
        | some p =>
          obtain ⟨gi0, ni0⟩ := p
          have he : locate (g :: rest) a = some (gi0 + 1, ni0) := by
            simp only [locate, hf, hr]
          rw [he] at h
          cases h
        | none =>
          rcases List.mem_append.1 hmem with hm | hm
          · rcases List.mem_map.1 hm with ⟨nd, hnd, hnda⟩
            have h6 := List.findIdx?_eq_none_iff.1 hf nd hnd
            rw [hnda] at h6
            simp at h6
          · exact (ih.1 hr) hm
    · intro h
      cases hf : g.nodes.findIdx? (fun nd => nd.2 == a) with
      | some n0 =>
        exfalso
        obtain ⟨h1, h2, _⟩ := findIdx?_some_facts (0, 0) hf
        apply h
        apply List.mem_append.2
        left
        apply List.mem_map.2
        refine ⟨g.nodes.getD n0 (0, 0), ?_, ?_⟩
        · rw [getD_eq_get (0, 0) h1]
          exact List.getElem_mem h1
        · simpa using h2
      | none =>
        cases hr : locate rest a with
        | some p =>
          exfalso
          obtain ⟨gi0, ni0⟩ := p
          obtain ⟨h1, h2, h3, _, _⟩ := locate_some_facts hr
          apply h
          apply List.mem_append.2
          right
          show a ∈ idsOf rest
          rw [show idsOf rest =
            ((rest.map (fun g => g.nodes.map Prod.snd)).flatten) from rfl]
          apply List.mem_flatten.2
          refine ⟨(rest.getD gi0 ⟨0, []⟩).nodes.map Prod.snd, ?_, ?_⟩
          · apply List.mem_map.2
            refine ⟨rest.getD gi0 ⟨0, []⟩, ?_, rfl⟩
            rw [getD_eq_get ⟨0, []⟩ h1]
            exact List.getElem_mem h1
          · apply List.mem_map.2
            refine ⟨(rest.getD gi0 ⟨0, []⟩).nodes.getD ni0 (0, 0), ?_, h3⟩
            rw [getD_eq_get (0, 0) h2]
            exact List.getElem_mem h2
        | none =>
          simp only [locate, hf, hr]

theorem mem_idsOf {gs : List Group} {a gi ni : Nat}
    (hgi : gi < gs.length)
    (hni : ni < (gs.getD gi ⟨0, []⟩).nodes.length)
    (ha : ((gs.getD gi ⟨0, []⟩).nodes.getD ni (0, 0)).2 = a) :
    a ∈ idsOf gs := by
  apply List.mem_flatten.2
  refine ⟨(gs.getD gi ⟨0, []⟩).nodes.map Prod.snd, ?_, ?_⟩
  · apply List.mem_map.2
    refine ⟨gs.getD gi ⟨0, []⟩, ?_, rfl⟩
    rw [getD_eq_get ⟨0, []⟩ hgi]
    exact List.getElem_mem hgi
  · apply List.mem_map.2
    refine ⟨(gs.getD gi ⟨0, []⟩).nodes.getD ni (0, 0), ?_, ha⟩
    rw [getD_eq_get (0, 0) hni]
    exact List.getElem_mem hni

theorem locate_eq_of_at {gs : List Group} {a gi ni : Nat}
    (hnd : (idsOf gs).Nodup) (hgi : gi < gs.length)
    (hni : ni < (gs.getD gi ⟨0, []⟩).nodes.length)
    (ha : ((gs.getD gi ⟨0, []⟩).nodes.getD ni (0, 0)).2 = a) :
    locate gs a = some (gi, ni) := by
  induction gs generalizing gi with
  | nil => cases hgi
  | cons g rest ih =>
    rw [idsOf_cons, List.nodup_append] at hnd
    obtain ⟨hnd1, hnd2, hdisj⟩ := hnd
    cases gi with
    | zero =>
      have hni0 : ni < g.nodes.length := hni
      have hf : g.nodes.findIdx? (fun nd => nd.2 == a) = some ni := by
        apply findIdx?_eq_some_of (0, 0) hni0
        · show ((g.nodes.getD ni (0, 0)).2 == a) = true
          have ha0 : ((g.nodes).getD ni (0, 0)).2 = a := ha
          rw [ha0, beq_self_eq_true]
        · intro k hk
          simp only [beq_eq_false_iff_ne]
          intro hkeq
          have h1 : (g.nodes.map Prod.snd).getD k 0 =
              (g.nodes.map Prod.snd).getD ni 0 := by
            rw [getD_map Prod.snd 0 (0, 0) (by omega),
              getD_map Prod.snd 0 (0, 0) hni0]
            rw [hkeq]
            exact ha.symm ▸ ha
          have h2 := pairwise_getD 0 hnd1 hk (by
            rw [List.length_map]
            exact hni0)
          exact h2 h1
      simp only [locate, hf]
    | succ gi0 =>
      have hgi0 : gi0 < rest.length := by
        simp at hgi
        omega
      have hmem : a ∈ idsOf rest := mem_idsOf hgi0 hni ha
      have hf : g.nodes.findIdx? (fun nd => nd.2 == a) = none := by
        rw [List.findIdx?_eq_none_iff]
        intro nd hnd3
        simp only [beq_eq_false_iff_ne]
        intro hnda
        exact hdisj (List.mem_map.2 ⟨nd, hnd3, hnda⟩) hmem
      have hr := ih hnd2 hgi0 hni ha
      simp only [locate, hf, hr]

theorem insAfter_append_left {l1 l2 : List Nat} {a n : Nat} (ha : a ∈ l1) :
    CellM.insAfter (l1 ++ l2) a n = CellM.insAfter l1 a n ++ l2 := by
  induction l1 with
  | nil => cases ha
  | cons x xs ih =>
    rcases eq_or_ne x a with rfl | hne
    · simp [CellM.insAfter]
    · rw [List.cons_append]
      rw [show CellM.insAfter (x :: (xs ++ l2)) a n =
        x :: CellM.insAfter (xs ++ l2) a n by simp [CellM.insAfter, hne]]
      rw [show CellM.insAfter (x :: xs) a n =
        x :: CellM.insAfter xs a n by simp [CellM.insAfter, hne]]
      rw [ih (by
        rcases List.mem_cons.1 ha with h | h
        · exact absurd h.symm hne
        · exact h)]
      rfl

theorem insAfter_append_right {l1 l2 : List Nat} {a n : Nat} (ha : a ∉ l1) :
    CellM.insAfter (l1 ++ l2) a n = l1 ++ CellM.insAfter l2 a n := by
  induction l1 with
  | nil => rfl
  | cons x xs ih =>
    have hne : x ≠ a := by
      intro he
      exact ha (he ▸ List.mem_cons_self x xs)
    rw [List.cons_append]
    rw [show CellM.insAfter (x :: (xs ++ l2)) a n =
      x :: CellM.insAfter (xs ++ l2) a n by simp [CellM.insAfter, hne]]
    rw [ih (fun h => ha (List.mem_cons_of_mem x h))]
    rfl

theorem insAfterIdx_cons_succ {A : Type} (x : A) (xs : List A) (n : Nat)
    (v : A) : insAfterIdx (x :: xs) (n + 1) v = x :: insAfterIdx xs n v := by
  unfold insAfterIdx
  rw [List.take_succ_cons, List.drop_succ_cons]
  rfl

theorem map_snd_insAfterIdx {nds : List (Nat × Nat)} {ni : Nat}
    {v id a : Nat} (hni : ni < nds.length)
    (ha : (nds.getD ni (0, 0)).2 = a)
    (hfirst : ∀ k < ni, (nds.getD k (0, 0)).2 ≠ a) :
    (insAfterIdx nds ni (v, id)).map Prod.snd =
      CellM.insAfter (nds.map Prod.snd) a id := by
  induction nds generalizing ni with
  | nil => cases hni
  | cons nd rest ih =>
    cases ni with
    | zero =>
      have ha0 : nd.2 = a := ha
      rw [show insAfterIdx (nd :: rest) 0 (v, id) =
        nd :: (v, id) :: rest from rfl]
      simp only [List.map_cons]
      rw [show CellM.insAfter (nd.2 :: rest.map Prod.snd) a id =
        nd.2 :: id :: rest.map Prod.snd by simp [CellM.insAfter, ha0]]
    | succ ni0 =>
      have hni0 : ni0 < rest.length := by
        simp at hni
        omega
      have hne : nd.2 ≠ a := hfirst 0 (by omega)
      rw [insAfterIdx_cons_succ]
      simp only [List.map_cons]
      rw [show CellM.insAfter (nd.2 :: rest.map Prod.snd) a id =
        nd.2 :: CellM.insAfter (rest.map Prod.snd) a id by
          simp [CellM.insAfter, hne]]
      rw [ih hni0 ha (fun k hk => hfirst (k + 1) (by omega))]

theorem not_mem_idsOf_take {gs : List Group} {a gi : Nat}
    (htake : ∀ g2 ∈ gs.take gi, a ∉ g2.nodes.map Prod.snd) :
    a ∉ idsOf (gs.take gi) := by
  intro hmem
  rcases List.mem_flatten.1 hmem with ⟨l, hl, hal⟩
  rcases List.mem_map.1 hl with ⟨g2, hg2, rfl⟩
  exact htake g2 hg2 hal

theorem idsOf_set_insert {gs : List Group} {gi ni : Nat}
    {lab v id a : Nat} (hgi : gi < gs.length)
    (hni : ni < (gs.getD gi ⟨0, []⟩).nodes.length)
    (ha : ((gs.getD gi ⟨0, []⟩).nodes.getD ni (0, 0)).2 = a)
    (hfirst : ∀ k < ni, ((gs.getD gi ⟨0, []⟩).nodes.getD k (0, 0)).2 ≠ a)
    (htake : ∀ g2 ∈ gs.take gi, a ∉ g2.nodes.map Prod.snd) :
    idsOf (gs.set gi
        ⟨lab, insAfterIdx (gs.getD gi ⟨0, []⟩).nodes ni (v, id)⟩) =
      CellM.insAfter (idsOf gs) a id := by
  rw [List.set_eq_take_cons_drop _ hgi]
  rw [show (List.take gi gs ++
      Group.mk lab (insAfterIdx (gs.getD gi ⟨0, []⟩).nodes ni (v, id)) ::
        List.drop (gi + 1) gs) =
    List.take gi gs ++
      ([Group.mk lab (insAfterIdx (gs.getD gi ⟨0, []⟩).nodes ni (v, id))] ++
        List.drop (gi + 1) gs) from rfl]
  rw [idsOf_append, idsOf_append]
  conv_rhs =>
    rw [← take_getD_drop ⟨0, []⟩ hgi]
  rw [show (List.take gi gs ++ gs.getD gi ⟨0, []⟩ :: List.drop (gi + 1) gs) =
    List.take gi gs ++ ([gs.getD gi ⟨0, []⟩] ++ List.drop (gi + 1) gs)
    from rfl]
  rw [idsOf_append, idsOf_append]
  rw [insAfter_append_right (not_mem_idsOf_take htake)]
  congr 1
  have hmem : a ∈ idsOf [gs.getD gi ⟨0, []⟩] := by
    exact @mem_idsOf [gs.getD gi ⟨0, []⟩] a 0 ni (by simp) hni ha
  rw [insAfter_append_left hmem]
  congr 1
  show (insAfterIdx (gs.getD gi ⟨0, []⟩).nodes ni (v, id)).map Prod.snd ++
      [] = CellM.insAfter ((gs.getD gi ⟨0, []⟩).nodes.map Prod.snd ++ []) a id
  rw [List.append_nil, List.append_nil]
  exact map_snd_insAfterIdx hni ha hfirst

theorem insAfter_of_not_mem {l : List Nat} {a n : Nat} (h : a ∉ l) :
    CellM.insAfter l a n = l := by
  induction l with
  | nil => rfl
  | cons x xs ih =>
    have hne : x ≠ a := fun he => h (he ▸ List.mem_cons_self x xs)
    rw [show CellM.insAfter (x :: xs) a n = x :: CellM.insAfter xs a n by
      simp [CellM.insAfter, hne]]
    rw [ih (fun h2 => h (List.mem_cons_of_mem x h2))]

theorem insAfter_perm {l : List Nat} {a : Nat} (ha : a ∈ l) (n : Nat) :
    (CellM.insAfter l a n).Perm (n :: l) := by
  induction l with
  | nil => cases ha
  | cons x xs ih =>
    rcases eq_or_ne x a with rfl | hne
    · rw [show CellM.insAfter (x :: xs) x n = x :: n :: xs by
        simp [CellM.insAfter]]
      exact List.Perm.swap n x xs
    · rw [show CellM.insAfter (x :: xs) a n = x :: CellM.insAfter xs a n by
        simp [CellM.insAfter, hne]]
      have hxs : a ∈ xs := by
        rcases List.mem_cons.1 ha with h | h
        · exact absurd h.symm hne
        · exact h
      exact ((ih hxs).cons x).trans (List.Perm.swap n x xs)

theorem insAfter_decomp {l : List Nat} {a : Nat} (ha : a ∈ l) (n : Nat) :
    ∃ l1 l2, l = l1 ++ a :: l2 ∧ a ∉ l1 ∧
      CellM.insAfter l a n = l1 ++ a :: n :: l2 := by
  induction l with
  | nil => cases ha
  | cons x xs ih =>
    rcases eq_or_ne x a with rfl | hne
    · refine ⟨[], xs, rfl, by simp, ?_⟩
      simp [CellM.insAfter]
    · have hxs : a ∈ xs := by
        rcases List.mem_cons.1 ha with h | h
        · exact absurd h.symm hne
        · exact h
      obtain ⟨l1, l2, he, hnm, hi⟩ := ih hxs
      refine ⟨x :: l1, l2, by rw [he]; rfl, ?_, ?_⟩
      · intro hm
        rcases List.mem_cons.1 hm with h | h
        · exact hne h.symm
        · exact hnm h
      · rw [show CellM.insAfter (x :: xs) a n = x :: CellM.insAfter xs a n by
          simp [CellM.insAfter, hne]]
        rw [hi]
        rfl


theorem map_label_set {gs : List Group} {gi : Nat} {nds : List (Nat × Nat)}
    (hgi : gi < gs.length) :
    (gs.set gi ⟨(gs.getD gi ⟨0, []⟩).label, nds⟩).map Group.label =
      gs.map Group.label := by
  apply List.ext_getElem
  · simp
  · intro k h1 h2
    rw [List.getElem_map, List.getElem_map]
    rcases eq_or_ne k gi with rfl | hne
    · rw [List.getElem_set_self]
      rw [getD_eq_get ⟨0, []⟩ hgi]
    · rw [List.getElem_set_ne (Ne.symm hne)]

theorem take_set {A : Type} {l : List A} {i : Nat} {v : A}
    (hi : i < l.length) : (l.set i v).take i = l.take i := by
  rw [List.set_eq_take_cons_drop v hi]
  rw [List.take_left' (by
    rw [List.length_take]
    omega)]

theorem drop_set_succ {A : Type} {l : List A} {i : Nat} {v : A}
    (hi : i < l.length) : (l.set i v).drop (i + 1) = l.drop (i + 1) := by
  rw [List.set_eq_take_cons_drop v hi]
  rw [show List.take i l ++ v :: List.drop (i + 1) l =
    (List.take i l ++ [v]) ++ List.drop (i + 1) l by simp]
  rw [List.drop_left' (by
    rw [List.length_append, List.length_take]
    simp
    omega)]

theorem getLast?_eq_getD {A : Type} {l : List A} (d : A) (h : l ≠ []) :
    l.getLast? = some (l.getD (l.length - 1) d) := by
  rw [List.getLast?_eq_getElem?]
  have hlen : l.length - 1 < l.length := by
    cases l with
    | nil => exact absurd rfl h
    | cons x xs => simp
  rw [List.getElem?_eq_getElem hlen, getD_eq_get d hlen]

theorem step_eq_nosplit {s : VL} {a gi ni value : Nat}
    (hloc : locate s.groups a = some (gi, ni))
    (hiv : insVal ((s.groups.getD gi ⟨0, []⟩).nodes.getD ni (0, 0)).1
      (if ni + 1 < (s.groups.getD gi ⟨0, []⟩).nodes.length
        then ((s.groups.getD gi ⟨0, []⟩).nodes.getD (ni + 1) (0, 0)).1
        else M - 1) = some value)
    (hns : (insAfterIdx (s.groups.getD gi ⟨0, []⟩).nodes ni
      (value, s.nextId)).length ≠ 64) :
    step s a = some ⟨s.groups.set gi ⟨(s.groups.getD gi ⟨0, []⟩).label,
      insAfterIdx (s.groups.getD gi ⟨0, []⟩).nodes ni (value, s.nextId)⟩,
      s.nextId + 1⟩ := by
  simp only [step, hloc, hiv, if_neg hns]

theorem step_eq_split {s : VL} {a gi ni value : Nat} {r : Option (List Group)}
    (hloc : locate s.groups a = some (gi, ni))
    (hiv : insVal ((s.groups.getD gi ⟨0, []⟩).nodes.getD ni (0, 0)).1
      (if ni + 1 < (s.groups.getD gi ⟨0, []⟩).nodes.length
        then ((s.groups.getD gi ⟨0, []⟩).nodes.getD (ni + 1) (0, 0)).1
        else M - 1) = some value)
    (hsp : (insAfterIdx (s.groups.getD gi ⟨0, []⟩).nodes ni
      (value, s.nextId)).length = 64)
    (hss : splitSuper (s.groups.set gi ⟨(s.groups.getD gi ⟨0, []⟩).label,
      insAfterIdx (s.groups.getD gi ⟨0, []⟩).nodes ni (value, s.nextId)⟩) gi
      = r) :
    step s a = match r with
      | none => none
      | some gs3 => some ⟨gs3, s.nextId + 1⟩ := by
  cases r with
  | none => simp only [step, hloc, hiv, if_pos hsp, hss]
  | some gs3 => simp only [step, hloc, hiv, if_pos hsp, hss]

theorem insert_half_bounds {prevV nextV len : Nat} (hlen : len ≤ 62)
    (hgap : prevV + 2 ^ (63 - len) ≤ nextV) :
    prevV + 2 ^ (63 - (len + 1)) ≤ prevV + (nextV - prevV + 1) / 2 ∧
      prevV + (nextV - prevV + 1) / 2 + 2 ^ (63 - (len + 1)) ≤ nextV := by
  have hP : 2 ^ (63 - (len + 1)) = 2 ^ (62 - len) := by
    congr 1
    omega
  have h2 : 2 ^ (63 - len) = 2 ^ (62 - len) * 2 := by
    rw [show 63 - len = (62 - len) + 1 by omega, pow_succ]
  rw [hP]
  rw [h2] at hgap
  omega

theorem groupInv_insert {g : Group} {ni value id prevV nextV : Nat}
    (hg : GroupInv g) (hni : ni < g.nodes.length)
    (hsize : g.nodes.length ≤ 62)
    (hprev : prevV = (g.nodes.getD ni (0, 0)).1)
    (hnext : nextV = (if ni + 1 < g.nodes.length
      then (g.nodes.getD (ni + 1) (0, 0)).1 else M - 1))
    (hvalue : value = prevV + (nextV - prevV + 1) / 2) :
    GroupInv ⟨g.label, insAfterIdx g.nodes ni (value, id)⟩ := by
  have hM0 : 0 < M := M_pos
  have hlen2 : (insAfterIdx g.nodes ni (value, id)).length =
      g.nodes.length + 1 := length_insAfterIdx hni
  have hgap : prevV + 2 ^ (63 - g.nodes.length) ≤ nextV := by
    by_cases hni1 : ni + 1 < g.nodes.length
    · rw [hnext, if_pos hni1, hprev]
      exact chain'_getD (0, 0) hg.chain hni1
    · rw [hnext, if_neg hni1, hprev]
      have hne0 : g.nodes ≠ [] := by
        intro he
        rw [he] at hni
        cases hni
      have htop := hg.top _ (getLast?_eq_getD (0, 0) hne0)
      have hnieq : ni = g.nodes.length - 1 := by omega
      rw [hnieq]
      exact htop
  have hnextle : nextV ≤ M - 1 := by
    by_cases hni1 : ni + 1 < g.nodes.length
    · rw [hnext, if_pos hni1]
      have hmem : g.nodes.getD (ni + 1) (0, 0) ∈ g.nodes := by
        rw [getD_eq_get (0, 0) hni1]
        exact List.getElem_mem hni1
      have := hg.nodeLt _ hmem
      omega
    · rw [hnext, if_neg hni1]
  have hbounds := insert_half_bounds hsize hgap
  have hprevlt : prevV < M := by
    have hmem : g.nodes.getD ni (0, 0) ∈ g.nodes := by
      rw [getD_eq_get (0, 0) hni]
      exact List.getElem_mem hni
    have := hg.nodeLt _ hmem
    rw [hprev]
    exact this
  have hvlt : value < M := by
    have h1 : 0 < 2 ^ (63 - (g.nodes.length + 1)) := Nat.pos_pow_of_pos _ (by omega)
    omega
  have hne2 : insAfterIdx g.nodes ni (value, id) ≠ [] := by
    intro he
    have := hlen2
    rw [he] at this
    simp at this
  refine ⟨hne2, ?_, hg.labelLt, ?_, ?_, ?_⟩
  · show (insAfterIdx g.nodes ni (value, id)).length ≤ 63
    omega
  · intro nd hnd
    rcases mem_insAfterIdx.1 hnd with h | rfl
    · exact hg.nodeLt _ h
    · exact hvlt
  · show List.Chain' (fun a b =>
      a.1 + 2 ^ (63 - (insAfterIdx g.nodes ni (value, id)).length) ≤ b.1)
      (insAfterIdx g.nodes ni (value, id))
    simp only [hlen2]
    apply chain'_insAfterIdx hni
    · apply List.Chain'.imp ?_ hg.chain
      intro x y hxy
      have hpow : 2 ^ (63 - (g.nodes.length + 1)) ≤
          2 ^ (63 - g.nodes.length) :=
        Nat.pow_le_pow_right (by norm_num) (by omega)
      omega
    · have he : g.nodes.getD ni (value, id) = g.nodes.getD ni (0, 0) := by
        rw [getD_eq_get _ hni, getD_eq_get _ hni]
      rw [he, ← hprev]
      show prevV + 2 ^ (63 - (g.nodes.length + 1)) ≤ value
      omega
    · intro hlt
      have he : g.nodes.getD (ni + 1) (value, id) =
          g.nodes.getD (ni + 1) (0, 0) := by
        rw [getD_eq_get _ hlt, getD_eq_get _ hlt]
      rw [he]
      show value + 2 ^ (63 - (g.nodes.length + 1)) ≤
        (g.nodes.getD (ni + 1) (0, 0)).1
      have hnx : nextV = (g.nodes.getD (ni + 1) (0, 0)).1 := by
        rw [hnext, if_pos hlt]
      omega
  · intro x hx
    rw [getLast?_eq_getD (0, 0) hne2, Option.mem_def] at hx
    injection hx with hxe
    subst hxe
    show ((insAfterIdx g.nodes ni (value, id)).getD
      ((insAfterIdx g.nodes ni (value, id)).length - 1) (0, 0)).1 +
      2 ^ (63 - (insAfterIdx g.nodes ni (value, id)).length) ≤ M - 1
    simp only [hlen2]
    rw [show g.nodes.length + 1 - 1 = g.nodes.length by omega]
    by_cases hni1 : ni + 1 < g.nodes.length
    · rw [getD_insAfterIdx_gt hni hni1]
      have hne0 : g.nodes ≠ [] := by
        intro he
        rw [he] at hni
        cases hni
      have htop := hg.top _ (getLast?_eq_getD (0, 0) hne0)
      have hpow : 2 ^ (63 - (g.nodes.length + 1)) ≤
          2 ^ (63 - g.nodes.length) :=
        Nat.pow_le_pow_right (by norm_num) (by omega)
      omega
    · have hnieq : g.nodes.length = ni + 1 := by omega
      have hgd : (insAfterIdx g.nodes ni (value, id)).getD g.nodes.length
          (0, 0) = (value, id) := by
        rw [hnieq]
        exact getD_insAfterIdx_self hni
      rw [hgd]
      show value + 2 ^ (63 - (g.nodes.length + 1)) ≤ M - 1
      have hnx : nextV = M - 1 := by
        rw [hnext, if_neg hni1]
      omega

theorem step_spec {s s2 : VL} {a : Nat} (hinv : Inv s)
    (hstep : step s a = some s2) :
    Inv s2 ∧
      (a ∈ idsOf s.groups →
        idsOf s2.groups = CellM.insAfter (idsOf s.groups) a s.nextId ∧
        s2.nextId = s.nextId + 1) ∧
      (a ∉ idsOf s.groups → s2 = s) := by
  cases hloc : locate s.groups a with
  | none =>
    have he : step s a = some s := by
      simp only [step, hloc]
    rw [he] at hstep
    injection hstep with h1
    subst h1
    exact ⟨hinv, fun hmem => absurd hmem (locate_none_iff.1 hloc),
      fun _ => rfl⟩
  | some p =>
    obtain ⟨gi, ni⟩ := p
    obtain ⟨hgi, hni, ha, hfirst, htake⟩ := locate_some_facts hloc
    have hmem : a ∈ idsOf s.groups := mem_idsOf hgi hni ha
    set g0 := s.groups.getD gi ⟨0, []⟩ with hg0d
    have hgmem : g0 ∈ s.groups := by
      rw [hg0d, getD_eq_get ⟨0, []⟩ hgi]
      exact List.getElem_mem hgi
    have hg := hinv.gwf _ hgmem
    have hM0 : 0 < M := M_pos
    set prevV := (g0.nodes.getD ni (0, 0)).1 with hprevd
    set nextV := (if ni + 1 < g0.nodes.length
      then (g0.nodes.getD (ni + 1) (0, 0)).1 else M - 1) with hnextd
    have hgap : prevV + 2 ^ (63 - g0.nodes.length) ≤ nextV := by
      rw [hnextd]
      by_cases hni1 : ni + 1 < g0.nodes.length
      · rw [if_pos hni1]
        exact chain'_getD (0, 0) hg.chain hni1
      · rw [if_neg hni1]
        have hne0 : g0.nodes ≠ [] := by
          intro he
          rw [he] at hni
          cases hni
        have htop := hg.top _ (getLast?_eq_getD (0, 0) hne0)
        have hnieq : ni = g0.nodes.length - 1 := by omega
        rw [hprevd, hnieq]
        exact htop
    have hposgap : 0 < 2 ^ (63 - g0.nodes.length) :=
      Nat.pos_pow_of_pos _ (by omega)
    have hiv : insVal prevV nextV = some (prevV + (nextV - prevV + 1) / 2) := by
      unfold insVal
      rw [if_neg (by omega)]
    have hvalue : prevV + (nextV - prevV + 1) / 2 =
        prevV + (nextV - prevV + 1) / 2 := rfl
    set value := prevV + (nextV - prevV + 1) / 2 with hvald
    set nodes2 := insAfterIdx g0.nodes ni (value, s.nextId) with hn2d
    set gs2 := s.groups.set gi ⟨g0.label, nodes2⟩ with hgs2d
    have hids2 : idsOf gs2 = CellM.insAfter (idsOf s.groups) a s.nextId :=
      idsOf_set_insert hgi hni ha hfirst htake
    have hnodup2 : (CellM.insAfter (idsOf s.groups) a s.nextId).Nodup := by
      rw [(insAfter_perm hmem s.nextId).nodup_iff, List.nodup_cons]
      exact ⟨fun h => absurd (hinv.idlt _ h) (lt_irrefl _), hinv.nodup⟩
    have hidlt2 : ∀ b ∈ CellM.insAfter (idsOf s.groups) a s.nextId,
        b < s.nextId + 1 := by
      intro b hb
      rw [(insAfter_perm hmem s.nextId).mem_iff] at hb
      rcases List.mem_cons.1 hb with rfl | hb
      · omega
      · have := hinv.idlt _ hb
        omega
    have hne2 : gs2 ≠ [] := by
      have h1 : gs2.length = s.groups.length := by
        rw [hgs2d, List.length_set]
      intro hnil
      rw [hnil] at h1
      simp at h1
      omega
    have hring2 : ringOK (gs2.map Group.label) := by
      rw [hgs2d, hg0d, map_label_set hgi]
      exact hinv.ring
    by_cases hsp : nodes2.length = 64
    · -- split case
      have hgi2 : gi < gs2.length := by
        rw [hgs2d, List.length_set]
        exact hgi
      have hM2 : ∀ g2 ∈ gs2, g2.label < M := by
        intro g2 hg2
        rcases List.mem_or_eq_of_mem_set hg2 with h | rfl
        · exact (hinv.gwf _ h).labelLt
        · exact hg.labelLt
      have hgood : ∀ g2 ∈ gs2.take gi, GroupInv g2 := by
        intro g2 hg2
        rw [hgs2d, take_set hgi] at hg2
        exact hinv.gwf _ (List.mem_of_mem_take hg2)
      have hgood2 : ∀ g2 ∈ gs2.drop (gi + 1), GroupInv g2 := by
        intro g2 hg2
        rw [hgs2d, drop_set_succ hgi] at hg2
        exact hinv.gwf _ (List.mem_of_mem_drop hg2)
      cases hss : splitSuper gs2 gi with
      | none =>
        have he := step_eq_split hloc hiv hsp hss
        rw [he] at hstep
        cases hstep
      | some gs3 =>
        have he := step_eq_split hloc hiv hsp hss
        rw [he] at hstep
        injection hstep with h1
        subst h1
        obtain ⟨hring3, hgwf3, hids3, hlen3⟩ :=
          splitSuper_spec hgi2 hring2 hM2 hgood hgood2 hss
        have hids3' : idsOf gs3 = idsOf gs2 := hids3
        refine ⟨⟨?_, hring3, hgwf3, ?_, ?_⟩, ?_, ?_⟩
        · show gs3 ≠ []
          intro hnil
          rw [hnil] at hlen3
          simp at hlen3
        · show (idsOf gs3).Nodup
          rw [hids3', hids2]
          exact hnodup2
        · intro b hb
          show b < s.nextId + 1
          have hb2 : b ∈ idsOf gs3 := hb
          rw [hids3', hids2] at hb2
          exact hidlt2 _ hb2
        · intro _
          refine ⟨?_, rfl⟩
          show idsOf gs3 = _
          rw [hids3', hids2]
        · intro hnot
          exact absurd hmem hnot
    · -- no split
      have he := step_eq_nosplit hloc hiv hsp
      rw [he] at hstep
      injection hstep with h1
      subst h1
      have hsize : g0.nodes.length ≤ 62 := by
        have h1 := hg.size
        have h2 : nodes2.length = g0.nodes.length + 1 :=
          length_insAfterIdx hni
        omega
      have hgwf2 : ∀ g2 ∈ gs2, GroupInv g2 := by
        intro g2 hg2
        rcases List.mem_or_eq_of_mem_set hg2 with h | rfl
        · exact hinv.gwf _ h
        · exact groupInv_insert hg hni hsize hprevd hnextd hvald
      refine ⟨⟨hne2, hring2, hgwf2, ?_, ?_⟩, ?_, ?_⟩
      · show (idsOf gs2).Nodup
        rw [hids2]
        exact hnodup2
      · intro b hb
        show b < s.nextId + 1
        have hb2 : b ∈ idsOf gs2 := hb
        rw [hids2] at hb2
        exact hidlt2 _ hb2
      · intro _
        exact ⟨hids2, rfl⟩
      · intro hnot
        exact absurd hmem hnot

theorem inv_init : Inv init := by
  refine ⟨by decide, ?_, ?_, ?_, ?_⟩
  · show ringOK [0]
    unfold ringOK deltas
    exact List.chain'_singleton _
  · intro g hm
    rw [show init.groups = [⟨0, [(0, 0)]⟩] from rfl, List.mem_singleton] at hm
    subst hm
    refine ⟨by decide, by decide, by decide, ?_, ?_, ?_⟩
    · intro nd hnd
      rw [List.mem_singleton] at hnd
      subst hnd
      decide
    · exact List.chain'_singleton _
    · intro x hx
      rw [show ([((0 : Nat), (0 : Nat))]).getLast? = some (0, 0) from rfl,
        Option.mem_def] at hx
      injection hx with he
      subst he
      decide
  · show ([(0, 0)].map Prod.snd ++ []).Nodup
    decide
  · intro b hb
    have hb2 : b ∈ [(0, 0)].map Prod.snd ++ [] := hb
    simp at hb2
    subst hb2
    decide

theorem runFrom_inv {s0 : VL} {ops : List Nat} {s : VL} (h0 : Inv s0)
    (h : runFrom s0 ops = some s) : Inv s := by
  induction ops generalizing s0 with
  | nil =>
    rw [show runFrom s0 [] = some s0 from rfl] at h
    injection h with h1
    subst h1
    exact h0
  | cons a rest ih =>
    cases hst : step s0 a with
    | none =>
      rw [show runFrom s0 (a :: rest) = none by simp only [runFrom, hst]] at h
      cases h
    | some s1 =>
      rw [show runFrom s0 (a :: rest) = runFrom s1 rest by
        simp only [runFrom, hst]] at h
      exact ih (step_spec h0 hst).1 h

theorem inv_run {ops : List Nat} {s : VL} (h : run ops = some s) : Inv s :=
  runFrom_inv inv_init h

theorem ordVals_at {s : VL} (hnd : (idsOf s.groups).Nodup) {gi ni a : Nat}
    (hgi : gi < s.groups.length)
    (hni : ni < (s.groups.getD gi ⟨0, []⟩).nodes.length)
    (ha : ((s.groups.getD gi ⟨0, []⟩).nodes.getD ni (0, 0)).2 = a) :
    ordVals s a = some (wsub (s.groups.getD gi ⟨0, []⟩).label
        (s.groups.headD ⟨0, []⟩).label,
      ((s.groups.getD gi ⟨0, []⟩).nodes.getD ni (0, 0)).1) := by
  have hloc := locate_eq_of_at hnd hgi hni ha
  simp only [ordVals, hloc]

theorem mem_idsOf_inv {gs : List Group} {a : Nat} (h : a ∈ idsOf gs) :
    ∃ gi ni, gi < gs.length ∧
      ni < (gs.getD gi ⟨0, []⟩).nodes.length ∧
      ((gs.getD gi ⟨0, []⟩).nodes.getD ni (0, 0)).2 = a := by
  rcases List.mem_flatten.1 h with ⟨l, hl, hal⟩
  rcases List.mem_map.1 hl with ⟨g, hgmem, rfl⟩
  rcases List.mem_iff_getElem.1 hgmem with ⟨gi, hgi, hge⟩
  rcases List.mem_map.1 hal with ⟨nd, hndmem, hnda⟩
  rcases List.mem_iff_getElem.1 hndmem with ⟨ni, hni2, hnde⟩
  have hgD : gs.getD gi ⟨0, []⟩ = g := by
    rw [getD_eq_get ⟨0, []⟩ hgi, hge]
  refine ⟨gi, ni, hgi, ?_, ?_⟩
  · rw [hgD]
    exact hni2
  · rw [hgD, getD_eq_get (0, 0) hni2, hnde, hnda]

theorem cmpPair_eq_self (p : Nat × Nat) : cmpPair p p = Ordering.eq := by
  have h1 : compare p.1 p.1 = Ordering.eq := Nat.compare_eq_eq.2 rfl
  have h2 : compare p.2 p.2 = Ordering.eq := Nat.compare_eq_eq.2 rfl
  simp only [cmpPair, h1, h2]

theorem cmpPair_lt_of_fst_eq {m x y : Nat} (h : x < y) :
    cmpPair (m, x) (m, y) = Ordering.lt := by
  have h1 : compare m m = Ordering.eq := Nat.compare_eq_eq.2 rfl
  have h2 : compare x y = Ordering.lt := Nat.compare_eq_lt.2 h
  simp only [cmpPair, h1, h2]

theorem cmpPair_gt_of_fst_eq {m x y : Nat} (h : x < y) :
    cmpPair (m, y) (m, x) = Ordering.gt := by
  have h1 : compare m m = Ordering.eq := Nat.compare_eq_eq.2 rfl
  have h2 : compare y x = Ordering.gt := Nat.compare_eq_gt.2 h
  simp only [cmpPair, h1, h2]

theorem cmpPair_lt_of_fst_lt {m1 m2 x y : Nat} (h : m1 < m2) :
    cmpPair (m1, x) (m2, y) = Ordering.lt := by
  have h1 : compare m1 m2 = Ordering.lt := Nat.compare_eq_lt.2 h
  simp only [cmpPair, h1]

theorem cmpPair_gt_of_fst_lt {m1 m2 x y : Nat} (h : m1 < m2) :
    cmpPair (m2, y) (m1, x) = Ordering.gt := by
  have h1 : compare m2 m1 = Ordering.gt := Nat.compare_eq_gt.2 h
  simp only [cmpPair, h1]

theorem inv_refl {s : VL} (hinv : Inv s) {a : Nat}
    (hmem : a ∈ idsOf s.groups) : cmpV s a a = some Ordering.eq := by
  obtain ⟨gi, ni, hgi, hni, ha⟩ := mem_idsOf_inv hmem
  have hov := ordVals_at hinv.nodup hgi hni ha
  simp only [cmpV, hov]
  rw [cmpPair_eq_self]

theorem map_label_headD {gs : List Group} (h : gs ≠ []) :
    (gs.map Group.label).headD 0 = (gs.headD ⟨0, []⟩).label := by
  cases gs with
  | nil => exact absurd rfl h
  | cons g rest => rfl

theorem nodes_pairwise_fst {g : Group} (hg : GroupInv g) :
    List.Pairwise (fun x y : Nat × Nat => x.1 < y.1) g.nodes := by
  haveI : IsTrans (Nat × Nat) (fun x y : Nat × Nat => x.1 < y.1) :=
    ⟨fun a b c h1 h2 => Nat.lt_trans h1 h2⟩
  apply List.chain'_iff_pairwise.1
  apply List.Chain'.imp ?_ hg.chain
  intro x y hxy
  have hp : 0 < 2 ^ (63 - g.nodes.length) := Nat.pos_pow_of_pos _ (by omega)
  omega

theorem inv_pairwise {s : VL} (hinv : Inv s) :
    List.Pairwise (fun a b => cmpV s a b = some Ordering.lt ∧
      cmpV s b a = some Ordering.gt) (idsOf s.groups) := by
  show List.Pairwise _
    ((s.groups.map (fun g => g.nodes.map Prod.snd)).flatten)
  rw [List.pairwise_flatten]
  constructor
  · intro l hl
    rcases List.mem_iff_getElem.1 hl with ⟨gi, hgi2, hle⟩
    rw [List.length_map] at hgi2
    have hle2 : l = (s.groups[gi]).nodes.map Prod.snd := by
      rw [← hle, List.getElem_map]
    subst hle2
    rw [List.pairwise_map, List.pairwise_iff_getElem]
    intro ni nj hni hnj hij
    have hgD : s.groups.getD gi ⟨0, []⟩ = s.groups[gi] :=
      getD_eq_get ⟨0, []⟩ hgi2
    have hovi := @ordVals_at s hinv.nodup gi ni _
      hgi2 (by rw [hgD]; exact hni) (by rw [hgD, getD_eq_get (0, 0) hni])
    have hovj := @ordVals_at s hinv.nodup gi nj _
      hgi2 (by rw [hgD]; exact hnj) (by rw [hgD, getD_eq_get (0, 0) hnj])
    rw [hgD, getD_eq_get (0, 0) hni] at hovi
    rw [hgD, getD_eq_get (0, 0) hnj] at hovj
    have hgmem : s.groups[gi] ∈ s.groups := List.getElem_mem hgi2
    have hpw := nodes_pairwise_fst (hinv.gwf _ hgmem)
    have hxy := List.pairwise_iff_getElem.1 hpw ni nj hni hnj hij
    constructor
    · simp only [cmpV, hovi, hovj]
      rw [cmpPair_lt_of_fst_eq hxy]
    · simp only [cmpV, hovi, hovj]
      rw [cmpPair_gt_of_fst_eq hxy]
  · rw [List.pairwise_iff_getElem]
    intro gi gj hgi hgj hij x hx y hy
    rw [List.length_map] at hgi hgj
    rw [List.getElem_map] at hx hy
    rcases List.mem_map.1 hx with ⟨ndx, hndxm, rfl⟩
    rcases List.mem_iff_getElem.1 hndxm with ⟨ni, hni, hnde⟩
    rcases List.mem_map.1 hy with ⟨ndy, hndym, rfl⟩
    rcases List.mem_iff_getElem.1 hndym with ⟨nj, hnj, hndf⟩
    have hgDi : s.groups.getD gi ⟨0, []⟩ = s.groups[gi] :=
      getD_eq_get ⟨0, []⟩ hgi
    have hgDj : s.groups.getD gj ⟨0, []⟩ = s.groups[gj] :=
      getD_eq_get ⟨0, []⟩ hgj
    have hovi := @ordVals_at s hinv.nodup gi ni _ hgi
      (by rw [hgDi]; exact hni)
      (by rw [hgDi, getD_eq_get (0, 0) hni, hnde])
    have hovj := @ordVals_at s hinv.nodup gj nj _ hgj
      (by rw [hgDj]; exact hnj)
      (by rw [hgDj, getD_eq_get (0, 0) hnj, hndf])
    have hne : s.groups ≠ [] := hinv.ne
    have hmaj := List.pairwise_iff_getElem.1 (ringOK_pairwise hinv.ring)
      gi gj (by rw [List.length_map]; exact hgi)
      (by rw [List.length_map]; exact hgj) hij
    rw [List.getElem_map, List.getElem_map, map_label_headD hne] at hmaj
    rw [hgDi] at hovi
    rw [hgDj] at hovj
    constructor
    · simp only [cmpV, hovi, hovj]
      rw [cmpPair_lt_of_fst_lt hmaj]
    · simp only [cmpV, hovi, hovj]
      rw [cmpPair_gt_of_fst_lt hmaj]


/-- C1: for every sequence of `insert_after` operations whose run returns
(each panic or divergence of the source is embedded as `none`), comparison
of extant versions is reflexive (`v == v` holds), and along the canonical
in-order sequence every earlier version compares `lt` against every later
one (and `gt` in reverse), so `versions[i] < versions[j]` whenever
`i < j`; moreover comparison agrees with insertion history: a successful
`insert_after` on version `a` places the fresh version directly after `a`
in the sequence, `a` compares `lt` against it, and no version extant at
the moment of insertion compares strictly between the two. -/
theorem version_order_spec (ops : List Nat) (s : VL)
    (hs : run ops = some s) :
    (∀ a ∈ seqIds s, cmpV s a a = some Ordering.eq) ∧
    List.Pairwise (fun a b => cmpV s a b = some Ordering.lt ∧
      cmpV s b a = some Ordering.gt) (seqIds s) ∧
    ∀ a s2, a ∈ seqIds s → step s a = some s2 →
      seqIds s2 = CellM.insAfter (seqIds s) a s.nextId ∧
      cmpV s2 a s.nextId = some Ordering.lt ∧
      ∀ c ∈ seqIds s, ¬(cmpV s2 a c = some Ordering.lt ∧
        cmpV s2 c s.nextId = some Ordering.lt) := by
  have hinv := inv_run hs
  refine ⟨?_, ?_, ?_⟩
  · intro a ha
    exact inv_refl hinv ha
  · exact inv_pairwise hinv
  · intro a s2 hmem hstep
    have hsp := step_spec hinv hstep
    have hinv2 : Inv s2 := hsp.1
    obtain ⟨hids, hnid⟩ := hsp.2.1 hmem
    obtain ⟨l1, l2, hdecomp, hnotm, hireq⟩ := insAfter_decomp hmem s.nextId
    have hpw2 := inv_pairwise hinv2
    have hids2 : idsOf s2.groups = l1 ++ a :: s.nextId :: l2 := by
      rw [hids]
      exact hireq
    rw [hids2, List.pairwise_append] at hpw2
    obtain ⟨hp1, hp2, hcross⟩ := hpw2
    rw [List.pairwise_cons] at hp2
    obtain ⟨hpa, hp3⟩ := hp2
    rw [List.pairwise_cons] at hp3
    obtain ⟨hpn, _⟩ := hp3
    refine ⟨hids, (hpa _ (List.mem_cons_self _ _)).1, ?_⟩
    rintro c hc ⟨hac, hcn⟩
    have hc2 : c ∈ l1 ++ a :: l2 := by
      rw [← hdecomp]
      exact hc
    rcases List.mem_append.1 hc2 with hcl1 | hcr
    · have hR := hcross c hcl1 a (List.mem_cons_self _ _)
      have hcontra := hR.2
      rw [hac] at hcontra
      injection hcontra with h
      cases h
    · rcases List.mem_cons.1 hcr with hceq | hcl2
      · subst hceq
        have hra : cmpV s2 c c = some Ordering.eq := by
          apply inv_refl hinv2
          rw [hids2]
          exact List.mem_append.2 (Or.inr (List.mem_cons_self _ _))
        rw [hac] at hra
        injection hra with h
        cases h
      · have hR := hpn c hcl2
        have hcontra := hR.2
        rw [hcn] at hcontra
        injection hcontra with h
        cases h

theorem version_order_spec_witness :
    (∀ a ∈ seqIds wVL, cmpV wVL a a = some Ordering.eq) ∧
    List.Pairwise (fun a b => cmpV wVL a b = some Ordering.lt ∧
      cmpV wVL b a = some Ordering.gt) (seqIds wVL) ∧
    ∀ a s2, a ∈ seqIds wVL → step wVL a = some s2 →
      seqIds s2 = CellM.insAfter (seqIds wVL) a wVL.nextId ∧
      cmpV s2 a wVL.nextId = some Ordering.lt ∧
      ∀ c ∈ seqIds wVL, ¬(cmpV s2 a c = some Ordering.lt ∧
        cmpV s2 c wVL.nextId = some Ordering.lt) :=
  version_order_spec [0, 0] wVL (by decide)

end VersionM
